import Mathlib

/-!
The virtiofs helper: tokenizer, config parser, `mkdir -p` and mount set-up.

A shallow embedding of `src/virtiofs-helper.c`.

* A C buffer is a `List Nat` of bytes, the whole allocation (terminator
  included); a `char *` into it is an offset.  An access outside the allocation
  is the error `Err.fault`.
* `enforce (cond, ...)` prints and calls `exit(1)`: a failed `enforce` is the
  error `Err.enforce site`.
* A `const char *` argument that is only read (`hostname`, `path`, `rootDir`) is
  the list of its bytes; it is read up to its first NUL, as C does.
* The loops carry a fuel bound so that they are structural recursions; the bound
  is the number of bytes of the buffer plus one, and the theorems on `parse_tokens0`,
  `parse_config` and `mkdir_p` show that the loops return before it is used up
  (`Err.fuel` is not a result of the code).
* The array `c->entry` is the list of its initialised elements; `c->reserved` is
  kept as the code computes it, in bytes.  `realloc` and `strdup` are taken to succeed.
* The `int` counters (`i`, `lineNo`) are natural numbers: they are bounded by the
  length of the buffer, which is far below `2^31` for any file this program reads.
-/

namespace VirtiofsHelper

/-! ## Errors -/

/-- The `enforce` call sites of the source, by their message. -/
inductive Site
  | delimNul            -- "arg 'delim' is NUL"
  | notTerminated       -- "string 'str0' is not NUL terminated"
  | missingHostname     -- "Missing Hostname"
  | noFileData          -- "No file data"
  | dataNotTerminated   -- "Config data was not NUL terminated"
  | embeddedNul (offset : Nat) -- "Config file contains a NUL byte at offset %td"
  | bug2                -- "BUG2": empty path
  | internalBug         -- "line %d: Internal BUG"
  | mkdir (path : List Nat) (errno : Nat) -- "mkdir(\"%s\"): %m"
  | seteuidLower        -- "seteuid(%d): '%m'"
  | seteuidRaise        -- "setuid(0): '%m'"
  | unshare             -- "unshare(): '%m'"
  | mountBind (source dest : List Nat)    -- "mount(\"%s\",\"%s\",,MS_BIND,): %m"
  | mountReadOnly (dest : List Nat)       -- "mount(,\"%s\",,MS_REMOUNT | MS_BIND | MS_RDONLY,): %m"
  | notOwnedByRoot      -- "unsafe: 'fs.list' not owned by root"
  | whoAreYou           -- "who are you?"
  | notRegularFile      -- "not regular file"
  | permission (bits : Nat) -- "permission %03o, (required 640)"
  | hostnameTooLong     -- "Why is your hostname that long?"
  deriving DecidableEq, Repr

/-- Ways a run ends without returning. -/
inductive Err
  | enforce (site : Site)  -- `enforce` failed: message on stderr, `exit(1)`
  | fault                  -- a read or write outside an allocation, or through NULL
  | fuel                   -- the iteration bound of a loop was reached (never happens)
  deriving DecidableEq, Repr

deriving instance DecidableEq for Except

/-! ## Memory primitives -/

/-- Read of `mem[i]`. -/
def load (mem : List Nat) (i : Nat) : Except Err Nat :=
  match mem[i]? with
  | some b => .ok b
  | none => .error .fault

/-- Write `mem[i] = v`. -/
def store {α : Type} (mem : List α) (i : Nat) (v : α) : Except Err (List α) :=
  if i < mem.length then .ok (mem.set i v) else .error .fault

/-- The libc `memchr (p, c, n)`: `rest` is the memory from `p` on; the offset of the
first byte equal to `c` among the `n` bytes at `p`, `none` (NULL) when there is none. -/
def memchr : List Nat → Nat → Nat → Nat → Except Err (Option Nat)
  | _, _, _, 0 => .ok none
  | [], _, _, _ + 1 => .error .fault
  | b :: rest, p, c, n + 1 => if b = c then .ok (some p) else memchr rest (p + 1) c n

/-- The loop `while ( *cp == delim ) ++cp;`, `rest` being the memory from `cp` on. -/
def skipDelim (delim : Nat) : List Nat → Nat → Except Err Nat
  | [], _ => .error .fault
  | b :: rest, cp => if b = delim then skipDelim delim rest (cp + 1) else .ok cp

/-- The bytes of the C string that starts the list `rest`: up to its first NUL. -/
def cstrFrom : List Nat → Except Err (List Nat)
  | [] => .error .fault
  | b :: rest =>
    if b = 0 then .ok []
    else match cstrFrom rest with
      | .ok s => .ok (b :: s)
      | .error e => .error e

/-- The C string at offset `p` of `mem`, as read by `strcmp`, `strlen`, `mkdir`, ... -/
def cstr (mem : List Nat) (p : Nat) : Except Err (List Nat) :=
  if p < mem.length then cstrFrom (mem.drop p) else .error .fault

/-- The bytes of a `const char *` argument given as a list: up to its first NUL. -/
def cstrOf (s : List Nat) : List Nat := s.takeWhile (fun b => b != 0)

/-- Apply `f` to every element, stopping at the first error. -/
def mapE {α β : Type} (f : α → Except Err β) : List α → Except Err (List β)
  | [] => .ok []
  | a :: l =>
    match f a with
    | .error e => .error e
    | .ok b =>
      match mapE f l with
      | .error e => .error e
      | .ok bs => .ok (b :: bs)

/-! ## Tokenizer -/

/-- What `parse_tokens0` leaves behind: the returned count, the `token` array and
the (mutated) buffer. -/
structure TokResult where
  count : Nat
  token : List (Option Nat)
  mem : List Nat
  deriving DecidableEq, Repr

/-- The `for ( ; cp < end; i++ )` loop of `parse_tokens0`. -/
def parse_tokens0_loop (tokenLength end_ delim : Nat) :
    Nat → Nat → Nat → List (Option Nat) → List Nat → Except Err TokResult
  | 0, _, _, _, _ => .error .fuel
  | fuel + 1, i, cp, token, mem =>
    if cp < end_ then
      -- if ( i < tokenLength ) token[i] = cp;
      match (if i < tokenLength then store token i (some cp) else .ok token) with
      | .error e => .error e
      | .ok token1 =>
        -- cp = memchr( cp, delim, end - cp ); if ( !cp ) return i+1;
        match memchr (mem.drop cp) cp delim (end_ - cp) with
        | .error e => .error e
        | .ok none => .ok ⟨i + 1, token1, mem⟩
        | .ok (some q) =>
          -- cp[0] = '\0'; cp++;
          match store mem q 0 with
          | .error e => .error e
          | .ok mem1 =>
            -- while ( *cp == delim ) ++cp;
            match skipDelim delim (mem1.drop (q + 1)) (q + 1) with
            | .error e => .error e
            | .ok cp1 => parse_tokens0_loop tokenLength end_ delim fuel (i + 1) cp1 token1 mem1
    else .ok ⟨i, token, mem⟩

/-- The function `parse_tokens0 (token, tokenLength, str0, strLength, delim)`; `mem` is the
allocation `str0` points into and `str0` the offset.  The `token` array and `str0` are
never NULL here (they are a list and an offset), so the first two `enforce`s pass. -/
def parse_tokens0 (token : List (Option Nat)) (tokenLength : Nat) (mem : List Nat)
    (str0 strLength delim : Nat) : Except Err TokResult :=
  if delim = 0 then .error (.enforce .delimNul)
  else match load mem (str0 + strLength) with
    | .error e => .error e
    | .ok b =>
      if b ≠ 0 then .error (.enforce .notTerminated)
      else parse_tokens0_loop tokenLength (str0 + strLength) delim (strLength + 1) 0 str0 token mem

/-! ## Config parser -/

/-- The `struct MountEntry`: the three `char *` are offsets into `Config.data`. -/
structure MountEntry where
  hostname : Nat
  source : Nat
  dest : Nat
  isReadOnly : Bool
  deriving DecidableEq, Repr

/-- The `struct Config`.  `entry` lists the initialised elements of the array `c->entry`
(there are `length` of them); `reserved` is the size in bytes handed to `realloc`, the
size of the block `c->entry` points to; `data` is the allocation of `dataLen + 1` bytes
that holds the file. -/
structure Config where
  entry : List MountEntry
  length : Nat
  reserved : Nat
  data : List Nat
  dataLen : Nat
  deriving DecidableEq, Repr

/-- The value of `sizeof (struct MountEntry)` on LP64 Linux: three pointers and a padded bool. -/
def sizeofMountEntry : Nat := 32

/-- The lines `parse_config` prints on stderr. -/
inductive Msg
  | missingNewline               -- "Warning: Config file missing final newline"
  | malformed (lineNo : Nat)     -- "Warning: line '%d' malformed"
  | malformedCol2 (lineNo : Nat) -- "Warning: line '%d' malformed ( col 2 )"
  | pathShape (lineNo : Nat)     -- "Error: line '%d' relative/absolute path"
  deriving DecidableEq, Repr

/-- Dereference of `token[k]`, a slot of the `char *token[4]` array. -/
def tokenAt (token : List (Option Nat)) (k : Nat) : Except Err Nat :=
  match token[k]? with
  | some (some p) => .ok p
  | _ => .error .fault

/-- The string at `token[k]`. -/
def tokenString (mem : List Nat) (token : List (Option Nat)) (k : Nat) : Except Err (List Nat) :=
  match tokenAt token k with
  | .ok p => cstr mem p
  | .error e => .error e

/-- The byte `token[k][0]`. -/
def tokenFirst (mem : List Nat) (token : List (Option Nat)) (k : Nat) : Except Err Nat :=
  match tokenAt token k with
  | .ok p => load mem p
  | .error e => .error e

/-- The part of the body of the `while` loop of `parse_config` after the comment test:
tokenize the line at `line`, validate it, append a rule.  Returns the new `Config` and
what the line printed.  The write of the new entry is a fault when it does not lie in
the block of `reserved` bytes. -/
def parse_record (hostname : List Nat) (c : Config) (lineNo line lineEnd : Nat) :
    Except Err (Config × List Msg) :=
  -- char *token[4] = { NULL }; ret = parse_tokens0( token, 4, line, lineEnd-line, '\t' );
  match parse_tokens0 [none, none, none, none] 4 c.data line (lineEnd - line) 9 with
  | .error e => .error e
  | .ok r =>
    let c1 : Config := { c with data := r.mem }
    if r.count ≠ 4 then .ok (c1, [.malformed lineNo])
    else
      -- strcmp( "ro", token[1] ), strcmp( "rw", token[1] )
      match tokenString r.mem r.token 1 with
      | .error e => .error e
      | .ok mode =>
        if mode ≠ [114, 111] ∧ mode ≠ [114, 119] then .ok (c1, [.malformedCol2 lineNo])
        else
          -- strcmp( hostname, token[0] )
          match tokenString r.mem r.token 0 with
          | .error e => .error e
          | .ok host =>
            if cstrOf hostname ≠ host then .ok (c1, [])
            else
              -- token[2][0] != '/' || token[3][0] == '/'
              match tokenFirst r.mem r.token 2 with
              | .error e => .error e
              | .ok s0 =>
                if s0 ≠ 47 then .ok (c1, [.pathShape lineNo])
                else
                  match tokenFirst r.mem r.token 3 with
                  | .error e => .error e
                  | .ok d0 =>
                    if d0 = 47 then .ok (c1, [.pathShape lineNo])
                    else
                      -- if ( c->length == c->reserved )
                      --   c->reserved += 16 * sizeof( struct MountEntry );
                      let reserved1 :=
                        if c1.length = c1.reserved then c1.reserved + 16 * sizeofMountEntry
                        else c1.reserved
                      -- e = c->entry + c->length; e->hostname = token[0]; ...; c->length++;
                      -- the entry is written at the bytes `length * sizeof` up to
                      -- `(length + 1) * sizeof` of the block of `reserved` bytes
                      if ¬ ((c1.length + 1) * sizeofMountEntry ≤ reserved1) then .error .fault
                      else
                        match tokenAt r.token 0, tokenAt r.token 2, tokenAt r.token 3 with
                        | .ok t0, .ok t2, .ok t3 =>
                          let e : MountEntry :=
                            { hostname := t0, isReadOnly := decide (mode = [114, 111]),
                              source := t2, dest := t3 }
                          .ok ({ c1 with reserved := reserved1,
                                         entry := c1.entry.take c1.length ++ [e],
                                         length := c1.length + 1 }, [])
                        | _, _, _ => .error .fault

/-- The body of the `while` loop of `parse_config` from the comment test to the label
`Lnext`, for the line at `line` whose terminator at `lineEnd` is in place. -/
def parse_line (hostname : List Nat) (c : Config) (lineNo line lineEnd : Nat) :
    Except Err (Config × List Msg) :=
  -- if ( line[0] == '#' || line[0] == '\0' ) goto Lnext;
  match load c.data line with
  | .error e => .error e
  | .ok b0 =>
    if b0 = 35 ∨ b0 = 0 then .ok (c, [])
    else parse_record hostname c lineNo line lineEnd

/-- The loop `while ( cp < dataEnd )` of `parse_config`; `log` collects stderr. -/
def parse_config_loop (hostname : List Nat) :
    Nat → Nat → Nat → Config → List Msg → Except Err (Config × List Msg)
  | 0, _, _, _, _ => .error .fuel
  | fuel + 1, lineNo, cp, c, log =>
    if cp < c.dataLen then
      let line := cp
      -- lineEnd = memchr( cp, '\n', dataEnd - cp ) ?: dataEnd;
      match memchr (c.data.drop cp) cp 10 (c.dataLen - cp) with
      | .error e => .error e
      | .ok found =>
        let lineEnd := found.getD c.dataLen
        let lineNo1 := lineNo + 1
        -- if ( lineEnd[0] == '\n' ) lineEnd[0] = '\0'; else fprintf( ... );
        match load c.data lineEnd with
        | .error e => .error e
        | .ok b =>
          match (if b = 10 then (store c.data lineEnd 0).map (fun d => (d, log))
                 else .ok (c.data, log ++ [Msg.missingNewline])) with
          | .error e => .error e
          | .ok (data1, log1) =>
            -- the line, up to `Lnext:`; then cp = lineEnd+1;
            match parse_line hostname { c with data := data1 } lineNo1 line lineEnd with
            | .error e => .error e
            | .ok (c2, msgs) =>
              parse_config_loop hostname fuel lineNo1 (lineEnd + 1) c2 (log1 ++ msgs)
    else .ok (c, log)

/-- The function `parse_config (c, hostname)`; `hostname = none` is the NULL pointer.
Returns the `Config` it leaves and the lines printed on stderr.  `realloc` is taken to
succeed. -/
def parse_config (c : Config) (hostname : Option (List Nat)) : Except Err (Config × List Msg) :=
  match hostname with
  | none => .error (.enforce .missingHostname)
  | some h =>
    if ¬ (c.dataLen > 0) then .error (.enforce .noFileData)
    else match load c.data c.dataLen with
      | .error e => .error e
      | .ok b =>
        if b ≠ 0 then .error (.enforce .dataNotTerminated)
        else match memchr c.data 0 0 c.dataLen with
          | .error e => .error e
          | .ok (some off) => .error (.enforce (.embeddedNul off))
          | .ok none => parse_config_loop h (c.dataLen + 1) 0 0 c []

/-- The `Config config = {}` of `main`, holding the file `doc` and its terminator. -/
def Config.ofDoc (doc : List Nat) : Config :=
  { entry := [], length := 0, reserved := 0, data := doc ++ [0], dataLen := doc.length }

/-- A rule as the mount phase reads it: the strings the entry points to. -/
structure Rule where
  hostname : List Nat
  source : List Nat
  dest : List Nat
  isReadOnly : Bool
  deriving DecidableEq, Repr

/-- The strings of an entry, read from the buffer. -/
def ruleOf (data : List Nat) (e : MountEntry) : Except Err Rule :=
  match cstr data e.hostname, cstr data e.source, cstr data e.dest with
  | .ok h, .ok s, .ok d => .ok { hostname := h, source := s, dest := d, isReadOnly := e.isReadOnly }
  | _, _, _ => .error .fault

/-- The rules of a `Config`: its entries `0 .. length-1`, strings read from `data`. -/
def Config.rules (c : Config) : Except Err (List Rule) :=
  mapE (ruleOf c.data) (c.entry.take c.length)

/-! ## System calls -/

/-- The calls `setup_mounts` and `mkdir_p` make to the system, with their arguments
(strings are given by their bytes, a NULL pointer is `none`). -/
inductive Call
  | seteuid (uid : Nat)
  | get_current_dir_name
  | puts (s : List Nat)
  | mkdir (path : List Nat) (mode : Nat)
  | chdir (path : Option (List Nat))
  | unshare (flags : Nat)
  | mount (source : Option (List Nat)) (target : List Nat) (flags : Nat)
  deriving DecidableEq, Repr

/-- The system the program runs on: `sys past call` is the `errno` of `call` when it is
issued after the calls `past` (`0`: the call succeeds); `uid` is what `getuid ()` returns
and `cwd` what `get_current_dir_name ()` returns. -/
structure Env where
  sys : List Call → Call → Nat
  uid : Nat
  cwd : Option (List Nat)

/-- The value of `EEXIST`. -/
def EEXIST : Nat := 17
/-- The value of `CLONE_NEWNS`. -/
def CLONE_NEWNS : Nat := 0x20000
/-- The value of `MS_RDONLY`. -/
def MS_RDONLY : Nat := 1
/-- The value of `MS_REMOUNT`. -/
def MS_REMOUNT : Nat := 32
/-- The value of `MS_BIND`. -/
def MS_BIND : Nat := 4096
/-- The value of `MS_REC`. -/
def MS_REC : Nat := 16384
/-- The value of `MS_SLAVE`. -/
def MS_SLAVE : Nat := 524288

/-- A run: the calls issued so far, and how the code ended. -/
structure Run where
  trace : List Call
  res : Except Err Unit
  deriving DecidableEq, Repr

/-- The `for ( ;; )` loop of `mkdir_p`; `buf` is the `strdup`ed path at `cp`, `dirCount` a
`size_t`. -/
def mkdir_p_loop (env : Env) : Nat → Nat → List Nat → List Call → Run
  | 0, _, _, tr => ⟨tr, .error .fuel⟩
  | fuel + 1, dirCount, buf, tr =>
    -- mkdir( cp, 0770 )
    match cstr buf 0 with
    | .error e => ⟨tr, .error e⟩
    | .ok path =>
      let call := Call.mkdir path 0o770
      let errno := env.sys tr call
      let tr1 := tr ++ [call]
      -- enforce( errno == EEXIST, ... )
      if errno ≠ 0 ∧ errno ≠ EEXIST then ⟨tr1, .error (.enforce (.mkdir path errno))⟩
      else
        -- if ( --dirCount == 0 ) break;
        let dirCount1 := if dirCount = 0 then 2 ^ 64 - 1 else dirCount - 1
        if dirCount1 = 0 then ⟨tr1, .ok ()⟩
        else
          -- len = strlen( cp ); cp[len] = '/';
          match store buf path.length 47 with
          | .error e => ⟨tr1, .error e⟩
          | .ok buf1 => mkdir_p_loop env fuel dirCount1 buf1 tr1

/-- The function `mkdir_p (path)`, started after the calls `tr`.  `strdup` is taken to
succeed. -/
def mkdir_p (env : Env) (tr : List Call) (path : List Nat) : Run :=
  -- enforce( path[0], "BUG2" )
  if cstrOf path = [] then ⟨tr, .error (.enforce .bug2)⟩
  else
    -- cp = strdup( path )
    let buf := cstrOf path ++ [0]
    -- dirCount = parse_tokens0( UNUSED, 0, cp, strlen(cp), '/' )
    match parse_tokens0 [none] 0 buf 0 (cstrOf path).length 47 with
    | .error e => ⟨tr, .error e⟩
    | .ok r =>
      if r.count = 0 then ⟨tr, .error (.enforce .internalBug)⟩
      else
        -- if ( cp[0] == '\0' ) { cp[0] = '/'; dirCount--; }
        match load r.mem 0 with
        | .error e => ⟨tr, .error e⟩
        | .ok b =>
          if b = 0 then
            match store r.mem 0 47 with
            | .error e => ⟨tr, .error e⟩
            | .ok buf1 => mkdir_p_loop env (buf.length + 1) (r.count - 1) buf1 tr
          else mkdir_p_loop env (buf.length + 1) r.count r.mem tr

/-- The elements `c->entry + i` for `i < c->length`; `none` where the array has none. -/
def Config.entries (c : Config) : List (Option MountEntry) :=
  (List.range c.length).map (fun i => c.entry[i]?)

/-- The first loop of `setup_mounts`: `mkdir_p ( e->dest )` for every entry. -/
def setup_dirs (env : Env) (data : List Nat) : List (Option MountEntry) → List Call → Run
  | [], tr => ⟨tr, .ok ()⟩
  | none :: _, tr => ⟨tr, .error .fault⟩
  | some e :: rest, tr =>
    match cstr data e.dest with
    | .error err => ⟨tr, .error err⟩
    | .ok dest =>
      let r := mkdir_p env tr dest
      match r.res with
      | .error _ => r
      | .ok _ => setup_dirs env data rest r.trace

/-- The second loop of `setup_mounts`: the bind mount of every entry, and its read-only
remount. -/
def setup_binds (env : Env) (data : List Nat) : List (Option MountEntry) → List Call → Run
  | [], tr => ⟨tr, .ok ()⟩
  | none :: _, tr => ⟨tr, .error .fault⟩
  | some e :: rest, tr =>
    match cstr data e.source, cstr data e.dest with
    | .ok source, .ok dest =>
      -- enforce( !mount( e->source, e->dest, NULL, MS_BIND, NULL), ... )
      let call := Call.mount (some source) dest MS_BIND
      let tr1 := tr ++ [call]
      if env.sys tr call ≠ 0 then ⟨tr1, .error (.enforce (.mountBind source dest))⟩
      else if e.isReadOnly then
        -- enforce( !mount( NULL, e->dest, NULL, MS_REMOUNT | MS_BIND | MS_RDONLY, NULL), ... )
        let call2 := Call.mount none dest (MS_REMOUNT ||| MS_BIND ||| MS_RDONLY)
        let tr2 := tr1 ++ [call2]
        if env.sys tr1 call2 ≠ 0 then ⟨tr2, .error (.enforce (.mountReadOnly dest))⟩
        else setup_binds env data rest tr2
      else setup_binds env data rest tr1
    | _, _ => ⟨tr, .error .fault⟩

/-- The function `setup_mounts (c, rootDir)`, as the run it makes in `env`. -/
def setup_mounts (env : Env) (c : Config) (rootDir : List Nat) : Run :=
  -- enforce( ! seteuid(getuid()), ... )
  let c1 := Call.seteuid env.uid
  let tr1 := [c1]
  if env.sys [] c1 ≠ 0 then ⟨tr1, .error (.enforce .seteuidLower)⟩
  else
    -- oldCWD = get_current_dir_name(); puts( rootDir );
    let tr2 := tr1 ++ [Call.get_current_dir_name, Call.puts (cstrOf rootDir)]
    -- mkdir_p( rootDir );
    let r3 := mkdir_p env tr2 rootDir
    match r3.res with
    | .error _ => r3
    | .ok _ =>
      -- chdir( rootDir );   the result is not looked at
      let tr4 := r3.trace ++ [Call.chdir (some (cstrOf rootDir))]
      let r5 := setup_dirs env c.data c.entries tr4
      match r5.res with
      | .error _ => r5
      | .ok _ =>
        -- enforce( ! seteuid(0), ... )
        let c6 := Call.seteuid 0
        let tr6 := r5.trace ++ [c6]
        if env.sys r5.trace c6 ≠ 0 then ⟨tr6, .error (.enforce .seteuidRaise)⟩
        else
          -- enforce( ! unshare( CLONE_NEWNS ), ... )
          let c7 := Call.unshare CLONE_NEWNS
          let tr7 := tr6 ++ [c7]
          if env.sys tr6 c7 ≠ 0 then ⟨tr7, .error (.enforce .unshare)⟩
          else
            -- mount( NULL, "/", NULL, MS_REC | MS_SLAVE, NULL );   the result is not looked at
            let tr8 := tr7 ++ [Call.mount none [47] (MS_REC ||| MS_SLAVE)]
            let r9 := setup_binds env c.data c.entries tr8
            match r9.res with
            | .error _ => r9
            | .ok _ =>
              -- chdir( oldCWD );
              ⟨r9.trace ++ [Call.chdir env.cwd], .ok ()⟩

/-! ## List-level description of the tokenizer -/

/-- The buffer `s` with the first byte of every maximal run of `delim` replaced by NUL;
`prev` tells whether the byte before `s` is a delimiter. -/
def nulRuns (delim : Nat) : Bool → List Nat → List Nat
  | _, [] => []
  | prev, b :: t =>
    if b = delim then (if prev then b else 0) :: nulRuns delim true t
    else b :: nulRuns delim false t

/-- The offsets, counted from `off`, of the bytes of `s` that are not a delimiter and
follow a delimiter; `prev` tells whether the byte before `s` is a delimiter. -/
def fieldStartsAux (delim : Nat) : Bool → Nat → List Nat → List Nat
  | _, _, [] => []
  | prev, off, b :: t =>
    if b = delim then fieldStartsAux delim true (off + 1) t
    else if prev then off :: fieldStartsAux delim false (off + 1) t
    else fieldStartsAux delim false (off + 1) t

/-- The offsets of the fields of the buffer `s` that starts at offset `off`: the first
byte (if there is one), and every byte that is not a delimiter and follows one. -/
def fieldStarts (delim : Nat) (off : Nat) : List Nat → List Nat
  | [] => []
  | b :: t => off :: fieldStartsAux delim (decide (b = delim)) (off + 1) t

/-- The array `token` after the writes `token[i] = p`, `token[i+1] = p'`, ... for the
offsets `p, p', ...`, each done only when its index is below `cap`. -/
def writeSlots (cap : Nat) : List (Option Nat) → Nat → List Nat → List (Option Nat)
  | token, _, [] => token
  | token, i, off :: offs =>
    writeSlots cap (if i < cap then token.set i (some off) else token) (i + 1) offs

/-- The number of maximal runs of `delim` in `s` that start in `s`; `prev` tells
whether the byte before `s` is a delimiter. -/
def delimRuns (delim : Nat) : Bool → List Nat → Nat
  | _, [] => 0
  | prev, b :: t =>
    if b = delim then (if prev then 0 else 1) + delimRuns delim true t
    else delimRuns delim false t

/-- The non-empty pieces of `s` split on `delim`, in order. -/
def nonEmptyPieces (delim : Nat) (s : List Nat) : List (List Nat) :=
  (s.splitOn delim).filter (fun piece => piece ≠ [])

/-- The fields of a non-empty buffer `s`: the bytes before its first delimiter, then
the non-empty pieces of what follows. -/
def fieldPieces (delim : Nat) (s : List Nat) : List (List Nat) :=
  if s = [] then []
  else s.takeWhile (fun b => b != delim) :: nonEmptyPieces delim (s.dropWhile (fun b => b != delim))

/-- The string a slot of the `token` array points to. -/
def slotString (mem : List Nat) : Option Nat → Except Err (List Nat)
  | some p => cstr mem p
  | none => .error .fault

/-- The fields `parse_tokens0` reports through a `token` array of capacity `cap`: the
strings at `token[0]`, ..., `token[min cap count - 1]`, read from the buffer it leaves. -/
def TokResult.fields (r : TokResult) (cap : Nat) : Except Err (List (List Nat)) :=
  mapE (slotString r.mem) (r.token.take (min cap r.count))

/-! ## List-level description of the config parser -/

/-- The rule that four fields `host, mode, source, destination` make for the requested
host `h`, if they make one: the mode is `ro` or `rw`, the host is `h`, the source starts
with `/` and the destination does not. -/
def fieldsRule (h : List Nat) : List (List Nat) → Option Rule
  | [host, mode, source, dest] =>
    if (mode = [114, 111] ∨ mode = [114, 119]) ∧ host = h ∧ source.head? = some 47
        ∧ dest.head? ≠ some 47 then
      some { hostname := host, source := source, dest := dest,
             isReadOnly := decide (mode = [114, 111]) }
    else none
  | _ => none

/-- The rule a line of the document makes for the requested host `h`, if it makes one:
the line is not empty, does not start with `#`, the tokenizer on tab returns a count of
exactly 4 on it, and its four fields make a rule. -/
def lineRule (h : List Nat) (line : List Nat) : Option Rule :=
  if line = [] ∨ line.head? = some 35 then none
  else
    match parse_tokens0 [none, none, none, none] 4 (line ++ [0]) 0 line.length 9 with
    | .ok r =>
      if r.count = 4 then
        match r.fields 4 with
        | .ok fs => fieldsRule h fs
        | .error _ => none
      else none
    | .error _ => none

/-- The rules a document makes for the requested host `h`: those of its lines, in order. -/
def docRules (h : List Nat) (doc : List Nat) : List Rule :=
  (doc.splitOn 10).filterMap (lineRule h)

/-- Bytes of a string literal. -/
def bytes (s : String) : List Nat := s.toList.map Char.toNat

/-! ## Kinds of calls -/

/-- A `mkdir` call. -/
def Call.isMkdir : Call → Bool
  | .mkdir _ _ => true
  | _ => false

/-- A `mount` call. -/
def Call.isMount : Call → Bool
  | .mount _ _ _ => true
  | _ => false

/-- An `unshare` call. -/
def Call.isUnshare : Call → Bool
  | .unshare _ => true
  | _ => false

/-- A `seteuid` call. -/
def Call.isSeteuid : Call → Bool
  | .seteuid _ => true
  | _ => false

/-- A call of the unprivileged set-up phase: `get_current_dir_name`, `puts`, `mkdir`,
`chdir`. -/
def Call.isSetup : Call → Bool
  | .get_current_dir_name => true
  | .puts _ => true
  | .mkdir _ _ => true
  | .chdir _ => true
  | _ => false

/-- A call whose failure the code turns into `exit(1)` with `enforce`: `seteuid`,
`unshare`, a bind mount, a read-only remount. -/
def Call.isEnforced : Call → Bool
  | .seteuid _ => true
  | .unshare _ => true
  | .mount (some _) _ _ => true
  | .mount none _ flags => decide (flags = MS_REMOUNT ||| MS_BIND ||| MS_RDONLY)
  | _ => false

/-- Among the calls `ms`, issued after the calls `tr`, every enforced call succeeds. -/
def Clean (env : Env) (tr ms : List Call) : Prop :=
  ∀ k call, ms[k]? = some call → call.isEnforced = true → env.sys (tr ++ ms.take k) call = 0

/-- Among the calls `ms`, issued after the calls `tr` by a run that ends as `res`, an
enforced call that fails is the last call, and the run does not return. -/
def FatalLast (env : Env) (tr ms : List Call) (res : Except Err Unit) : Prop :=
  ∀ k call, ms[k]? = some call → call.isEnforced = true →
    env.sys (tr ++ ms.take k) call ≠ 0 → k + 1 = ms.length ∧ res ≠ .ok ()

/-- The effective uid after the calls `calls`, issued after the calls `past` with the
effective uid `cur` (`none`: the uid the process started with): a `seteuid` that
succeeds sets it. -/
def euidGo (env : Env) : List Call → Option Nat → List Call → Option Nat
  | _, cur, [] => cur
  | past, cur, call :: rest =>
    euidGo env (past ++ [call])
      (match call with
       | .seteuid uid => if env.sys past call = 0 then some uid else cur
       | _ => cur) rest

/-- The effective uid with which the `k`-th call of the trace is issued. -/
def euidBefore (env : Env) (trace : List Call) (k : Nat) : Option Nat :=
  euidGo env [] none (trace.take k)

/-- The mount calls of one rule: the bind mount, then the read-only remount if the rule
is read-only. -/
def ruleMounts (r : Rule) : List Call :=
  Call.mount (some r.source) r.dest MS_BIND ::
    (if r.isReadOnly then [Call.mount none r.dest (MS_REMOUNT ||| MS_BIND ||| MS_RDONLY)] else [])

/-- The three-line document of the end-to-end example. -/
def exampleDoc : List Nat :=
  bytes "vm3\tro\t/pool/web\tservices/nginx\nvm3\trw\t/pool/db\tservices/db\nvm2\tro\t/pool/db\tmysql\n"

/-- The `Config` that `parse_config` leaves for the example document and the host `vm3`. -/
def exampleConfig : Config :=
  match parse_config (Config.ofDoc exampleDoc) (some (bytes "vm3")) with
  | .ok (c, _) => c
  | .error _ => Config.ofDoc []

/-- The mount root `main` builds for the host `vm3` and the user 1000. -/
def exampleRoot : List Nat := bytes "/run/user/1000/autism/vm3.mount.d/"

/-- A system on which every call succeeds. -/
def envOk : Env := { sys := fun _ _ => 0, uid := 1000, cwd := some (bytes "/home") }

/-- A system on which the mount root exists but is not a directory: `mkdir` of it fails
with `EEXIST`, `chdir` into it fails with `ENOTDIR` (20); every other call succeeds. -/
def envChdirFails : Env :=
  { sys := fun _ call =>
      match call with
      | .mkdir path _ => if path = bytes "/run/user/1000/autism/vm3.mount.d" then EEXIST else 0
      | .chdir (some path) => if path = exampleRoot then 20 else 0
      | _ => 0,
    uid := 1000, cwd := some (bytes "/home") }

/-- A system on which the propagation change on `/` fails with `EINVAL` (22) and every
other call succeeds. -/
def envPropagationFails : Env :=
  { sys := fun _ call =>
      match call with
      | .mount none _ flags => if flags = MS_REC ||| MS_SLAVE then 22 else 0
      | _ => 0,
    uid := 1000, cwd := some (bytes "/home") }

/-! ## List-level description of `mkdir_p` -/

/-- The prefixes of the path `acc ++ s` that end in `s` at the end of a non-empty
segment: at a byte other than `/` that is the last byte or is followed by `/`; from
left to right. -/
def segPrefixes : List Nat → List Nat → List (List Nat)
  | _, [] => []
  | acc, b :: t =>
    if b ≠ 47 ∧ (t.head? = none ∨ t.head? = some 47) then
      (acc ++ [b]) :: segPrefixes (acc ++ [b]) t
    else segPrefixes (acc ++ [b]) t

/-- The strings the loop of `mkdir_p` reads at the start of its buffer, one after the
other: what precedes each NUL of `buf`, the NULs before it being turned into `/`; `acc`
is what precedes `buf`. -/
def nulPrefixes : List Nat → List Nat → List (List Nat)
  | _, [] => []
  | acc, b :: t =>
    if b = 0 then acc :: nulPrefixes (acc ++ [47]) t else nulPrefixes (acc ++ [b]) t

/-- The calls `mkdir (p, 0770)` for the paths `p` of a list, one after the other, up to
the first that fails with an error other than `EEXIST`, which ends the run. -/
def mkdirRun (env : Env) : List Call → List (List Nat) → Run
  | tr, [] => ⟨tr, .ok ()⟩
  | tr, p :: ps =>
    if env.sys tr (Call.mkdir p 0o770) ≠ 0 ∧ env.sys tr (Call.mkdir p 0o770) ≠ EEXIST then
      ⟨tr ++ [Call.mkdir p 0o770], .error (.enforce (.mkdir p (env.sys tr (Call.mkdir p 0o770))))⟩
    else mkdirRun env (tr ++ [Call.mkdir p 0o770]) ps

/-- A system on which every directory exists: `mkdir` fails with `EEXIST`, every other
call succeeds. -/
def envAllExist : Env :=
  { sys := fun _ call =>
      match call with
      | .mkdir _ _ => EEXIST
      | _ => 0,
    uid := 1000, cwd := some (bytes "/home") }

/-! ## The log of the config parser -/

/-- The line number a message carries (its `%d`), if it carries one. -/
def Msg.lineNo : Msg → Option Nat
  | .missingNewline => none
  | .malformed n => some n
  | .malformedCol2 n => some n
  | .pathShape n => some n

/-- What is printed for the line numbered `lineNo` whose fields are `fs`, the requested
host being `h`: the tests of the loop body in their order. -/
def fieldsMsgs (h : List Nat) (lineNo : Nat) : List (List Nat) → List Msg
  | [host, mode, source, dest] =>
    if mode ≠ [114, 111] ∧ mode ≠ [114, 119] then [.malformedCol2 lineNo]
    else if host ≠ h then []
    else if source.head? ≠ some 47 ∨ dest.head? = some 47 then [.pathShape lineNo]
    else []
  | _ => [.malformed lineNo]

/-- What is printed for a line of the document: nothing for an empty line or a comment. -/
def lineMsgs (h : List Nat) (lineNo : Nat) (line : List Nat) : List Msg :=
  if line = [] ∨ line.head? = some 35 then [] else fieldsMsgs h lineNo (fieldPieces 9 line)

/-- What is printed for the lines `ls` that follow line `n`, the last of which ends at
the end of the data: a last line that is not empty has no newline, which is reported
before the line is read. -/
def linesLog (h : List Nat) : Nat → List (List Nat) → List Msg
  | _, [] => []
  | n, line :: rest =>
    (if rest = [] ∧ line ≠ [] then [Msg.missingNewline] else [])
      ++ lineMsgs h (n + 1) line ++ linesLog h (n + 1) rest

/-- A document of 17 lines, each a rule for the host `h`. -/
def seventeenRules : List Nat :=
  (List.replicate 17 (bytes "h\tro\t/\td\n")).flatten

/-! ## The checks of `main` on the config file -/

/-- The fields of `struct stat` that `main` reads. -/
structure Stat where
  st_uid : Nat
  st_gid : Nat
  st_mode : Nat
  deriving DecidableEq, Repr

/-- The mask `S_IFMT` of the file type bits. -/
def S_IFMT : Nat := 0o170000

/-- The file type `S_IFREG`. -/
def S_IFREG : Nat := 0o100000

/-- The test `S_ISREG (m)`. -/
def S_ISREG (m : Nat) : Bool := m &&& S_IFMT == S_IFREG

/-- The four `enforce`s of `main` on the result of `fstat (fp, &st)`, in their order;
`uid` is the value `getuid ()` returns. -/
def main_stat_checks (st : Stat) (uid : Nat) : Except Err Unit :=
  -- enforce( st.st_uid == 0, "unsafe: 'fs.list' not owned by root" );
  if ¬ (st.st_uid = 0) then .error (.enforce .notOwnedByRoot)
  -- enforce( st.st_gid == getuid(), "who are you?" );
  else if ¬ (st.st_gid = uid) then .error (.enforce .whoAreYou)
  -- enforce( S_ISREG(st.st_mode), "not regular file" );
  else if ¬ (S_ISREG st.st_mode = true) then .error (.enforce .notRegularFile)
  -- enforce( (st.st_mode&07777) == 0640, "permission %03o, (required 640)", ... );
  else if ¬ (st.st_mode &&& 0o7777 = 0o640) then
    .error (.enforce (.permission (st.st_mode &&& 0o7777)))
  else .ok ()

/-- The part of `main` from the checks on the config file to the return of
`parse_config`: the file has the metadata `st` and the content `doc`, `hostname` is
`argv[1]`; `malloc` and `read` are taken to succeed, and the two `snprintf` results are
below `PATH_MAX` whenever the hostname is shorter than 1024 bytes. -/
def main_config (st : Stat) (uid : Nat) (doc hostname : List Nat) :
    Except Err (Config × List Msg) :=
  match main_stat_checks st uid with
  | .error e => .error e
  | .ok () =>
    -- enforce( strlen(argv[1]) < 1024, "Why is your hostname that long?" );
    if ¬ ((cstrOf hostname).length < 1024) then .error (.enforce .hostnameTooLong)
    else parse_config (Config.ofDoc doc) (some hostname)

/-! ## Memory primitives: lemmas -/

theorem memchr_none (c : Nat) : ∀ (l tail : List Nat) (p : Nat), (∀ b ∈ l, b ≠ c) →
    memchr (l ++ tail) p c l.length = .ok none := by
  intro l
  induction l with
  | nil => intro tail p _; simp [memchr]
  | cons b l ih =>
    intro tail p h
    have hb : b ≠ c := h b (by simp)
    simp only [List.cons_append, List.length_cons, memchr, if_neg hb, List.append_eq]
    exact ih tail (p + 1) (fun x hx => h x (by simp [hx]))

theorem memchr_some (c : Nat) : ∀ (l tail : List Nat) (p n : Nat), (∀ b ∈ l, b ≠ c) →
    l.length < n → memchr (l ++ c :: tail) p c n = .ok (some (p + l.length)) := by
  intro l
  induction l with
  | nil =>
    intro tail p n _ hn
    obtain ⟨m, rfl⟩ : ∃ m, n = m + 1 := ⟨n - 1, by simp at hn; omega⟩
    simp [memchr]
  | cons b l ih =>
    intro tail p n h hn
    have hb : b ≠ c := h b (by simp)
    obtain ⟨m, rfl⟩ : ∃ m, n = m + 1 := ⟨n - 1, by simp at hn; omega⟩
    simp only [List.cons_append, List.length_cons, memchr, if_neg hb, List.append_eq]
    rw [ih tail (p + 1) m (fun x hx => h x (by simp [hx])) (by simp at hn; omega)]
    congr 2; omega

theorem skipDelim_run (delim : Nat) : ∀ (run : List Nat) (x : Nat) (tail : List Nat) (cp : Nat),
    (∀ b ∈ run, b = delim) → x ≠ delim →
    skipDelim delim (run ++ x :: tail) cp = .ok (cp + run.length) := by
  intro run
  induction run with
  | nil => intro x tail cp _ hx; simp [skipDelim, hx]
  | cons b run ih =>
    intro x tail cp h hx
    have hb : b = delim := h b (by simp)
    simp only [List.cons_append, List.length_cons, skipDelim, if_pos hb, List.append_eq]
    rw [ih x tail (cp + 1) (fun y hy => h y (by simp [hy])) hx]
    congr 1; omega

/-- Every list splits into a longest prefix satisfying `p` and a rest whose first
element, if any, does not. -/
theorem exists_span {α : Type} (p : α → Prop) [DecidablePred p] : ∀ l : List α,
    ∃ a b, l = a ++ b ∧ (∀ x ∈ a, p x) ∧ (∀ x ∈ b.head?, ¬ p x) := by
  intro l
  induction l with
  | nil => exact ⟨[], [], rfl, by simp, by simp⟩
  | cons x l ih =>
    by_cases hx : p x
    · obtain ⟨a, b, hl, ha, hb⟩ := ih
      refine ⟨x :: a, b, by simp [hl], ?_, hb⟩
      intro y hy
      rcases List.mem_cons.1 hy with h | h
      · exact h ▸ hx
      · exact ha y h
    · exact ⟨[], x :: l, rfl, by simp, by simpa using hx⟩

theorem getElem?_append_cons (A X : List Nat) (x : Nat) : (A ++ x :: X)[A.length]? = some x := by
  rw [List.getElem?_append_right (Nat.le_refl _), Nat.sub_self, List.getElem?_cons_zero]

theorem drop_append_cons (A B : List Nat) (x n : Nat) (h : n = A.length + 1) :
    List.drop n (A ++ x :: B) = B := by
  subst h
  have := List.drop_left (A ++ [x]) B
  simp only [List.length_append, List.length_singleton, List.append_assoc,
    List.singleton_append] at this
  exact this

theorem load_append_cons (A X : List Nat) (x n : Nat) (h : n = A.length) :
    load (A ++ x :: X) n = .ok x := by
  subst h; rw [load, getElem?_append_cons]

theorem store_append_cons (A X : List Nat) (x v n : Nat) (h : n = A.length) :
    store (A ++ x :: X) n v = .ok (A ++ v :: X) := by
  subst h; simp [store]

/-! ## Tokenizer: the list-level description -/

theorem nulRuns_length (delim : Nat) : ∀ (s : List Nat) (prev : Bool),
    (nulRuns delim prev s).length = s.length := by
  intro s
  induction s with
  | nil => intro prev; simp [nulRuns]
  | cons b t ih =>
    intro prev
    by_cases hb : b = delim <;> simp [nulRuns, hb, ih]

theorem nulRuns_piece (delim : Nat) : ∀ (piece X : List Nat), (∀ b ∈ piece, b ≠ delim) →
    nulRuns delim false (piece ++ X) = piece ++ nulRuns delim false X := by
  intro piece
  induction piece with
  | nil => intro X _; rfl
  | cons b t ih =>
    intro X h
    have hb : b ≠ delim := h b (by simp)
    simp only [List.cons_append, nulRuns, if_neg hb, List.append_eq]
    rw [ih X (fun x hx => h x (by simp [hx]))]

theorem nulRuns_run (delim : Nat) : ∀ (run X : List Nat), (∀ b ∈ run, b = delim) →
    nulRuns delim true (run ++ X) = run ++ nulRuns delim true X := by
  intro run
  induction run with
  | nil => intro X _; rfl
  | cons b t ih =>
    intro X h
    have hb : b = delim := h b (by simp)
    simp only [List.cons_append, nulRuns, if_pos hb, if_true, List.append_eq]
    rw [ih X (fun x hx => h x (by simp [hx]))]

theorem nulRuns_prev (delim : Nat) (X : List Nat) (h : ∀ x ∈ X.head?, x ≠ delim) :
    nulRuns delim true X = nulRuns delim false X := by
  cases X with
  | nil => rfl
  | cons x t =>
    have hx : x ≠ delim := h x (by simp)
    simp [nulRuns, hx]

theorem nulRuns_chunk (delim : Nat) (piece run next : List Nat)
    (hp : ∀ b ∈ piece, b ≠ delim) (hr : ∀ b ∈ run, b = delim) (hn : ∀ x ∈ next.head?, x ≠ delim) :
    nulRuns delim false (piece ++ delim :: (run ++ next))
      = piece ++ 0 :: (run ++ nulRuns delim false next) := by
  rw [nulRuns_piece delim piece _ hp]
  simp only [nulRuns, if_true, Bool.false_eq_true, if_false]
  rw [nulRuns_run delim run next hr, nulRuns_prev delim next hn]

theorem fieldStartsAux_piece (delim : Nat) : ∀ (piece X : List Nat) (off : Nat),
    (∀ b ∈ piece, b ≠ delim) →
    fieldStartsAux delim false off (piece ++ X) = fieldStartsAux delim false (off + piece.length) X := by
  intro piece
  induction piece with
  | nil => intro X off _; rfl
  | cons b t ih =>
    intro X off h
    have hb : b ≠ delim := h b (by simp)
    simp only [List.cons_append, fieldStartsAux, if_neg hb, Bool.false_eq_true, if_false,
      List.length_cons, List.append_eq]
    rw [ih X (off + 1) (fun x hx => h x (by simp [hx]))]
    congr 1; omega

theorem fieldStartsAux_run (delim : Nat) : ∀ (run X : List Nat) (off : Nat),
    (∀ b ∈ run, b = delim) →
    fieldStartsAux delim true off (run ++ X) = fieldStartsAux delim true (off + run.length) X := by
  intro run
  induction run with
  | nil => intro X off _; rfl
  | cons b t ih =>
    intro X off h
    have hb : b = delim := h b (by simp)
    simp only [List.cons_append, fieldStartsAux, if_pos hb, List.length_cons, List.append_eq]
    rw [ih X (off + 1) (fun x hx => h x (by simp [hx]))]
    congr 1; omega

theorem fieldStarts_nil (delim off : Nat) : fieldStarts delim off [] = [] := rfl

theorem fieldStarts_cons (delim off b : Nat) (t : List Nat) :
    fieldStarts delim off (b :: t)
      = off :: fieldStartsAux delim (decide (b = delim)) (off + 1) t := rfl

theorem fieldStartsAux_true (delim : Nat) (X : List Nat) (off : Nat)
    (h : ∀ x ∈ X.head?, x ≠ delim) :
    fieldStartsAux delim true off X = fieldStarts delim off X := by
  cases X with
  | nil => rfl
  | cons x t =>
    have hx : x ≠ delim := h x (by simp)
    simp [fieldStartsAux, fieldStarts_cons, hx]

theorem fieldStarts_chunk (delim : Nat) (piece run next : List Nat) (off : Nat)
    (hp : ∀ b ∈ piece, b ≠ delim) (hr : ∀ b ∈ run, b = delim) (hn : ∀ x ∈ next.head?, x ≠ delim) :
    fieldStarts delim off (piece ++ delim :: (run ++ next))
      = off :: fieldStarts delim (off + piece.length + 1 + run.length) next := by
  cases piece with
  | nil =>
    simp only [List.nil_append, fieldStarts_cons, decide_True, List.length_nil, Nat.add_zero]
    rw [fieldStartsAux_run delim run next _ hr, fieldStartsAux_true delim next _ hn]
  | cons b t =>
    have hb : b ≠ delim := hp b (by simp)
    simp only [List.cons_append, fieldStarts_cons, hb, decide_False, List.length_cons]
    rw [fieldStartsAux_piece delim t _ _ (fun x hx => hp x (by simp [hx]))]
    simp only [fieldStartsAux, if_true]
    rw [fieldStartsAux_run delim run next _ hr, fieldStartsAux_true delim next _ hn]
    congr 2; omega

theorem fieldStarts_piece (delim : Nat) (piece : List Nat) (off : Nat)
    (hp : ∀ b ∈ piece, b ≠ delim) (hne : piece ≠ []) :
    fieldStarts delim off piece = [off] := by
  cases piece with
  | nil => exact absurd rfl hne
  | cons b t =>
    have hb : b ≠ delim := hp b (by simp)
    have := fieldStartsAux_piece delim t [] (off + 1) (fun x hx => hp x (by simp [hx]))
    simp only [List.append_nil] at this
    simp [fieldStarts_cons, hb, this, fieldStartsAux]

theorem writeSlots_length (cap : Nat) : ∀ (offs : List Nat) (token : List (Option Nat)) (i : Nat),
    (writeSlots cap token i offs).length = token.length := by
  intro offs
  induction offs with
  | nil => intro token i; rfl
  | cons o offs ih =>
    intro token i
    simp only [writeSlots]
    rw [ih]
    split <;> simp

/-- The loop of `parse_tokens0`, started at the offset where `rest` begins, on a buffer
terminated by NUL: it returns, having counted and stored the field starts of `rest`
and replaced the first byte of each run of delimiters. -/
theorem parse_tokens0_loop_spec (delim cap : Nat) (hd : delim ≠ 0) :
    ∀ (fuel : Nat) (rest A post : List Nat) (i : Nat) (token : List (Option Nat)),
      rest.length < fuel → cap ≤ token.length →
      parse_tokens0_loop cap (A.length + rest.length) delim fuel i A.length token
          (A ++ (rest ++ 0 :: post))
        = .ok ⟨i + (fieldStarts delim A.length rest).length,
               writeSlots cap token i (fieldStarts delim A.length rest),
               A ++ (nulRuns delim false rest ++ 0 :: post)⟩ := by
  intro fuel
  induction fuel with
  | zero => intro rest A post i token h; omega
  | succ fuel ih =>
    intro rest A post i token hfuel hcap
    obtain ⟨piece, after, hrest, hpiece, hafter⟩ := exists_span (fun x => x ≠ delim) rest
    by_cases hnil : rest = []
    · subst hnil
      simp [parse_tokens0_loop, fieldStarts_nil, writeSlots, nulRuns]
    have hlt : A.length < A.length + rest.length := by
      have := List.length_pos.2 hnil
      omega
    have htok : (if i < cap then store token i (some A.length) else .ok token)
        = .ok (if i < cap then token.set i (some A.length) else token) := by
      by_cases hi : i < cap
      · have : i < token.length := by omega
        simp [hi, store, this]
      · simp [hi]
    rw [parse_tokens0_loop, if_pos hlt, htok]
    simp only [List.drop_left, Nat.add_sub_cancel_left]
    cases after with
    | nil =>
      simp only [List.append_nil] at hrest
      subst hrest
      rw [memchr_none delim rest _ _ hpiece]
      have h1 := nulRuns_piece delim rest [] hpiece
      simp only [List.append_nil, nulRuns] at h1
      simp [fieldStarts_piece delim rest A.length hpiece hnil, writeSlots, h1]
    | cons d after1 =>
      have hdd : d = delim := by
        have := hafter d (by simp)
        simpa using this
      subst hdd
      obtain ⟨run, next, hafter1, hrun, hnext⟩ := exists_span (fun x => x = d) after1
      subst hafter1
      subst hrest
      have hmc : memchr (piece ++ d :: (run ++ next) ++ 0 :: post) A.length d
          (piece ++ d :: (run ++ next)).length = .ok (some (A.length + piece.length)) := by
        have := memchr_some d piece ((run ++ next) ++ 0 :: post) A.length
          (piece ++ d :: (run ++ next)).length hpiece (by simp)
        simpa using this
      rw [hmc]
      dsimp only
      have hst : store (A ++ (piece ++ d :: (run ++ next) ++ 0 :: post)) (A.length + piece.length) 0
          = .ok ((A ++ piece) ++ 0 :: (run ++ (next ++ 0 :: post))) := by
        have := store_append_cons (A ++ piece) (run ++ (next ++ 0 :: post)) d 0
          (A.length + piece.length) (by simp)
        simpa using this
      rw [hst]
      dsimp only
      have hdrop : ((A ++ piece) ++ 0 :: (run ++ (next ++ 0 :: post))).drop (A.length + piece.length + 1)
          = run ++ (next ++ 0 :: post) := by
        exact drop_append_cons (A ++ piece) _ 0 _ (by simp)
      rw [hdrop]
      obtain ⟨x, tl, hx, hxd⟩ : ∃ x tl, next ++ 0 :: post = x :: tl ∧ x ≠ d := by
        cases next with
        | nil => exact ⟨0, post, rfl, fun h => hd h.symm⟩
        | cons y tl => exact ⟨y, tl ++ 0 :: post, rfl, hnext y (by simp)⟩
      rw [hx, skipDelim_run d run x tl _ hrun hxd, ← hx]
      dsimp only
      have hA : A.length + piece.length + 1 + run.length = (A ++ piece ++ 0 :: run).length := by
        simp; omega
      have hend : A.length + (piece ++ d :: (run ++ next)).length
          = (A ++ piece ++ 0 :: run).length + next.length := by
        simp; omega
      have hmem : (A ++ piece) ++ 0 :: (run ++ (next ++ 0 :: post))
          = (A ++ piece ++ 0 :: run) ++ (next ++ 0 :: post) := by simp
      rw [hA, hend, hmem]
      rw [ih next (A ++ piece ++ 0 :: run) post (i + 1) _ (by simp at hfuel; omega) (by split <;> simp [hcap])]
      have hnext1 : ∀ x ∈ next.head?, x ≠ d := fun x hx => hnext x hx
      rw [fieldStarts_chunk d piece run next A.length hpiece hrun hnext1,
        nulRuns_chunk d piece run next hpiece hrun hnext1, ← hA]
      simp only [writeSlots, List.length_cons, List.append_assoc, List.cons_append]
      congr 2
      omega

/-- The function `parse_tokens0` on a buffer `s` held at offset `pre.length` and followed by
its NUL terminator: the count is the number of field starts, the slots below the capacity
receive the field starts in order, and the buffer has the first byte of each run of
delimiters replaced by NUL. -/
theorem parse_tokens0_spec (delim cap : Nat) (hd : delim ≠ 0) (pre s post : List Nat)
    (token : List (Option Nat)) (hcap : cap ≤ token.length) :
    parse_tokens0 token cap (pre ++ (s ++ 0 :: post)) pre.length s.length delim
      = .ok ⟨(fieldStarts delim pre.length s).length,
             writeSlots cap token 0 (fieldStarts delim pre.length s),
             pre ++ (nulRuns delim false s ++ 0 :: post)⟩ := by
  have hload : load (pre ++ (s ++ 0 :: post)) (pre.length + s.length) = .ok 0 := by
    have := load_append_cons (pre ++ s) post 0 (pre.length + s.length) (by simp)
    simpa using this
  rw [parse_tokens0, if_neg hd, hload]
  simp only [ne_eq, not_true_eq_false, if_false]
  rw [parse_tokens0_loop_spec delim cap hd (s.length + 1) s pre post 0 token (by omega) hcap]
  simp

/-! ## Tokenizer: the count -/

theorem delimRuns_prev (delim : Nat) (X : List Nat) (h : ∀ x ∈ X.head?, x ≠ delim) :
    delimRuns delim true X = delimRuns delim false X := by
  cases X with
  | nil => rfl
  | cons x t =>
    have hx : x ≠ delim := h x (by simp)
    simp [delimRuns, hx]

theorem fieldStartsAux_length_concat (delim x : Nat) (hx : x ≠ delim) :
    ∀ (t : List Nat) (prev : Bool) (off : Nat),
      (fieldStartsAux delim prev off (t ++ [x])).length
        = delimRuns delim prev (t ++ [x]) + (if prev then 1 else 0) := by
  intro t
  induction t with
  | nil =>
    intro prev off
    cases prev <;> simp [fieldStartsAux, delimRuns, hx]
  | cons b t ih =>
    intro prev off
    by_cases hb : b = delim
    · simp only [List.cons_append, fieldStartsAux, delimRuns, if_pos hb, List.append_eq]
      rw [ih true (off + 1)]
      cases prev
      · simp; omega
      · simp
    · simp only [List.cons_append, fieldStartsAux, delimRuns, if_neg hb, List.append_eq]
      cases prev
      · simp only [Bool.false_eq_true, if_false]
        rw [ih false (off + 1)]
        simp
      · simp only [if_true, List.length_cons]
        rw [ih false (off + 1)]
        simp

theorem fieldStarts_length_runs (delim off : Nat) (s : List Nat) (hne : s ≠ [])
    (hhead : s.head? ≠ some delim) (hlast : s.getLast? ≠ some delim) :
    (fieldStarts delim off s).length = delimRuns delim false s + 1 := by
  have hh : ∀ x ∈ s.head?, x ≠ delim := by
    intro x hx h
    rw [Option.mem_def] at hx
    exact hhead (h ▸ hx)
  rw [← fieldStartsAux_true delim s off hh, ← delimRuns_prev delim s hh]
  rcases List.eq_nil_or_concat s with h | ⟨t, x, h⟩
  · exact absurd h hne
  · subst h
    have hx : x ≠ delim := by
      intro h
      apply hlast
      simp [h]
    rw [List.concat_eq_append, fieldStartsAux_length_concat delim x hx t true off]
    simp

theorem delimRuns_eq_count (delim : Nat) : ∀ (s : List Nat) (prev : Bool),
    s.Chain' (fun a b => a ≠ delim ∨ b ≠ delim) → (prev = true → s.head? ≠ some delim) →
    delimRuns delim prev s = s.count delim := by
  intro s
  induction s with
  | nil => intro prev _ _; rfl
  | cons b t ih =>
    intro prev hc hp
    have hct : t.Chain' (fun a b => a ≠ delim ∨ b ≠ delim) := hc.tail
    by_cases hb : b = delim
    · have hprev : prev = false := by
        cases prev
        · rfl
        · exact absurd (by simp [hb]) (hp rfl)
      have ht : t.head? ≠ some delim := by
        intro h
        cases t with
        | nil => simp at h
        | cons y t =>
          simp only [List.head?_cons, Option.some.injEq] at h
          rcases (List.chain'_cons.1 hc).1 with h1 | h1
          · exact h1 hb
          · exact h1 h
      subst hprev
      subst hb
      simp only [delimRuns, if_true, Bool.false_eq_true, if_false, List.count_cons_self]
      rw [ih true hct (fun _ => ht)]
      omega
    · simp only [delimRuns, if_neg hb]
      rw [ih false hct (by simp), List.count_cons_of_ne (fun h => hb h.symm)]

theorem writeSlots_getElem? (cap : Nat) : ∀ (offs : List Nat) (token : List (Option Nat))
    (i j : Nat),
    (writeSlots cap token i offs)[j]?
      = if i ≤ j ∧ j < i + offs.length ∧ j < cap ∧ j < token.length then some (offs[j - i]?)
        else token[j]? := by
  intro offs
  induction offs with
  | nil =>
    intro token i j
    have : ¬ (i ≤ j ∧ j < i + ([] : List Nat).length ∧ j < cap ∧ j < token.length) := by
      simp only [List.length_nil]; omega
    rw [if_neg this]
    rfl
  | cons o offs ih =>
    intro token i j
    simp only [writeSlots]
    rw [ih]
    have hlen : (if i < cap then token.set i (some o) else token).length = token.length := by
      split <;> simp
    rw [hlen]
    by_cases hij : i = j
    · subst hij
      have h1 : ¬ (i + 1 ≤ i ∧ i < i + 1 + offs.length ∧ i < cap ∧ i < token.length) := by omega
      rw [if_neg h1]
      by_cases hc : i < cap
      · rw [if_pos hc, List.getElem?_set]
        by_cases hl : i < token.length
        · have h2 : i ≤ i ∧ i < i + (o :: offs).length ∧ i < cap ∧ i < token.length := by
            simp only [List.length_cons]; omega
          rw [if_pos h2]
          simp [hl]
        · have h2 : ¬ (i ≤ i ∧ i < i + (o :: offs).length ∧ i < cap ∧ i < token.length) := by
            omega
          rw [if_neg h2]
          simp only [if_true, if_neg hl]
          rw [List.getElem?_eq_none (by omega)]
      · rw [if_neg hc]
        have h2 : ¬ (i ≤ i ∧ i < i + (o :: offs).length ∧ i < cap ∧ i < token.length) := by
          omega
        rw [if_neg h2]
    · have hget : (if i < cap then token.set i (some o) else token)[j]? = token[j]? := by
        split
        · rw [List.getElem?_set_ne hij]
        · rfl
      rw [hget]
      by_cases hc : i + 1 ≤ j ∧ j < i + 1 + offs.length ∧ j < cap ∧ j < token.length
      · have h2 : i ≤ j ∧ j < i + (o :: offs).length ∧ j < cap ∧ j < token.length := by
          simp only [List.length_cons]; omega
        rw [if_pos hc, if_pos h2]
        obtain ⟨k, hk⟩ : ∃ k, j - i = k + 1 := ⟨j - i - 1, by omega⟩
        rw [hk, List.getElem?_cons_succ]
        congr 2
        omega
      · have h2 : ¬ (i ≤ j ∧ j < i + (o :: offs).length ∧ j < cap ∧ j < token.length) := by
          simp only [List.length_cons]; omega
        rw [if_neg hc, if_neg h2]

/-! ## Tokenizer: the fields -/

theorem cstrFrom_piece : ∀ (piece X : List Nat), (∀ b ∈ piece, b ≠ 0) →
    cstrFrom (piece ++ 0 :: X) = .ok piece := by
  intro piece
  induction piece with
  | nil => intro X _; simp [cstrFrom]
  | cons b t ih =>
    intro X h
    have hb : b ≠ 0 := h b (by simp)
    simp only [List.cons_append, cstrFrom, if_neg hb, List.append_eq]
    rw [ih X (fun x hx => h x (by simp [hx]))]

theorem cstr_piece (A piece X : List Nat) (n : Nat) (hn : n = A.length)
    (h : ∀ b ∈ piece, b ≠ 0) : cstr (A ++ (piece ++ 0 :: X)) n = .ok piece := by
  subst hn
  have hlt : A.length < (A ++ (piece ++ 0 :: X)).length := by simp
  rw [cstr, if_pos hlt, List.drop_left, cstrFrom_piece piece X h]

theorem splitOnP_no_sep (p : Nat → Bool) : ∀ (s : List Nat), ∀ f ∈ s.splitOnP p, ∀ x ∈ f,
    ¬ p x = true := by
  intro s
  induction s with
  | nil =>
    intro f hf x hx
    rw [List.splitOnP_nil] at hf
    simp only [List.mem_singleton] at hf
    subst hf
    simp at hx
  | cons a s ih =>
    intro f hf x hx
    rw [List.splitOnP_cons] at hf
    by_cases ha : p a = true
    · rw [if_pos ha] at hf
      rcases List.mem_cons.1 hf with h | h
      · subst h; simp at hx
      · exact ih f h x hx
    · rw [if_neg ha] at hf
      cases hs : s.splitOnP p with
      | nil => exact absurd hs (List.splitOnP_ne_nil p s)
      | cons h0 tl =>
        rw [hs] at hf ih
        simp only [List.modifyHead] at hf
        rcases List.mem_cons.1 hf with h | h
        · subst h
          rcases List.mem_cons.1 hx with h1 | h1
          · exact h1 ▸ ha
          · exact ih h0 (by simp) x h1
        · exact ih f (by simp [h]) x hx

theorem nonEmptyPieces_nil (delim : Nat) : nonEmptyPieces delim [] = [] := by
  simp [nonEmptyPieces, List.splitOn, List.splitOnP_nil]

theorem nonEmptyPieces_mem (delim : Nat) (s f : List Nat) (hf : f ∈ nonEmptyPieces delim s) :
    f ≠ [] ∧ delim ∉ f := by
  simp only [nonEmptyPieces, List.mem_filter, decide_eq_true_eq] at hf
  refine ⟨hf.2, fun hmem => ?_⟩
  have := splitOnP_no_sep (fun b => b == delim) s f hf.1 delim hmem
  simp at this

theorem nonEmptyPieces_sep (delim : Nat) (piece X : List Nat) (hp : ∀ b ∈ piece, b ≠ delim) :
    nonEmptyPieces delim (piece ++ delim :: X)
      = (if piece = [] then [] else [piece]) ++ nonEmptyPieces delim X := by
  have h1 : ∀ x ∈ piece, ¬ (fun b => b == delim) x = true := by
    intro x hx
    simpa using hp x hx
  simp only [nonEmptyPieces, List.splitOn]
  rw [List.splitOnP_first (fun b => b == delim) piece h1 delim (by simp) X]
  by_cases hnil : piece = []
  · simp [hnil]
  · simp [hnil, List.filter_cons]

theorem nonEmptyPieces_single (delim : Nat) (piece : List Nat) (hp : ∀ b ∈ piece, b ≠ delim)
    (hne : piece ≠ []) : nonEmptyPieces delim piece = [piece] := by
  have h1 : ∀ x ∈ piece, ¬ (fun b => b == delim) x = true := by
    intro x hx
    simpa using hp x hx
  simp only [nonEmptyPieces, List.splitOn]
  rw [List.splitOnP_eq_single (fun b => b == delim) piece h1]
  simp [List.filter_cons, hne]

theorem nonEmptyPieces_run (delim : Nat) : ∀ (run X : List Nat), (∀ b ∈ run, b = delim) →
    nonEmptyPieces delim (run ++ X) = nonEmptyPieces delim X := by
  intro run
  induction run with
  | nil => intro X _; rfl
  | cons b t ih =>
    intro X h
    have hb : b = delim := h b (by simp)
    subst hb
    have := nonEmptyPieces_sep b [] (t ++ X) (by simp)
    simp only [List.nil_append, if_true] at this
    rw [List.cons_append, this, ih X (fun x hx => h x (by simp [hx]))]

theorem fieldPieces_nil (delim : Nat) : fieldPieces delim [] = [] := by
  simp [fieldPieces]

theorem takeWhile_span (delim : Nat) : ∀ (piece after : List Nat), (∀ b ∈ piece, b ≠ delim) →
    (∀ x ∈ after.head?, ¬ x ≠ delim) →
    (piece ++ after).takeWhile (fun b => b != delim) = piece
      ∧ (piece ++ after).dropWhile (fun b => b != delim) = after := by
  intro piece
  induction piece with
  | nil =>
    intro after _ ha
    cases after with
    | nil => simp
    | cons a t =>
      have : a = delim := by simpa using ha a (by simp)
      simp [List.takeWhile, List.dropWhile, this]
  | cons b t ih =>
    intro after hp ha
    have hb : b ≠ delim := hp b (by simp)
    have := ih after (fun x hx => hp x (by simp [hx])) ha
    have hb' : (b != delim) = true := by simpa using hb
    rw [List.cons_append, List.takeWhile_cons, List.dropWhile_cons, if_pos hb', if_pos hb',
      this.1, this.2]
    exact ⟨rfl, rfl⟩

theorem fieldPieces_span (delim : Nat) (piece after : List Nat) (hp : ∀ b ∈ piece, b ≠ delim)
    (ha : ∀ x ∈ after.head?, ¬ x ≠ delim) (hne : piece ++ after ≠ []) :
    fieldPieces delim (piece ++ after) = piece :: nonEmptyPieces delim after := by
  have := takeWhile_span delim piece after hp ha
  rw [fieldPieces, if_neg hne, this.1, this.2]

theorem fieldPieces_eq_nonEmptyPieces (delim : Nat) (s : List Nat)
    (h : ∀ x ∈ s.head?, x ≠ delim) : fieldPieces delim s = nonEmptyPieces delim s := by
  by_cases hnil : s = []
  · subst hnil
    rw [fieldPieces_nil, nonEmptyPieces_nil]
  obtain ⟨piece, after, hs, hp, ha⟩ := exists_span (fun x => x ≠ delim) s
  subst hs
  rw [fieldPieces_span delim piece after hp ha hnil]
  have hpne : piece ≠ [] := by
    intro hpe
    subst hpe
    cases after with
    | nil => exact hnil rfl
    | cons a t => exact ha a (by simp) (h a (by simp))
  cases after with
  | nil =>
    rw [List.append_nil, nonEmptyPieces_single delim piece hp hpne, nonEmptyPieces_nil]
  | cons a t =>
    have : a = delim := by simpa using ha a (by simp)
    subst this
    rw [nonEmptyPieces_sep a piece t hp, if_neg hpne]
    have h0 := nonEmptyPieces_sep a [] t (by simp)
    simp only [List.nil_append, if_true] at h0
    rw [h0]
    rfl

/-- Reading the strings at the field starts of the mutated buffer gives the fields. -/
theorem fields_read (delim : Nat) (hd : delim ≠ 0) :
    ∀ (n : Nat) (rest : List Nat), rest.length ≤ n → (∀ b ∈ rest, b ≠ 0) →
      ∀ (A post : List Nat),
        mapE (cstr (A ++ (nulRuns delim false rest ++ 0 :: post))) (fieldStarts delim A.length rest)
          = .ok (fieldPieces delim rest) := by
  intro n
  induction n with
  | zero =>
    intro rest hlen _ A post
    have : rest = [] := List.length_eq_zero.1 (by omega)
    subst this
    simp [fieldStarts_nil, fieldPieces_nil, mapE]
  | succ n ih =>
    intro rest hlen h0 A post
    by_cases hnil : rest = []
    · subst hnil
      simp [fieldStarts_nil, fieldPieces_nil, mapE]
    obtain ⟨piece, after, hrest, hpiece, hafter⟩ := exists_span (fun x => x ≠ delim) rest
    subst hrest
    have hp0 : ∀ b ∈ piece, b ≠ 0 := fun b hb => h0 b (by simp [hb])
    rw [fieldPieces_span delim piece after hpiece hafter hnil]
    cases after with
    | nil =>
      have hpne : piece ≠ [] := by simpa using hnil
      have h1 := nulRuns_piece delim piece [] hpiece
      simp only [List.append_nil, nulRuns] at h1
      simp only [List.append_nil]
      rw [fieldStarts_piece delim piece A.length hpiece hpne, h1, nonEmptyPieces_nil]
      simp only [mapE]
      rw [cstr_piece A piece post A.length rfl hp0]
    | cons d after1 =>
      have hdd : d = delim := by simpa using hafter d (by simp)
      subst hdd
      obtain ⟨run, next, hafter1, hrun, hnext⟩ := exists_span (fun x => x = d) after1
      subst hafter1
      have hnext1 : ∀ x ∈ next.head?, x ≠ d := fun x hx => hnext x hx
      rw [fieldStarts_chunk d piece run next A.length hpiece hrun hnext1,
        nulRuns_chunk d piece run next hpiece hrun hnext1]
      simp only [mapE]
      have hc := cstr_piece A piece ((run ++ nulRuns d false next) ++ 0 :: post) A.length rfl hp0
      simp only [List.append_assoc, List.cons_append] at hc ⊢
      rw [hc]
      have hA : A.length + piece.length + 1 + run.length = (A ++ piece ++ 0 :: run).length := by
        simp; omega
      have hmem : A ++ (piece ++ 0 :: (run ++ (nulRuns d false next ++ 0 :: post)))
          = (A ++ piece ++ 0 :: run) ++ (nulRuns d false next ++ 0 :: post) := by simp
      have hn0 : ∀ b ∈ next, b ≠ 0 := fun b hb => h0 b (by simp [hb])
      have hlen' : next.length ≤ n := by simp at hlen; omega
      rw [hA, hmem, ih next hlen' hn0 (A ++ piece ++ 0 :: run) post]
      simp only
      have h3 := nonEmptyPieces_run d (d :: run) next (by
        intro b hb
        rcases List.mem_cons.1 hb with h | h
        · exact h
        · exact hrun b h)
      rw [List.cons_append] at h3
      rw [h3, fieldPieces_eq_nonEmptyPieces d next hnext1]

theorem mapE_length {α β : Type} (f : α → Except Err β) : ∀ (l : List α) (bs : List β),
    mapE f l = .ok bs → bs.length = l.length := by
  intro l
  induction l with
  | nil =>
    intro bs h
    simp only [mapE] at h
    injection h with h
    subst h
    rfl
  | cons a l ih =>
    intro bs h
    simp only [mapE] at h
    cases hf : f a with
    | error e => rw [hf] at h; simp at h
    | ok b =>
      rw [hf] at h
      cases hm : mapE f l with
      | error e => rw [hm] at h; simp at h
      | ok bs1 =>
        rw [hm] at h
        simp only at h
        injection h with h
        subst h
        simp [ih bs1 hm]

theorem mapE_take {α β : Type} (f : α → Except Err β) : ∀ (l : List α) (bs : List β) (n : Nat),
    mapE f l = .ok bs → mapE f (l.take n) = .ok (bs.take n) := by
  intro l
  induction l with
  | nil =>
    intro bs n h
    simp only [mapE] at h
    injection h with h
    subst h
    simp [mapE]
  | cons a l ih =>
    intro bs n h
    simp only [mapE] at h
    cases hf : f a with
    | error e => rw [hf] at h; simp at h
    | ok b =>
      rw [hf] at h
      cases hm : mapE f l with
      | error e => rw [hm] at h; simp at h
      | ok bs1 =>
        rw [hm] at h
        simp only at h
        injection h with h
        subst h
        cases n with
        | zero => simp [mapE]
        | succ n => simp [mapE, hf, ih bs1 n hm]

theorem mapE_slotString (mem : List Nat) : ∀ (l : List Nat),
    mapE (slotString mem) (l.map some) = mapE (cstr mem) l := by
  intro l
  induction l with
  | nil => rfl
  | cons a l ih => simp only [List.map_cons, mapE, slotString, ih]

theorem writeSlots_take (cap : Nat) (token : List (Option Nat)) (starts : List Nat)
    (hcap : cap ≤ token.length) :
    (writeSlots cap token 0 starts).take (min cap starts.length) = (starts.take cap).map some := by
  apply List.ext_getElem?
  intro j
  rw [List.getElem?_take, writeSlots_getElem?, List.getElem?_map, List.getElem?_take]
  by_cases hj : j < min cap starts.length
  · have hj1 : j < cap := lt_of_lt_of_le hj (min_le_left _ _)
    have hj2 : j < starts.length := lt_of_lt_of_le hj (min_le_right _ _)
    have hc : 0 ≤ j ∧ j < 0 + starts.length ∧ j < cap ∧ j < token.length := by omega
    rw [if_pos hj, if_pos hc, if_pos hj1, Nat.sub_zero, List.getElem?_eq_getElem hj2]
    rfl
  · rw [if_neg hj]
    by_cases hj1 : j < cap
    · have hj2 : starts.length ≤ j := by
        by_contra hlt
        exact hj (lt_min hj1 (by omega))
      rw [if_pos hj1, List.getElem?_eq_none hj2]
      rfl
    · rw [if_neg hj1]
      rfl

theorem mem_tail_take {α : Type} (l : List α) (n : Nat) (a : α) (h : a ∈ (l.take n).tail) :
    a ∈ l.tail := by
  cases l with
  | nil => simp at h
  | cons x t =>
    cases n with
    | zero => simp at h
    | succ n =>
      simp only [List.take_succ_cons, List.tail_cons] at h ⊢
      exact List.mem_of_mem_take h

/-! ## Tokenizer: claims -/

/-- C8, as stated, fails: the buffer `a<TAB><TAB>b` does not begin with the delimiter and
holds `N = 2` delimiter bytes, and `parse_tokens0` returns 2, not `N + 1 = 3`: the two
adjacent delimiters are one boundary. -/
theorem parse_tokens0_count_ne_occurrences_succ :
    ¬ ∀ (s : List Nat) (delim : Nat), delim ≠ 0 → 0 ∉ s → s.head? ≠ some delim →
        ∃ r, parse_tokens0 [none] 0 (s ++ [0]) 0 s.length delim = .ok r
          ∧ r.count = s.count delim + 1 := by
  intro h
  obtain ⟨r, hr, hc⟩ := h (bytes "a\t\tb") 9 (by decide) (by decide) (by decide)
  have hrun : parse_tokens0 [none] 0 (bytes "a\t\tb" ++ [0]) 0 (bytes "a\t\tb").length 9
      = .ok ⟨2, [none], [97, 0, 9, 98, 0]⟩ := by decide
  rw [hrun] at hr
  injection hr with hr
  subst hr
  revert hc
  decide

/-- C8, amended: on a non-empty buffer that neither begins nor ends with the delimiter,
`parse_tokens0` returns `R + 1`, where `R` is the number of maximal runs of delimiter
bytes; `R` is the number `N` of delimiter bytes when no two of them are adjacent. -/
theorem parse_tokens0_count_runs (delim cap : Nat) (pre s post : List Nat)
    (token : List (Option Nat)) (hd : delim ≠ 0) (hcap : cap ≤ token.length) (hne : s ≠ [])
    (hhead : s.head? ≠ some delim) (hlast : s.getLast? ≠ some delim) :
    ∃ r, parse_tokens0 token cap (pre ++ (s ++ 0 :: post)) pre.length s.length delim = .ok r
      ∧ r.count = delimRuns delim false s + 1
      ∧ (s.Chain' (fun a b => a ≠ delim ∨ b ≠ delim) → r.count = s.count delim + 1) := by
  refine ⟨_, parse_tokens0_spec delim cap hd pre s post token hcap, ?_, ?_⟩
  · exact fieldStarts_length_runs delim pre.length s hne hhead hlast
  · intro hch
    show (fieldStarts delim pre.length s).length = s.count delim + 1
    rw [fieldStarts_length_runs delim pre.length s hne hhead hlast,
      delimRuns_eq_count delim s false hch (by simp)]

theorem parse_tokens0_count_runs_witness :
    ∃ r, parse_tokens0 [none, none] 2 ([35] ++ (bytes "a\t\tb\tc" ++ 0 :: [7])) 1 6 9 = .ok r
      ∧ r.count = delimRuns 9 false (bytes "a\t\tb\tc") + 1
      ∧ ((bytes "a\t\tb\tc").Chain' (fun a b => a ≠ 9 ∨ b ≠ 9)
          → r.count = (bytes "a\t\tb\tc").count 9 + 1) :=
  parse_tokens0_count_runs 9 2 [35] (bytes "a\t\tb\tc") [7] [none, none] (by decide) (by decide)
    (by decide) (by decide) (by decide)

/-- C10: for every capacity `cap` (with a `token` array that long), `parse_tokens0` returns
the count it returns with any other capacity `cap'`, in particular an unbounded one
(`count ≤ cap'`); it writes into the slots `j < min cap count` the field references that
the other run writes there (for `j < cap'`, that is for all of them when `cap'` is
unbounded); it leaves the slots `j ≥ cap` as they were; and it leaves the same buffer. -/
theorem parse_tokens0_capacity (delim cap cap' : Nat) (pre s post : List Nat)
    (token token' : List (Option Nat)) (hd : delim ≠ 0) (hcap : cap ≤ token.length)
    (hcap' : cap' ≤ token'.length) :
    ∃ r r',
      parse_tokens0 token cap (pre ++ (s ++ 0 :: post)) pre.length s.length delim = .ok r
      ∧ parse_tokens0 token' cap' (pre ++ (s ++ 0 :: post)) pre.length s.length delim = .ok r'
      ∧ r.count = r'.count
      ∧ r.mem = r'.mem
      ∧ r.token.length = token.length
      ∧ (∀ j, j < min cap r.count → (∃ p, r.token[j]? = some (some p))
            ∧ (j < cap' → r.token[j]? = r'.token[j]?))
      ∧ (∀ j, cap ≤ j → r.token[j]? = token[j]?) := by
  refine ⟨_, _, parse_tokens0_spec delim cap hd pre s post token hcap,
    parse_tokens0_spec delim cap' hd pre s post token' hcap', rfl, rfl, ?_, ?_, ?_⟩
  · exact writeSlots_length cap _ token 0
  · intro j hj
    simp only at hj
    have hj1 : j < cap := lt_of_lt_of_le hj (min_le_left _ _)
    have hj2 : j < (fieldStarts delim pre.length s).length := lt_of_lt_of_le hj (min_le_right _ _)
    have hc : 0 ≤ j ∧ j < 0 + (fieldStarts delim pre.length s).length ∧ j < cap
        ∧ j < token.length := by omega
    constructor
    · refine ⟨(fieldStarts delim pre.length s)[j], ?_⟩
      simp only
      rw [writeSlots_getElem?, if_pos hc, Nat.sub_zero, List.getElem?_eq_getElem hj2]
    · intro hj3
      have hc' : 0 ≤ j ∧ j < 0 + (fieldStarts delim pre.length s).length ∧ j < cap'
          ∧ j < token'.length := by omega
      simp only
      rw [writeSlots_getElem?, if_pos hc, writeSlots_getElem?, if_pos hc']
  · intro j hj
    have hc : ¬ (0 ≤ j ∧ j < 0 + (fieldStarts delim pre.length s).length ∧ j < cap
        ∧ j < token.length) := by omega
    simp only
    rw [writeSlots_getElem?, if_neg hc]

theorem parse_tokens0_capacity_witness :
    ∃ r r',
      parse_tokens0 [none, some 7, some 8] 2 ([] ++ (bytes "a\tb\tc\td" ++ 0 :: [])) 0 7 9 = .ok r
      ∧ parse_tokens0 [none, none, none, none] 4 ([] ++ (bytes "a\tb\tc\td" ++ 0 :: [])) 0 7 9
          = .ok r'
      ∧ r.count = r'.count
      ∧ r.mem = r'.mem
      ∧ r.token.length = 3
      ∧ (∀ j, j < min 2 r.count → (∃ p, r.token[j]? = some (some p))
            ∧ (j < 4 → r.token[j]? = r'.token[j]?))
      ∧ (∀ j, 2 ≤ j → r.token[j]? = [none, some 7, some 8][j]?) :=
  parse_tokens0_capacity 9 2 4 [] (bytes "a\tb\tc\td") [] [none, some 7, some 8]
    [none, none, none, none] (by decide) (by decide) (by decide)

/-- C9: on a NUL-terminated buffer `s` without NUL bytes and for a non-NUL delimiter,
`parse_tokens0` returns, and the fields it reports (the strings at the slots it filled)
are such that every field but the first is non-empty and holds no delimiter; when `s`
does not start with the delimiter, the count is the number of non-empty pieces of `s`
split on the delimiter and the fields are these pieces in order (the first `cap` of them). -/
theorem parse_tokens0_fields (delim cap : Nat) (pre s post : List Nat)
    (token : List (Option Nat)) (hd : delim ≠ 0) (hcap : cap ≤ token.length)
    (h0 : ∀ b ∈ s, b ≠ 0) :
    ∃ r fs,
      parse_tokens0 token cap (pre ++ (s ++ 0 :: post)) pre.length s.length delim = .ok r
      ∧ r.fields cap = .ok fs
      ∧ fs.length = min cap r.count
      ∧ (∀ f ∈ fs.tail, f ≠ [] ∧ delim ∉ f)
      ∧ (s.head? ≠ some delim →
          r.count = (nonEmptyPieces delim s).length ∧ fs = (nonEmptyPieces delim s).take cap) := by
  have hread := fields_read delim hd s.length s (le_refl _) h0 pre post
  have hlen := mapE_length _ _ _ hread
  have hfields : (TokResult.mk (fieldStarts delim pre.length s).length
        (writeSlots cap token 0 (fieldStarts delim pre.length s))
        (pre ++ (nulRuns delim false s ++ 0 :: post))).fields cap
      = .ok ((fieldPieces delim s).take cap) := by
    simp only [TokResult.fields]
    rw [writeSlots_take cap token _ hcap, mapE_slotString]
    exact mapE_take _ _ _ cap hread
  refine ⟨_, _, parse_tokens0_spec delim cap hd pre s post token hcap, hfields, ?_, ?_, ?_⟩
  · simp only [List.length_take, hlen]
  · intro f hf
    have hf1 := mem_tail_take _ _ _ hf
    by_cases hnil : s = []
    · subst hnil
      rw [fieldPieces_nil] at hf1
      simp at hf1
    · rw [fieldPieces, if_neg hnil, List.tail_cons] at hf1
      exact nonEmptyPieces_mem delim _ f hf1
  · intro hhead
    have hh : ∀ x ∈ s.head?, x ≠ delim := by
      intro x hx h
      rw [Option.mem_def] at hx
      exact hhead (h ▸ hx)
    rw [← fieldPieces_eq_nonEmptyPieces delim s hh]
    exact ⟨hlen.symm, rfl⟩

theorem parse_tokens0_fields_witness :
    ∃ r fs,
      parse_tokens0 [none, none, none, none] 4 ([35] ++ (bytes "vm3\t\tro\t/a\t\t\tb" ++ 0 :: [7]))
        1 14 9 = .ok r
      ∧ r.fields 4 = .ok fs
      ∧ fs.length = min 4 r.count
      ∧ (∀ f ∈ fs.tail, f ≠ [] ∧ 9 ∉ f)
      ∧ ((bytes "vm3\t\tro\t/a\t\t\tb").head? ≠ some 9 →
          r.count = (nonEmptyPieces 9 (bytes "vm3\t\tro\t/a\t\t\tb")).length
            ∧ fs = (nonEmptyPieces 9 (bytes "vm3\t\tro\t/a\t\t\tb")).take 4) :=
  parse_tokens0_fields 9 4 [35] (bytes "vm3\t\tro\t/a\t\t\tb") [7] [none, none, none, none]
    (by decide) (by decide) (by decide)

/-! ## Config parser: one line -/

theorem fieldsRule_length (h : List Nat) (fs : List (List Nat)) (hlen : fs.length ≠ 4) :
    fieldsRule h fs = none := by
  match fs with
  | [] => rfl
  | [_] => rfl
  | [_, _] => rfl
  | [_, _, _] => rfl
  | [_, _, _, _] => exact absurd rfl hlen
  | _ :: _ :: _ :: _ :: _ :: _ => rfl

/-- The rule of a line, from its fields. -/
theorem lineRule_eq (h line : List Nat) (h0 : ∀ b ∈ line, b ≠ 0) :
    lineRule h line
      = if line = [] ∨ line.head? = some 35 then none else fieldsRule h (fieldPieces 9 line) := by
  have hspec := parse_tokens0_spec 9 4 (by decide) [] line [] [none, none, none, none] (by decide)
  simp only [List.nil_append, List.length_nil] at hspec
  have hread := fields_read 9 (by decide) line.length line (le_refl _) h0 [] []
  simp only [List.nil_append, List.length_nil] at hread
  have hlen := mapE_length _ _ _ hread
  have hfields : (TokResult.mk (fieldStarts 9 0 line).length
        (writeSlots 4 [none, none, none, none] 0 (fieldStarts 9 0 line))
        (nulRuns 9 false line ++ [0])).fields 4 = .ok ((fieldPieces 9 line).take 4) := by
    simp only [TokResult.fields]
    rw [writeSlots_take 4 _ _ (by decide), mapE_slotString]
    exact mapE_take _ _ _ 4 hread
  rw [lineRule, hspec]
  simp only [hfields]
  by_cases hg : line = [] ∨ line.head? = some 35
  · rw [if_pos hg, if_pos hg]
  · rw [if_neg hg, if_neg hg]
    by_cases hc : (fieldStarts 9 0 line).length = 4
    · rw [if_pos hc]
      rw [List.take_of_length_le (by omega)]
    · rw [if_neg hc, fieldsRule_length h _ (by omega)]

theorem fieldPieces_tail_mem (delim : Nat) (s f : List Nat)
    (hf : f ∈ (fieldPieces delim s).tail) : f ≠ [] ∧ delim ∉ f := by
  by_cases hnil : s = []
  · subst hnil
    rw [fieldPieces_nil] at hf
    simp at hf
  · rw [fieldPieces, if_neg hnil, List.tail_cons] at hf
    exact nonEmptyPieces_mem delim _ f hf

theorem load_of_cstr (mem : List Nat) (p b : Nat) (t : List Nat)
    (h : cstr mem p = .ok (b :: t)) : load mem p = .ok b := by
  rw [cstr] at h
  by_cases hp : p < mem.length
  · rw [if_pos hp] at h
    have hget : mem[p]? = (mem.drop p).head? := by
      rw [List.head?_drop]
    rw [load, hget]
    cases hd : mem.drop p with
    | nil => rw [hd] at h; simp [cstrFrom] at h
    | cons x rest =>
      rw [hd] at h
      simp only [cstrFrom] at h
      by_cases hx : x = 0
      · rw [if_pos hx] at h; simp at h
      · rw [if_neg hx] at h
        cases hc : cstrFrom rest with
        | error e => rw [hc] at h; simp at h
        | ok s1 =>
          rw [hc] at h
          simp only at h
          injection h with h
          injection h with h1 h2
          subst h1
          rfl
  · rw [if_neg hp] at h; simp at h

theorem mapE_four {α β : Type} (f : α → Except Err β) (a b c d : α) (fs : List β)
    (h : mapE f [a, b, c, d] = .ok fs) :
    ∃ w x y z, fs = [w, x, y, z] ∧ f a = .ok w ∧ f b = .ok x ∧ f c = .ok y ∧ f d = .ok z := by
  simp only [mapE] at h
  cases ha : f a with
  | error e => rw [ha] at h; simp at h
  | ok w =>
    cases hb : f b with
    | error e => rw [ha, hb] at h; simp at h
    | ok x =>
      cases hc : f c with
      | error e => rw [ha, hb, hc] at h; simp at h
      | ok y =>
        cases hd : f d with
        | error e => rw [ha, hb, hc, hd] at h; simp at h
        | ok z =>
          rw [ha, hb, hc, hd] at h
          simp only at h
          injection h with h
          exact ⟨w, x, y, z, h.symm, rfl, rfl, rfl, rfl⟩

theorem mapE_concat {α β : Type} (f : α → Except Err β) (e : α) (b : β) (he : f e = .ok b) :
    ∀ (l : List α) (bs : List β), mapE f l = .ok bs → mapE f (l ++ [e]) = .ok (bs ++ [b]) := by
  intro l
  induction l with
  | nil =>
    intro bs h
    simp only [mapE] at h
    injection h with h
    subst h
    simp [mapE, he]
  | cons a l ih =>
    intro bs h
    simp only [mapE] at h
    cases hf : f a with
    | error e => rw [hf] at h; simp at h
    | ok b1 =>
      rw [hf] at h
      cases hm : mapE f l with
      | error e => rw [hm] at h; simp at h
      | ok bs1 =>
        rw [hm] at h
        simp only at h
        injection h with h
        subst h
        simp [mapE, hf, ih bs1 hm]

theorem cstrOf_eq (h : List Nat) (hh : ∀ b ∈ h, b ≠ 0) : cstrOf h = h := by
  rw [cstrOf, List.takeWhile_eq_self_iff]
  intro b hb
  simpa using hh b hb

theorem list_length_four {α : Type} (l : List α) (h : l.length = 4) :
    ∃ a b c d, l = [a, b, c, d] := by
  match l, h with
  | [a, b, c, d], _ => exact ⟨a, b, c, d, rfl⟩

/-! ## Config parser: the document -/

theorem lineRule_nil (h : List Nat) : lineRule h [] = none := by
  simp [lineRule]

theorem docRules_nil (h : List Nat) : docRules h [] = [] := by
  simp [docRules, List.splitOn, List.splitOnP_nil, lineRule_nil]

theorem docRules_line (h line : List Nat) (hl : ∀ b ∈ line, b ≠ 10) :
    docRules h line = (lineRule h line).toList := by
  have h1 : ∀ x ∈ line, ¬ (fun b => b == 10) x = true := by
    intro x hx
    simpa using hl x hx
  simp only [docRules, List.splitOn]
  rw [List.splitOnP_eq_single (fun b => b == 10) line h1]
  cases hr : lineRule h line <;> simp [List.filterMap_cons, hr]

theorem docRules_newline (h line rest : List Nat) (hl : ∀ b ∈ line, b ≠ 10) :
    docRules h (line ++ 10 :: rest) = (lineRule h line).toList ++ docRules h rest := by
  have h1 : ∀ x ∈ line, ¬ (fun b => b == 10) x = true := by
    intro x hx
    simpa using hl x hx
  simp only [docRules, List.splitOn]
  rw [List.splitOnP_first (fun b => b == 10) line h1 10 (by simp) rest]
  cases hr : lineRule h line <;> simp [List.filterMap_cons, hr]

theorem parse_config_loop_exit (h : List Nat) (fuel lineNo cp : Nat) (c : Config)
    (log : List Msg) (hcp : c.dataLen ≤ cp) :
    parse_config_loop h (fuel + 1) lineNo cp c log = .ok (c, log) := by
  rw [parse_config_loop, if_neg (by omega)]

theorem load_line_start (A line post : List Nat) :
    load (A ++ (line ++ 0 :: post)) A.length = .ok ((line.head?).getD 0) := by
  cases line with
  | nil => exact load_append_cons A post 0 A.length rfl
  | cons b t => exact load_append_cons A (t ++ 0 :: post) b A.length rfl

theorem line_guard (line : List Nat) (h0 : ∀ b ∈ line, b ≠ 0) :
    ((line.head?).getD 0 = 35 ∨ (line.head?).getD 0 = 0) ↔ (line = [] ∨ line.head? = some 35) := by
  cases line with
  | nil => simp
  | cons b t =>
    have hb : b ≠ 0 := h0 b (by simp)
    simp [hb]

theorem splitOnP_subset (p : Nat → Bool) : ∀ (s : List Nat), ∀ f ∈ s.splitOnP p, ∀ x ∈ f,
    x ∈ s := by
  intro s
  induction s with
  | nil =>
    intro f hf x hx
    rw [List.splitOnP_nil] at hf
    simp only [List.mem_singleton] at hf
    subst hf
    exact hx
  | cons a s ih =>
    intro f hf x hx
    rw [List.splitOnP_cons] at hf
    by_cases ha : p a = true
    · rw [if_pos ha] at hf
      rcases List.mem_cons.1 hf with h | h
      · subst h; simp at hx
      · exact List.mem_cons_of_mem _ (ih f h x hx)
    · rw [if_neg ha] at hf
      cases hs : s.splitOnP p with
      | nil => exact absurd hs (List.splitOnP_ne_nil p s)
      | cons h0 tl =>
        rw [hs] at hf ih
        simp only [List.modifyHead] at hf
        rcases List.mem_cons.1 hf with h | h
        · subst h
          rcases List.mem_cons.1 hx with h1 | h1
          · rw [h1]; exact List.mem_cons_self _ _
          · exact List.mem_cons_of_mem _ (ih h0 (by simp) x h1)
        · exact List.mem_cons_of_mem _ (ih f (by simp [h]) x hx)

theorem fieldsRule_some (h : List Nat) (fs : List (List Nat)) (r : Rule)
    (hr : fieldsRule h fs = some r) :
    ∃ host mode source dest, fs = [host, mode, source, dest]
      ∧ (mode = [114, 111] ∨ mode = [114, 119]) ∧ host = h ∧ source.head? = some 47
      ∧ dest.head? ≠ some 47
      ∧ r = { hostname := host, source := source, dest := dest,
              isReadOnly := decide (mode = [114, 111]) } := by
  by_cases hlen : fs.length = 4
  · obtain ⟨a, b, c, d, hfs⟩ := list_length_four fs hlen
    subst hfs
    simp only [fieldsRule] at hr
    by_cases hc : (b = [114, 111] ∨ b = [114, 119]) ∧ a = h ∧ c.head? = some 47
        ∧ d.head? ≠ some 47
    · rw [if_pos hc] at hr
      injection hr with hr
      exact ⟨a, b, c, d, rfl, hc.1, hc.2.1, hc.2.2.1, hc.2.2.2, hr.symm⟩
    · rw [if_neg hc] at hr
      simp at hr
  · rw [fieldsRule_length h fs hlen] at hr
    simp at hr

/-- Every rule of a document is shaped as a rule must be. -/
theorem docRules_mem (h doc : List Nat) (h0 : ∀ b ∈ doc, b ≠ 0) (r : Rule)
    (hr : r ∈ docRules h doc) :
    r.hostname = h ∧ r.source ≠ [] ∧ r.source.head? = some 47 ∧ r.dest ≠ []
      ∧ r.dest.head? ≠ some 47 := by
  simp only [docRules, List.mem_filterMap] at hr
  obtain ⟨line, hline, hrule⟩ := hr
  have hl0 : ∀ b ∈ line, b ≠ 0 := fun b hb =>
    h0 b (splitOnP_subset (fun b => b == 10) doc line hline b hb)
  rw [lineRule_eq h line hl0] at hrule
  by_cases hg : line = [] ∨ line.head? = some 35
  · rw [if_pos hg] at hrule
    simp at hrule
  · rw [if_neg hg] at hrule
    obtain ⟨host, mode, source, dest, hfs, _, hhost, hsrc, hdst, hrr⟩ :=
      fieldsRule_some h _ r hrule
    have hdne : dest ≠ [] := by
      refine (fieldPieces_tail_mem 9 line dest ?_).1
      rw [hfs]
      simp
    subst hrr
    refine ⟨hhost, ?_, hsrc, hdne, hdst⟩
    intro hnil
    have hnil' : source = [] := hnil
    rw [hnil'] at hsrc
    simp at hsrc

/-! ## Traces of `mkdir_p` and of the two loops of `setup_mounts` -/

/-- Whatever the system answers, the loop of `mkdir_p` only adds `mkdir` calls. -/
theorem mkdir_p_loop_trace (env : Env) : ∀ (fuel dirCount : Nat) (buf : List Nat)
    (tr : List Call),
    ∃ ms, (mkdir_p_loop env fuel dirCount buf tr).trace = tr ++ ms
      ∧ ∀ x ∈ ms, x.isMkdir = true := by
  intro fuel
  induction fuel with
  | zero => intro dirCount buf tr; exact ⟨[], by simp [mkdir_p_loop], by simp⟩
  | succ fuel ih =>
    intro dirCount buf tr
    rw [mkdir_p_loop]
    cases hc : cstr buf 0 with
    | error e => exact ⟨[], by simp, by simp⟩
    | ok path =>
      simp only
      by_cases herr : env.sys tr (Call.mkdir path 504) ≠ 0
          ∧ env.sys tr (Call.mkdir path 504) ≠ EEXIST
      · rw [if_pos herr]
        exact ⟨[Call.mkdir path 504], rfl, by simp [Call.isMkdir]⟩
      · rw [if_neg herr]
        by_cases hz : (if dirCount = 0 then 2 ^ 64 - 1 else dirCount - 1) = 0
        · rw [if_pos hz]
          exact ⟨[Call.mkdir path 504], rfl, by simp [Call.isMkdir]⟩
        · rw [if_neg hz]
          cases hs : store buf path.length 47 with
          | error e => exact ⟨[Call.mkdir path 504], rfl, by simp [Call.isMkdir]⟩
          | ok buf1 =>
            simp only
            obtain ⟨ms, hms, hall⟩ := ih (if dirCount = 0 then 2 ^ 64 - 1 else dirCount - 1) buf1
              (tr ++ [Call.mkdir path 504])
            refine ⟨Call.mkdir path 504 :: ms, ?_, ?_⟩
            · rw [hms]; simp
            · intro x hx
              rcases List.mem_cons.1 hx with h | h
              · subst h; rfl
              · exact hall x h

/-- Whatever the system answers, `mkdir_p` only adds `mkdir` calls. -/
theorem mkdir_p_trace (env : Env) (tr : List Call) (path : List Nat) :
    ∃ ms, (mkdir_p env tr path).trace = tr ++ ms ∧ ∀ x ∈ ms, x.isMkdir = true := by
  have hnil : ∃ ms : List Call, tr = tr ++ ms ∧ ∀ x ∈ ms, x.isMkdir = true :=
    ⟨[], by simp, by simp⟩
  rw [mkdir_p]
  by_cases he : cstrOf path = []
  · rw [if_pos he]; exact hnil
  · rw [if_neg he]
    simp only
    cases hp : parse_tokens0 [none] 0 (cstrOf path ++ [0]) 0 (cstrOf path).length 47 with
    | error e => exact hnil
    | ok r =>
      simp only
      by_cases hc : r.count = 0
      · rw [if_pos hc]; exact hnil
      · rw [if_neg hc]
        cases hl : load r.mem 0 with
        | error e => exact hnil
        | ok b =>
          simp only
          by_cases hb : b = 0
          · rw [if_pos hb]
            cases hs : store r.mem 0 47 with
            | error e => exact hnil
            | ok buf1 => exact mkdir_p_loop_trace env _ _ _ _
          · rw [if_neg hb]
            exact mkdir_p_loop_trace env _ _ _ _

/-- Whatever the system answers, the first loop of `setup_mounts` only adds `mkdir`
calls. -/
theorem setup_dirs_trace (env : Env) (data : List Nat) : ∀ (es : List (Option MountEntry))
    (tr : List Call),
    ∃ ms, (setup_dirs env data es tr).trace = tr ++ ms ∧ ∀ x ∈ ms, x.isMkdir = true := by
  intro es
  induction es with
  | nil => intro tr; exact ⟨[], by simp [setup_dirs], by simp⟩
  | cons e es ih =>
    intro tr
    cases e with
    | none => exact ⟨[], by simp [setup_dirs], by simp⟩
    | some e =>
      rw [setup_dirs]
      cases hc : cstr data e.dest with
      | error err => exact ⟨[], by simp, by simp⟩
      | ok dest =>
        simp only
        obtain ⟨ms1, h1, hall1⟩ := mkdir_p_trace env tr dest
        cases hr : (mkdir_p env tr dest).res with
        | error err => exact ⟨ms1, h1, hall1⟩
        | ok u =>
          simp only
          obtain ⟨ms2, h2, hall2⟩ := ih (mkdir_p env tr dest).trace
          refine ⟨ms1 ++ ms2, ?_, ?_⟩
          · rw [h2, h1, List.append_assoc]
          · intro x hx
            rcases List.mem_append.1 hx with h | h
            · exact hall1 x h
            · exact hall2 x h

/-- Whatever the system answers, the second loop of `setup_mounts` only adds `mount`
calls. -/
theorem setup_binds_trace (env : Env) (data : List Nat) : ∀ (es : List (Option MountEntry))
    (tr : List Call),
    ∃ ms, (setup_binds env data es tr).trace = tr ++ ms ∧ ∀ x ∈ ms, x.isMount = true := by
  intro es
  induction es with
  | nil => intro tr; exact ⟨[], by simp [setup_binds], by simp⟩
  | cons e es ih =>
    intro tr
    cases e with
    | none => exact ⟨[], by simp [setup_binds], by simp⟩
    | some e =>
      rw [setup_binds]
      cases hs : cstr data e.source with
      | error err => exact ⟨[], by simp, by simp⟩
      | ok source =>
        cases hd : cstr data e.dest with
        | error err => exact ⟨[], by simp, by simp⟩
        | ok dest =>
          simp only
          by_cases h1 : env.sys tr (Call.mount (some source) dest MS_BIND) ≠ 0
          · rw [if_pos h1]
            exact ⟨[Call.mount (some source) dest MS_BIND], rfl, by simp [Call.isMount]⟩
          · rw [if_neg h1]
            by_cases hro : e.isReadOnly = true
            · rw [if_pos hro]
              by_cases h2 : env.sys (tr ++ [Call.mount (some source) dest MS_BIND])
                  (Call.mount none dest (MS_REMOUNT ||| MS_BIND ||| MS_RDONLY)) ≠ 0
              · rw [if_pos h2]
                exact ⟨[Call.mount (some source) dest MS_BIND,
                  Call.mount none dest (MS_REMOUNT ||| MS_BIND ||| MS_RDONLY)], by simp,
                  by simp [Call.isMount]⟩
              · rw [if_neg h2]
                obtain ⟨ms, hms, hall⟩ := ih (tr ++ [Call.mount (some source) dest MS_BIND]
                  ++ [Call.mount none dest (MS_REMOUNT ||| MS_BIND ||| MS_RDONLY)])
                refine ⟨Call.mount (some source) dest MS_BIND
                  :: Call.mount none dest (MS_REMOUNT ||| MS_BIND ||| MS_RDONLY) :: ms, ?_, ?_⟩
                · rw [hms]; simp
                · intro x hx
                  rcases List.mem_cons.1 hx with h | h
                  · subst h; rfl
                  · rcases List.mem_cons.1 h with h | h
                    · subst h; rfl
                    · exact hall x h
            · rw [if_neg hro]
              obtain ⟨ms, hms, hall⟩ := ih (tr ++ [Call.mount (some source) dest MS_BIND])
              refine ⟨Call.mount (some source) dest MS_BIND :: ms, ?_, ?_⟩
              · rw [hms]; simp
              · intro x hx
                rcases List.mem_cons.1 hx with h | h
                · subst h; rfl
                · exact hall x h

/-! ## The shape of every run of `setup_mounts` -/

/-- Every run of `setup_mounts`, whatever the system answers: the first call is
`seteuid (getuid ())`; then come calls of the set-up phase (`dirs`); then a prefix
(`priv`) of the privileged phase `seteuid (0)`, `unshare`, the propagation mount, the
mounts of the rules (`binds`) and the final `chdir`.  A call after the first one means
the first one succeeded, and a run that returns went through the whole privileged phase. -/
theorem setup_mounts_shape (env : Env) (c : Config) (rootDir : List Nat) :
    ∃ dirs priv binds,
      (setup_mounts env c rootDir).trace = Call.seteuid env.uid :: (dirs ++ priv)
      ∧ (∀ x ∈ dirs, x.isSetup = true)
      ∧ (∀ x ∈ binds, x.isMount = true)
      ∧ priv <+: [Call.seteuid 0, Call.unshare CLONE_NEWNS,
            Call.mount none [47] (MS_REC ||| MS_SLAVE)] ++ binds ++ [Call.chdir env.cwd]
      ∧ (dirs ++ priv ≠ [] → env.sys [] (Call.seteuid env.uid) = 0)
      ∧ ((setup_mounts env c rootDir).res = .ok () →
          priv = [Call.seteuid 0, Call.unshare CLONE_NEWNS,
            Call.mount none [47] (MS_REC ||| MS_SLAVE)] ++ binds ++ [Call.chdir env.cwd]) := by
  rw [setup_mounts]
  simp only
  by_cases h1 : env.sys [] (Call.seteuid env.uid) ≠ 0
  · rw [if_pos h1]
    exact ⟨[], [], [], rfl, by simp, by simp, List.nil_prefix, by simp, by simp⟩
  rw [if_neg h1]
  have h1' : env.sys [] (Call.seteuid env.uid) = 0 := by
    by_contra hc
    exact h1 hc
  obtain ⟨ms3, ht3, hall3⟩ := mkdir_p_trace env
    ([Call.seteuid env.uid] ++ [Call.get_current_dir_name, Call.puts (cstrOf rootDir)]) rootDir
  have hsetup : ∀ (ms : List Call), (∀ x ∈ ms, x.isMkdir = true) → ∀ x ∈ ms, x.isSetup = true := by
    intro ms hms x hx
    have := hms x hx
    cases x <;> simp_all [Call.isMkdir, Call.isSetup]
  cases hr3 : (mkdir_p env
      ([Call.seteuid env.uid] ++ [Call.get_current_dir_name, Call.puts (cstrOf rootDir)])
      rootDir).res with
  | error e =>
    simp only
    refine ⟨[Call.get_current_dir_name, Call.puts (cstrOf rootDir)] ++ ms3, [], [], ?_, ?_,
      by simp, List.nil_prefix, fun _ => h1', ?_⟩
    · rw [ht3]; simp
    · intro x hx
      rcases List.mem_append.1 hx with h | h
      · simp only [List.mem_cons, List.mem_singleton, List.not_mem_nil, or_false] at h
        rcases h with h | h <;> subst h <;> rfl
      · exact hsetup ms3 hall3 x h
    · rw [hr3]; simp
  | ok u3 =>
    simp only
    obtain ⟨ms5, ht5, hall5⟩ := setup_dirs_trace env c.data c.entries
      ((mkdir_p env
        ([Call.seteuid env.uid] ++ [Call.get_current_dir_name, Call.puts (cstrOf rootDir)])
        rootDir).trace ++ [Call.chdir (some (cstrOf rootDir))])
    have hdirs : ∀ x ∈ [Call.get_current_dir_name, Call.puts (cstrOf rootDir)] ++ ms3
        ++ [Call.chdir (some (cstrOf rootDir))] ++ ms5, x.isSetup = true := by
      intro x hx
      simp only [List.mem_append, List.mem_cons, List.mem_singleton, List.not_mem_nil,
        or_false] at hx
      rcases hx with ((h | h) | h) | h
      · rcases h with h | h <;> subst h <;> rfl
      · exact hsetup ms3 hall3 x h
      · subst h; rfl
      · exact hsetup ms5 hall5 x h
    have htr5 : (setup_dirs env c.data c.entries
        ((mkdir_p env
          ([Call.seteuid env.uid] ++ [Call.get_current_dir_name, Call.puts (cstrOf rootDir)])
          rootDir).trace ++ [Call.chdir (some (cstrOf rootDir))])).trace
        = Call.seteuid env.uid :: ([Call.get_current_dir_name, Call.puts (cstrOf rootDir)] ++ ms3
            ++ [Call.chdir (some (cstrOf rootDir))] ++ ms5) := by
      rw [ht5, ht3]; simp
    generalize hR5 : setup_dirs env c.data c.entries
        ((mkdir_p env
          ([Call.seteuid env.uid] ++ [Call.get_current_dir_name, Call.puts (cstrOf rootDir)])
          rootDir).trace ++ [Call.chdir (some (cstrOf rootDir))]) = r5 at htr5 ⊢
    generalize hD : [Call.get_current_dir_name, Call.puts (cstrOf rootDir)] ++ ms3
        ++ [Call.chdir (some (cstrOf rootDir))] ++ ms5 = dirs at htr5 hdirs
    cases hr5 : r5.res with
    | error e =>
      simp only
      refine ⟨dirs, [], [], ?_, hdirs, by simp, List.nil_prefix, fun _ => h1', ?_⟩
      · rw [htr5]; simp
      · rw [hr5]; simp
    | ok u5 =>
      simp only
      by_cases h6 : env.sys r5.trace (Call.seteuid 0) ≠ 0
      · rw [if_pos h6]
        refine ⟨dirs, [Call.seteuid 0], [], ?_, hdirs, by simp, ?_, fun _ => h1', by simp⟩
        · rw [htr5]; simp
        · exact ⟨[Call.unshare CLONE_NEWNS, Call.mount none [47] (MS_REC ||| MS_SLAVE),
            Call.chdir env.cwd], by simp⟩
      rw [if_neg h6]
      by_cases h7 : env.sys (r5.trace ++ [Call.seteuid 0]) (Call.unshare CLONE_NEWNS) ≠ 0
      · rw [if_pos h7]
        refine ⟨dirs, [Call.seteuid 0, Call.unshare CLONE_NEWNS], [], ?_, hdirs, by simp, ?_,
          fun _ => h1', by simp⟩
        · rw [htr5]; simp
        · exact ⟨[Call.mount none [47] (MS_REC ||| MS_SLAVE), Call.chdir env.cwd], by simp⟩
      rw [if_neg h7]
      obtain ⟨ms9, ht9, hall9⟩ := setup_binds_trace env c.data c.entries
        (r5.trace ++ [Call.seteuid 0] ++ [Call.unshare CLONE_NEWNS]
          ++ [Call.mount none [47] (MS_REC ||| MS_SLAVE)])
      generalize hR9 : setup_binds env c.data c.entries
        (r5.trace ++ [Call.seteuid 0] ++ [Call.unshare CLONE_NEWNS]
          ++ [Call.mount none [47] (MS_REC ||| MS_SLAVE)]) = r9 at ht9 ⊢
      cases hr9 : r9.res with
      | error e =>
        simp only
        refine ⟨dirs, [Call.seteuid 0, Call.unshare CLONE_NEWNS,
          Call.mount none [47] (MS_REC ||| MS_SLAVE)] ++ ms9, ms9, ?_, hdirs, hall9, ?_,
          fun _ => h1', ?_⟩
        · rw [ht9, htr5]; simp
        · exact List.prefix_append _ _
        · rw [hr9]; simp
      | ok u9 =>
        simp only
        refine ⟨dirs, [Call.seteuid 0, Call.unshare CLONE_NEWNS,
          Call.mount none [47] (MS_REC ||| MS_SLAVE)] ++ ms9 ++ [Call.chdir env.cwd], ms9, ?_,
          hdirs, hall9, List.prefix_rfl, fun _ => h1', fun _ => rfl⟩
        rw [ht9, htr5]; simp

/-! ## `mkdir_p` returns when every `mkdir` succeeds or finds the directory -/

theorem fieldStartsAux_length_le (delim : Nat) : ∀ (s : List Nat) (prev : Bool) (off : Nat),
    (fieldStartsAux delim prev off s).length
      ≤ delimRuns delim prev s + (if prev then 1 else 0) := by
  intro s
  induction s with
  | nil => intro prev off; simp [fieldStartsAux]
  | cons b t ih =>
    intro prev off
    by_cases hb : b = delim
    · simp only [fieldStartsAux, delimRuns, if_pos hb]
      have := ih true (off + 1)
      simp only [if_true] at this
      cases prev
      · simp; omega
      · simp; omega
    · simp only [fieldStartsAux, delimRuns, if_neg hb]
      have := ih false (off + 1)
      simp only [Bool.false_eq_true, if_false, Nat.add_zero] at this
      cases prev
      · simp; omega
      · simp; omega

theorem fieldStartsAux_pos (delim : Nat) : ∀ (t : List Nat) (off : Nat),
    (∃ b ∈ t, b ≠ delim) → 1 ≤ (fieldStartsAux delim true off t).length := by
  intro t
  induction t with
  | nil => intro off h; simp at h
  | cons b t ih =>
    intro off h
    by_cases hb : b = delim
    · simp only [fieldStartsAux, if_pos hb]
      apply ih
      obtain ⟨x, hx, hxd⟩ := h
      rcases List.mem_cons.1 hx with h1 | h1
      · exact absurd (h1 ▸ hb) hxd
      · exact ⟨x, h1, hxd⟩
    · simp [fieldStartsAux, hb]

theorem nulRuns_count (delim : Nat) : ∀ (s : List Nat) (prev : Bool),
    (∀ b ∈ s, b ≠ 0) → (nulRuns delim prev s).count 0 = delimRuns delim prev s := by
  intro s
  induction s with
  | nil => intro prev _; rfl
  | cons b t ih =>
    intro prev h0
    have hb0 : b ≠ 0 := h0 b (by simp)
    have ht := fun p => ih p (fun x hx => h0 x (by simp [hx]))
    by_cases hb : b = delim
    · simp only [nulRuns, delimRuns, if_pos hb]
      cases prev
      · simp only [Bool.false_eq_true, if_false, List.count_cons_self, ht]
        omega
      · simp only [if_true]
        rw [List.count_cons_of_ne (fun h => hb0 h.symm), ht]
        omega
    · simp only [nulRuns, delimRuns, if_neg hb]
      rw [List.count_cons_of_ne (fun h => hb0 h.symm), ht]

theorem cstrOf_ne_zero (path : List Nat) : ∀ b ∈ cstrOf path, b ≠ 0 := by
  intro b hb
  have := List.mem_takeWhile_imp hb
  simpa using this

/-- The loop of `mkdir_p` returns when the counter is at least 1 and the buffer holds
at least that many NUL bytes, on a system where `mkdir` succeeds or fails with `EEXIST`. -/
theorem mkdir_p_loop_ok (env : Env)
    (hsys : ∀ past path mode, env.sys past (Call.mkdir path mode) = 0
      ∨ env.sys past (Call.mkdir path mode) = EEXIST) :
    ∀ (fuel j : Nat) (buf : List Nat) (tr : List Call), 1 ≤ j → j ≤ fuel → j ≤ buf.count 0 →
      ∃ ms, mkdir_p_loop env fuel j buf tr = ⟨tr ++ ms, .ok ()⟩ ∧ ∀ x ∈ ms, x.isMkdir = true := by
  intro fuel
  induction fuel with
  | zero => intro j buf tr h1 h2; omega
  | succ fuel ih =>
    intro j buf tr hj hfuel hcount
    obtain ⟨P, after, hbuf, hP, hafter⟩ := exists_span (fun x => x ≠ 0) buf
    subst hbuf
    have hP0 : P.count 0 = 0 := List.count_eq_zero.2 (fun h => hP 0 h rfl)
    cases after with
    | nil =>
      rw [List.append_nil, hP0] at hcount
      omega
    | cons a R =>
      have ha : a = 0 := by simpa using hafter a (by simp)
      subst ha
      have hc : cstr (P ++ 0 :: R) 0 = .ok P := cstr_piece [] P R 0 rfl hP
      have herr : ¬ (env.sys tr (Call.mkdir P 504) ≠ 0 ∧ env.sys tr (Call.mkdir P 504) ≠ EEXIST) := by
        rcases hsys tr P 504 with h | h
        · exact fun hc => hc.1 h
        · exact fun hc => hc.2 h
      rw [mkdir_p_loop, hc]
      simp only
      rw [if_neg herr, if_neg (by omega : ¬ j = 0)]
      by_cases hz : j - 1 = 0
      · rw [if_pos hz]
        exact ⟨[Call.mkdir P 504], rfl, by simp [Call.isMkdir]⟩
      · rw [if_neg hz, store_append_cons P R 0 47 P.length rfl]
        simp only
        have hcount' : j - 1 ≤ (P ++ 47 :: R).count 0 := by
          rw [List.count_append, List.count_cons_self, hP0] at hcount
          rw [List.count_append, List.count_cons_of_ne (by decide), hP0]
          omega
        obtain ⟨ms, hms, hall⟩ := ih (j - 1) (P ++ 47 :: R) (tr ++ [Call.mkdir P 504])
          (by omega) (by omega) hcount'
        refine ⟨Call.mkdir P 504 :: ms, ?_, ?_⟩
        · rw [hms]; simp
        · intro x hx
          rcases List.mem_cons.1 hx with h | h
          · subst h; rfl
          · exact hall x h

/-- The function `mkdir_p` returns, having issued only `mkdir` calls, on a path with a
byte other than `/`, on a system where `mkdir` succeeds or fails with `EEXIST`. -/
theorem mkdir_p_ok (env : Env)
    (hsys : ∀ past path mode, env.sys past (Call.mkdir path mode) = 0
      ∨ env.sys past (Call.mkdir path mode) = EEXIST)
    (tr : List Call) (path : List Nat) (hpath : ∃ b ∈ cstrOf path, b ≠ 47) :
    ∃ ms, mkdir_p env tr path = ⟨tr ++ ms, .ok ()⟩ ∧ ∀ x ∈ ms, x.isMkdir = true := by
  have h0 := cstrOf_ne_zero path
  rw [mkdir_p]
  generalize cstrOf path = s at hpath h0 ⊢
  obtain ⟨x, hx, hx47⟩ := hpath
  cases s with
  | nil => simp at hx
  | cons b t =>
    have hb0 : b ≠ 0 := h0 b (by simp)
    have ht0 : ∀ y ∈ t, y ≠ 0 := fun y hy => h0 y (by simp [hy])
    have hspec := parse_tokens0_spec 47 0 (by decide) [] (b :: t) [] [none] (by decide)
    simp only [List.nil_append, List.length_nil] at hspec
    rw [if_neg (by simp)]
    simp only
    rw [hspec]
    simp only [fieldStarts_cons, List.length_cons]
    rw [if_neg (by omega)]
    by_cases hb : b = 47
    · have hmem : nulRuns 47 false (b :: t) ++ [0] = [] ++ 0 :: (nulRuns 47 true t ++ [0]) := by
        simp [nulRuns, hb]
      have htx : ∃ y ∈ t, y ≠ 47 := by
        rcases List.mem_cons.1 hx with h | h
        · exact absurd (h ▸ hb) hx47
        · exact ⟨x, h, hx47⟩
      have hdec : decide (b = 47) = true := by simp [hb]
      rw [hmem, load_append_cons [] _ 0 0 rfl]
      simp only [if_true]
      rw [store_append_cons [] _ 0 47 0 rfl]
      simp only [List.nil_append, Nat.add_sub_cancel, hdec]
      have hcnt : (47 :: (nulRuns 47 true t ++ [0])).count 0 = delimRuns 47 true t + 1 := by
        rw [List.count_cons_of_ne (by decide), List.count_append, nulRuns_count 47 t true ht0]
        simp
      have hle := fieldStartsAux_length_le 47 t true (0 + 1)
      simp only [if_true] at hle
      refine mkdir_p_loop_ok env hsys _ _ _ tr (fieldStartsAux_pos 47 t _ htx) ?_ ?_
      · have := nulRuns_length 47 t true
        have h2 : delimRuns 47 true t ≤ t.length := by
          rw [← nulRuns_count 47 t true ht0, ← this]
          exact List.count_le_length _ _
        simp only [List.length_cons, List.length_append, List.length_nil]
        omega
      · rw [hcnt]
        exact hle
    · have hmem : nulRuns 47 false (b :: t) ++ [0] = [] ++ b :: (nulRuns 47 false t ++ [0]) := by
        simp [nulRuns, hb]
      have hdec : decide (b = 47) = false := by simp [hb]
      rw [hmem, load_append_cons [] _ b 0 rfl]
      simp only [if_neg hb0, List.nil_append, hdec]
      have hcnt : (b :: (nulRuns 47 false t ++ [0])).count 0 = delimRuns 47 false t + 1 := by
        rw [List.count_cons_of_ne (fun h => hb0 h.symm), List.count_append,
          nulRuns_count 47 t false ht0]
        simp
      have hle := fieldStartsAux_length_le 47 t false (0 + 1)
      simp only [Bool.false_eq_true, if_false, Nat.add_zero] at hle
      refine mkdir_p_loop_ok env hsys _ _ _ tr (by omega) ?_ ?_
      · have := nulRuns_length 47 t false
        have h2 : delimRuns 47 false t ≤ t.length := by
          rw [← nulRuns_count 47 t false ht0, ← this]
          exact List.count_le_length _ _
        simp only [List.length_cons, List.length_append, List.length_nil]
        omega
      · rw [hcnt]
        omega

/-! ## The two loops of `setup_mounts` when no call fails -/

theorem cstrFrom_ne_zero : ∀ (l s : List Nat), cstrFrom l = .ok s → ∀ b ∈ s, b ≠ 0 := by
  intro l
  induction l with
  | nil => intro s h; simp [cstrFrom] at h
  | cons a l ih =>
    intro s h
    simp only [cstrFrom] at h
    by_cases ha : a = 0
    · rw [if_pos ha] at h
      injection h with h
      subst h
      simp
    · rw [if_neg ha] at h
      cases hc : cstrFrom l with
      | error e => rw [hc] at h; simp at h
      | ok s1 =>
        rw [hc] at h
        simp only at h
        injection h with h
        subst h
        intro b hb
        rcases List.mem_cons.1 hb with h1 | h1
        · exact h1 ▸ ha
        · exact ih s1 hc b h1

theorem cstr_ne_zero (mem : List Nat) (p : Nat) (s : List Nat) (h : cstr mem p = .ok s) :
    ∀ b ∈ s, b ≠ 0 := by
  rw [cstr] at h
  by_cases hp : p < mem.length
  · rw [if_pos hp] at h
    exact cstrFrom_ne_zero _ s h
  · rw [if_neg hp] at h
    simp at h

theorem mapE_cons_ok {α β : Type} (f : α → Except Err β) (a : α) (l : List α) (bs : List β)
    (h : mapE f (a :: l) = .ok bs) :
    ∃ b bs', bs = b :: bs' ∧ f a = .ok b ∧ mapE f l = .ok bs' := by
  simp only [mapE] at h
  cases hf : f a with
  | error e => rw [hf] at h; simp at h
  | ok b =>
    rw [hf] at h
    cases hm : mapE f l with
    | error e => rw [hm] at h; simp at h
    | ok bs1 =>
      rw [hm] at h
      simp only at h
      injection h with h
      exact ⟨b, bs1, h.symm, rfl, rfl⟩

theorem ruleOf_ok (data : List Nat) (e : MountEntry) (r : Rule) (h : ruleOf data e = .ok r) :
    cstr data e.source = .ok r.source ∧ cstr data e.dest = .ok r.dest
      ∧ e.isReadOnly = r.isReadOnly := by
  rw [ruleOf] at h
  cases h1 : cstr data e.hostname with
  | error err => rw [h1] at h; simp at h
  | ok hn =>
    cases h2 : cstr data e.source with
    | error err => rw [h1, h2] at h; simp at h
    | ok src =>
      cases h3 : cstr data e.dest with
      | error err => rw [h1, h2, h3] at h; simp at h
      | ok dst =>
        rw [h1, h2, h3] at h
        simp only at h
        injection h with h
        subst h
        exact ⟨rfl, rfl, rfl⟩

theorem Config.entries_eq (c : Config) (hlen : c.length ≤ c.entry.length) :
    c.entries = (c.entry.take c.length).map some := by
  apply List.ext_getElem?
  intro j
  rw [Config.entries, List.getElem?_map, List.getElem?_map, List.getElem?_take]
  by_cases hj : j < c.length
  · rw [List.getElem?_range hj, if_pos hj]
    have hj2 : j < c.entry.length := by omega
    simp [List.getElem?_eq_getElem hj2]
  · rw [if_neg hj, List.getElem?_eq_none (by simpa using hj)]
    rfl

/-- The first loop of `setup_mounts` returns, having issued only `mkdir` calls, when the
destinations hold a byte other than `/`, on a system where `mkdir` succeeds or fails with
`EEXIST`. -/
theorem setup_dirs_ok (env : Env)
    (hsys : ∀ past path mode, env.sys past (Call.mkdir path mode) = 0
      ∨ env.sys past (Call.mkdir path mode) = EEXIST)
    (data : List Nat) : ∀ (es : List MountEntry) (rs : List Rule) (tr : List Call),
      mapE (ruleOf data) es = .ok rs → (∀ r ∈ rs, ∃ b ∈ r.dest, b ≠ 47) →
      ∃ ms, setup_dirs env data (es.map some) tr = ⟨tr ++ ms, .ok ()⟩
        ∧ ∀ x ∈ ms, x.isMkdir = true := by
  intro es
  induction es with
  | nil => intro rs tr _ _; exact ⟨[], by simp [setup_dirs], by simp⟩
  | cons e es ih =>
    intro rs tr hrs hdest
    obtain ⟨r, rs', hrs', hr, hrest⟩ := mapE_cons_ok _ _ _ _ hrs
    subst hrs'
    obtain ⟨_, hd, _⟩ := ruleOf_ok data e r hr
    have hpath : ∃ b ∈ cstrOf r.dest, b ≠ 47 := by
      rw [cstrOf_eq r.dest (cstr_ne_zero data e.dest r.dest hd)]
      exact hdest r (by simp)
    obtain ⟨ms1, h1, hall1⟩ := mkdir_p_ok env hsys tr r.dest hpath
    obtain ⟨ms2, h2, hall2⟩ := ih rs' (tr ++ ms1) hrest (fun x hx => hdest x (by simp [hx]))
    refine ⟨ms1 ++ ms2, ?_, ?_⟩
    · rw [List.map_cons, setup_dirs, hd]
      simp only [h1, h2, List.append_assoc]
    · intro x hx
      rcases List.mem_append.1 hx with h | h
      · exact hall1 x h
      · exact hall2 x h

/-- The second loop of `setup_mounts`, when no call fails: it returns, having issued the
mount calls of every rule, in order. -/
theorem setup_binds_ok (env : Env) (hsys : ∀ past call, env.sys past call = 0)
    (data : List Nat) : ∀ (es : List MountEntry) (rs : List Rule) (tr : List Call),
      mapE (ruleOf data) es = .ok rs →
      setup_binds env data (es.map some) tr = ⟨tr ++ rs.flatMap ruleMounts, .ok ()⟩ := by
  intro es
  induction es with
  | nil =>
    intro rs tr hrs
    simp only [mapE] at hrs
    injection hrs with hrs
    subst hrs
    simp [setup_binds]
  | cons e es ih =>
    intro rs tr hrs
    obtain ⟨r, rs', hrs', hr, hrest⟩ := mapE_cons_ok _ _ _ _ hrs
    subst hrs'
    obtain ⟨hs, hd, hro⟩ := ruleOf_ok data e r hr
    rw [List.map_cons, setup_binds, hs, hd]
    simp only [hsys, ne_eq, not_true_eq_false, if_false, hro]
    by_cases hr1 : r.isReadOnly = true
    · rw [if_pos hr1, ih rs' _ hrest]
      simp [List.flatMap_cons, ruleMounts, hr1]
    · rw [if_neg hr1, ih rs' _ hrest]
      simp [List.flatMap_cons, ruleMounts, hr1]

/-! ## A failed enforced call ends the run -/

theorem clean_nil (env : Env) (tr : List Call) : Clean env tr [] := by
  intro k call hk
  simp at hk

theorem clean_of_not_enforced (env : Env) (tr ms : List Call)
    (h : ∀ x ∈ ms, x.isEnforced = false) : Clean env tr ms := by
  intro k call hk he
  have := h call (List.getElem?_mem hk)
  rw [this] at he
  exact absurd he (by decide)

theorem clean_single (env : Env) (tr : List Call) (call : Call) (h : env.sys tr call = 0) :
    Clean env tr [call] := by
  intro k x hk _
  cases k with
  | zero =>
    simp only [List.getElem?_cons_zero, Option.some.injEq] at hk
    subst hk
    simpa using h
  | succ k => simp at hk

theorem clean_append (env : Env) (tr ms1 ms2 : List Call) (h1 : Clean env tr ms1)
    (h2 : Clean env (tr ++ ms1) ms2) : Clean env tr (ms1 ++ ms2) := by
  intro k call hk he
  by_cases hlt : k < ms1.length
  · rw [List.getElem?_append_left hlt] at hk
    rw [List.take_append_of_le_length (by omega)]
    exact h1 k call hk he
  · rw [List.getElem?_append_right (by omega)] at hk
    rw [List.take_append_eq_append_take, List.take_of_length_le (by omega), ← List.append_assoc]
    exact h2 _ call hk he

theorem fatalLast_of_clean (env : Env) (tr ms : List Call) (res : Except Err Unit)
    (h : Clean env tr ms) : FatalLast env tr ms res := by
  intro k call hk he hne
  exact absurd (h k call hk he) hne

theorem fatalLast_single (env : Env) (tr : List Call) (call : Call) (res : Except Err Unit)
    (h : res ≠ .ok ()) : FatalLast env tr [call] res := by
  intro k x hk _ _
  cases k with
  | zero => exact ⟨rfl, h⟩
  | succ k => simp at hk

theorem fatalLast_append (env : Env) (tr ms1 ms2 : List Call) (res : Except Err Unit)
    (h1 : Clean env tr ms1) (h2 : FatalLast env (tr ++ ms1) ms2 res) :
    FatalLast env tr (ms1 ++ ms2) res := by
  intro k call hk he hne
  by_cases hlt : k < ms1.length
  · rw [List.getElem?_append_left hlt] at hk
    rw [List.take_append_of_le_length (by omega)] at hne
    exact absurd (h1 k call hk he) hne
  · rw [List.getElem?_append_right (by omega)] at hk
    rw [List.take_append_eq_append_take, List.take_of_length_le (by omega),
      ← List.append_assoc] at hne
    obtain ⟨hlen, hres⟩ := h2 _ call hk he hne
    refine ⟨?_, hres⟩
    rw [List.length_append]
    omega

theorem not_enforced_of_mkdir (ms : List Call) (h : ∀ x ∈ ms, x.isMkdir = true) :
    ∀ x ∈ ms, x.isEnforced = false := by
  intro x hx
  have := h x hx
  cases x <;> simp_all [Call.isMkdir, Call.isEnforced]

/-- In the second loop of `setup_mounts`, a bind mount or a read-only remount that fails
is the last call and the loop does not return; when the loop returns, all succeeded. -/
theorem setup_binds_fatal (env : Env) (data : List Nat) : ∀ (es : List (Option MountEntry))
    (tr : List Call),
    ∃ ms, (setup_binds env data es tr).trace = tr ++ ms
      ∧ ((setup_binds env data es tr).res = .ok () → Clean env tr ms)
      ∧ FatalLast env tr ms (setup_binds env data es tr).res := by
  intro es
  induction es with
  | nil =>
    intro tr
    exact ⟨[], by simp [setup_binds], fun _ => clean_nil env tr,
      fatalLast_of_clean env tr [] _ (clean_nil env tr)⟩
  | cons e es ih =>
    intro tr
    have hnil : ∀ res : Except Err Unit, ∃ ms : List Call, tr = tr ++ ms
        ∧ (res = .ok () → Clean env tr ms) ∧ FatalLast env tr ms res := fun res =>
      ⟨[], by simp, fun _ => clean_nil env tr, fatalLast_of_clean env tr [] _ (clean_nil env tr)⟩
    cases e with
    | none => rw [setup_binds]; exact hnil _
    | some e =>
      rw [setup_binds]
      cases hs : cstr data e.source with
      | error err => exact hnil _
      | ok source =>
        cases hd : cstr data e.dest with
        | error err => exact hnil _
        | ok dest =>
          simp only
          by_cases h1 : env.sys tr (Call.mount (some source) dest MS_BIND) ≠ 0
          · rw [if_pos h1]
            exact ⟨[Call.mount (some source) dest MS_BIND], rfl, by simp,
              fatalLast_single env tr _ _ (by simp)⟩
          · rw [if_neg h1]
            have h1' : env.sys tr (Call.mount (some source) dest MS_BIND) = 0 := by
              by_contra hc
              exact h1 hc
            have hc1 := clean_single env tr _ h1'
            by_cases hro : e.isReadOnly = true
            · rw [if_pos hro]
              by_cases h2 : env.sys (tr ++ [Call.mount (some source) dest MS_BIND])
                  (Call.mount none dest (MS_REMOUNT ||| MS_BIND ||| MS_RDONLY)) ≠ 0
              · rw [if_pos h2]
                refine ⟨[Call.mount (some source) dest MS_BIND]
                  ++ [Call.mount none dest (MS_REMOUNT ||| MS_BIND ||| MS_RDONLY)], by simp,
                  by simp, ?_⟩
                exact fatalLast_append env tr _ _ _ hc1 (fatalLast_single env _ _ _ (by simp))
              · rw [if_neg h2]
                have h2' : env.sys (tr ++ [Call.mount (some source) dest MS_BIND])
                    (Call.mount none dest (MS_REMOUNT ||| MS_BIND ||| MS_RDONLY)) = 0 := by
                  by_contra hc
                  exact h2 hc
                have hc2 := clean_append env tr _ _ hc1 (clean_single env _ _ h2')
                obtain ⟨ms, hms, hok, hfatal⟩ := ih (tr ++ [Call.mount (some source) dest MS_BIND]
                  ++ [Call.mount none dest (MS_REMOUNT ||| MS_BIND ||| MS_RDONLY)])
                rw [List.append_assoc] at hms hok hfatal
                refine ⟨([Call.mount (some source) dest MS_BIND]
                  ++ [Call.mount none dest (MS_REMOUNT ||| MS_BIND ||| MS_RDONLY)]) ++ ms, ?_,
                  ?_, ?_⟩
                · rw [List.append_assoc tr, hms, List.append_assoc]
                · intro hres
                  rw [List.append_assoc tr] at hres
                  exact clean_append env tr _ _ hc2 (hok hres)
                · rw [List.append_assoc tr]
                  exact fatalLast_append env tr _ _ _ hc2 hfatal
            · rw [if_neg hro]
              obtain ⟨ms, hms, hok, hfatal⟩ := ih (tr ++ [Call.mount (some source) dest MS_BIND])
              refine ⟨[Call.mount (some source) dest MS_BIND] ++ ms, ?_, ?_, ?_⟩
              · rw [hms, List.append_assoc]
              · intro hres
                exact clean_append env tr _ _ hc1 (hok hres)
              · exact fatalLast_append env tr _ _ _ hc1 hfatal

/-- In every run of `setup_mounts`, whatever the system answers: a `seteuid`, an
`unshare`, a bind mount or a read-only remount that fails is the last call of the run,
and the run does not return. -/
theorem setup_mounts_fatal (env : Env) (c : Config) (rootDir : List Nat) :
    FatalLast env [] (setup_mounts env c rootDir).trace (setup_mounts env c rootDir).res := by
  rw [setup_mounts]
  simp only
  by_cases h1 : env.sys [] (Call.seteuid env.uid) ≠ 0
  · rw [if_pos h1]
    exact fatalLast_single env [] _ _ (by simp)
  rw [if_neg h1]
  have h1' : env.sys [] (Call.seteuid env.uid) = 0 := by
    by_contra hc
    exact h1 hc
  have hc1 : Clean env [] [Call.seteuid env.uid] := clean_single env [] _ h1'
  have hc2 : Clean env []
      ([Call.seteuid env.uid] ++ [Call.get_current_dir_name, Call.puts (cstrOf rootDir)]) :=
    clean_append env [] _ _ hc1 (clean_of_not_enforced env _ _ (by
      intro x hx
      simp only [List.mem_cons, List.mem_singleton, List.not_mem_nil, or_false] at hx
      rcases hx with h | h <;> subst h <;> rfl))
  obtain ⟨ms3, ht3, hall3⟩ := mkdir_p_trace env
    ([Call.seteuid env.uid] ++ [Call.get_current_dir_name, Call.puts (cstrOf rootDir)]) rootDir
  generalize hR3 : mkdir_p env
    ([Call.seteuid env.uid] ++ [Call.get_current_dir_name, Call.puts (cstrOf rootDir)])
    rootDir = r3 at ht3 ⊢
  have hc3 : Clean env [] r3.trace := by
    rw [ht3]
    exact clean_append env [] _ _ hc2
      (clean_of_not_enforced env _ _ (not_enforced_of_mkdir ms3 hall3))
  cases hr3 : r3.res with
  | error e =>
    simp only
    rw [hr3]
    exact fatalLast_of_clean env [] _ _ hc3
  | ok u3 =>
    simp only
    have hc4 : Clean env [] (r3.trace ++ [Call.chdir (some (cstrOf rootDir))]) :=
      clean_append env [] _ _ hc3 (clean_of_not_enforced env _ _ (by
        intro x hx
        simp only [List.mem_singleton] at hx
        subst hx
        rfl))
    obtain ⟨ms5, ht5, hall5⟩ := setup_dirs_trace env c.data c.entries
      (r3.trace ++ [Call.chdir (some (cstrOf rootDir))])
    generalize hR5 : setup_dirs env c.data c.entries
      (r3.trace ++ [Call.chdir (some (cstrOf rootDir))]) = r5 at ht5 ⊢
    have hc5 : Clean env [] r5.trace := by
      rw [ht5]
      exact clean_append env [] _ _ hc4
        (clean_of_not_enforced env _ _ (not_enforced_of_mkdir ms5 hall5))
    cases hr5 : r5.res with
    | error e =>
      simp only
      rw [hr5]
      exact fatalLast_of_clean env [] _ _ hc5
    | ok u5 =>
      simp only
      by_cases h6 : env.sys r5.trace (Call.seteuid 0) ≠ 0
      · rw [if_pos h6]
        exact fatalLast_append env [] _ _ _ hc5 (fatalLast_single env _ _ _ (by simp))
      rw [if_neg h6]
      have h6' : env.sys r5.trace (Call.seteuid 0) = 0 := by
        by_contra hc
        exact h6 hc
      have hc6 : Clean env [] (r5.trace ++ [Call.seteuid 0]) :=
        clean_append env [] _ _ hc5 (clean_single env _ _ (by simpa using h6'))
      by_cases h7 : env.sys (r5.trace ++ [Call.seteuid 0]) (Call.unshare CLONE_NEWNS) ≠ 0
      · rw [if_pos h7]
        exact fatalLast_append env [] _ _ _ hc6 (fatalLast_single env _ _ _ (by simp))
      rw [if_neg h7]
      have h7' : env.sys (r5.trace ++ [Call.seteuid 0]) (Call.unshare CLONE_NEWNS) = 0 := by
        by_contra hc
        exact h7 hc
      have hc7 : Clean env [] (r5.trace ++ [Call.seteuid 0] ++ [Call.unshare CLONE_NEWNS]) :=
        clean_append env [] _ _ hc6 (clean_single env _ _ (by simpa using h7'))
      have hc8 : Clean env [] (r5.trace ++ [Call.seteuid 0] ++ [Call.unshare CLONE_NEWNS]
          ++ [Call.mount none [47] (MS_REC ||| MS_SLAVE)]) :=
        clean_append env [] _ _ hc7 (clean_of_not_enforced env _ _ (by
          intro x hx
          simp only [List.mem_singleton] at hx
          subst hx
          decide))
      obtain ⟨ms9, ht9, hok9, hfatal9⟩ := setup_binds_fatal env c.data c.entries
        (r5.trace ++ [Call.seteuid 0] ++ [Call.unshare CLONE_NEWNS]
          ++ [Call.mount none [47] (MS_REC ||| MS_SLAVE)])
      generalize hR9 : setup_binds env c.data c.entries
        (r5.trace ++ [Call.seteuid 0] ++ [Call.unshare CLONE_NEWNS]
          ++ [Call.mount none [47] (MS_REC ||| MS_SLAVE)]) = r9 at ht9 hok9 hfatal9 ⊢
      cases hr9 : r9.res with
      | error e =>
        simp only
        rw [ht9, hr9]
        rw [hr9] at hfatal9
        exact fatalLast_append env [] _ _ _ hc8 (by simpa using hfatal9)
      | ok u9 =>
        simp only
        refine fatalLast_of_clean env [] _ _ ?_
        rw [ht9]
        have hc9 : Clean env [] (r5.trace ++ [Call.seteuid 0] ++ [Call.unshare CLONE_NEWNS]
            ++ [Call.mount none [47] (MS_REC ||| MS_SLAVE)] ++ ms9) :=
          clean_append env [] _ _ hc8 (by simpa using hok9 hr9)
        exact clean_append env [] _ _ hc9 (clean_of_not_enforced env _ _ (by
          intro x hx
          simp only [List.mem_singleton] at hx
          subst hx
          rfl))

/-! ## Mount set-up: claims -/

/-- C3: in every run of `setup_mounts` that returns, the trace is `pre`, then
`unshare (CLONE_NEWNS)`, then the propagation change on `/`, then `post`, where `pre`
holds no `mount` and no `unshare` and `post` holds no `mkdir` and no `unshare`: every
`mkdir` is before the `unshare`, every bind mount and read-only remount after it and
after the propagation change. -/
theorem setup_mounts_order (env : Env) (c : Config) (rootDir : List Nat)
    (hok : (setup_mounts env c rootDir).res = .ok ()) :
    ∃ pre post,
      (setup_mounts env c rootDir).trace
        = pre ++ Call.unshare CLONE_NEWNS :: Call.mount none [47] (MS_REC ||| MS_SLAVE) :: post
      ∧ (∀ x ∈ pre, x.isMount = false ∧ x.isUnshare = false)
      ∧ (∀ x ∈ post, x.isMkdir = false ∧ x.isUnshare = false) := by
  obtain ⟨dirs, priv, binds, htr, hdirs, hbinds, _, _, hpriv⟩ := setup_mounts_shape env c rootDir
  have hp := hpriv hok
  subst hp
  refine ⟨Call.seteuid env.uid :: (dirs ++ [Call.seteuid 0]), binds ++ [Call.chdir env.cwd],
    ?_, ?_, ?_⟩
  · rw [htr]; simp
  · intro x hx
    simp only [List.mem_cons, List.mem_append, List.mem_singleton, List.not_mem_nil,
      or_false] at hx
    rcases hx with h | h | h
    · subst h; exact ⟨rfl, rfl⟩
    · have := hdirs x h
      cases x <;> simp_all [Call.isSetup, Call.isMount, Call.isUnshare]
    · subst h; exact ⟨rfl, rfl⟩
  · intro x hx
    simp only [List.mem_append, List.mem_singleton] at hx
    rcases hx with h | h
    · have := hbinds x h
      cases x <;> simp_all [Call.isMkdir, Call.isMount, Call.isUnshare]
    · subst h; exact ⟨rfl, rfl⟩

theorem setup_mounts_order_witness :
    ∃ pre post,
      (setup_mounts envOk exampleConfig exampleRoot).trace
        = pre ++ Call.unshare CLONE_NEWNS :: Call.mount none [47] (MS_REC ||| MS_SLAVE) :: post
      ∧ (∀ x ∈ pre, x.isMount = false ∧ x.isUnshare = false)
      ∧ (∀ x ∈ post, x.isMkdir = false ∧ x.isUnshare = false) :=
  setup_mounts_order envOk exampleConfig exampleRoot (by decide)

/-- C4: in a run of `setup_mounts` where no call fails, on a rule list whose destinations
hold a byte other than `/` (as every non-empty destination that does not begin with `/`
does) and a mount root that holds one, `setup_mounts` returns and its trace is `pre`,
without any mount, then the propagation change on `/`, then for each rule in order its
bind mount, followed at once by its read-only remount if and only if the rule is
read-only, then the final `chdir`. -/
theorem setup_mounts_mounts (env : Env) (c : Config) (rootDir : List Nat) (rs : List Rule)
    (hsys : ∀ past call, env.sys past call = 0) (hlen : c.length ≤ c.entry.length)
    (hrules : c.rules = .ok rs) (hdest : ∀ r ∈ rs, ∃ b ∈ r.dest, b ≠ 47)
    (hroot : ∃ b ∈ cstrOf rootDir, b ≠ 47) :
    (setup_mounts env c rootDir).res = .ok ()
    ∧ ∃ pre, (∀ x ∈ pre, x.isMount = false)
      ∧ (setup_mounts env c rootDir).trace
          = pre ++ Call.mount none [47] (MS_REC ||| MS_SLAVE)
              :: (rs.flatMap ruleMounts ++ [Call.chdir env.cwd]) := by
  have hmk : ∀ past path mode, env.sys past (Call.mkdir path mode) = 0
      ∨ env.sys past (Call.mkdir path mode) = EEXIST := fun past path mode =>
    Or.inl (hsys past _)
  obtain ⟨ms3, h3, hall3⟩ := mkdir_p_ok env hmk
    ([Call.seteuid env.uid] ++ [Call.get_current_dir_name, Call.puts (cstrOf rootDir)])
    rootDir hroot
  rw [Config.rules] at hrules
  obtain ⟨ms5, h5, hall5⟩ := setup_dirs_ok env hmk c.data (c.entry.take c.length) rs
    ([Call.seteuid env.uid] ++ [Call.get_current_dir_name, Call.puts (cstrOf rootDir)] ++ ms3
      ++ [Call.chdir (some (cstrOf rootDir))]) hrules hdest
  have h9 := setup_binds_ok env hsys c.data (c.entry.take c.length) rs
    ([Call.seteuid env.uid] ++ [Call.get_current_dir_name, Call.puts (cstrOf rootDir)] ++ ms3
      ++ [Call.chdir (some (cstrOf rootDir))] ++ ms5 ++ [Call.seteuid 0]
      ++ [Call.unshare CLONE_NEWNS] ++ [Call.mount none [47] (MS_REC ||| MS_SLAVE)]) hrules
  rw [setup_mounts]
  simp only [hsys, ne_eq, not_true_eq_false, if_false, h3, Config.entries_eq c hlen, h5, h9]
  refine ⟨trivial, Call.seteuid env.uid :: ([Call.get_current_dir_name,
    Call.puts (cstrOf rootDir)] ++ ms3 ++ [Call.chdir (some (cstrOf rootDir))] ++ ms5
    ++ [Call.seteuid 0, Call.unshare CLONE_NEWNS]), ?_, by simp⟩
  intro x hx
  simp only [List.mem_cons, List.mem_append, List.mem_singleton, List.not_mem_nil,
    or_false] at hx
  rcases hx with h | (((h | h) | h) | h) | h
  · subst h; rfl
  · rcases h with h | h <;> subst h <;> rfl
  · have := hall3 x h
    cases x <;> simp_all [Call.isMkdir, Call.isMount]
  · subst h; rfl
  · have := hall5 x h
    cases x <;> simp_all [Call.isMkdir, Call.isMount]
  · rcases h with h | h <;> subst h <;> rfl

theorem setup_mounts_mounts_witness :
    (setup_mounts envOk exampleConfig exampleRoot).res = .ok ()
    ∧ ∃ pre, (∀ x ∈ pre, x.isMount = false)
      ∧ (setup_mounts envOk exampleConfig exampleRoot).trace
          = pre ++ Call.mount none [47] (MS_REC ||| MS_SLAVE)
              :: ([{ hostname := bytes "vm3", source := bytes "/pool/web",
                     dest := bytes "services/nginx", isReadOnly := true },
                   { hostname := bytes "vm3", source := bytes "/pool/db",
                     dest := bytes "services/db", isReadOnly := false }].flatMap ruleMounts
                  ++ [Call.chdir envOk.cwd]) :=
  setup_mounts_mounts envOk exampleConfig exampleRoot _ (fun _ _ => rfl) (by decide)
    (by decide) (by decide) (by decide)

/-- C5, the code at a failing input: the mount root exists but is not a directory, so
`chdir (rootDir)` (the 9th call) fails; `setup_mounts` goes on, creates the rule
directories (in the old working directory), mounts, and returns. -/
theorem setup_mounts_chdir_failure_ignored :
    (setup_mounts envChdirFails exampleConfig exampleRoot).trace[8]?
        = some (Call.chdir (some exampleRoot))
    ∧ envChdirFails.sys ((setup_mounts envChdirFails exampleConfig exampleRoot).trace.take 8)
        (Call.chdir (some exampleRoot)) = 20
    ∧ Call.mkdir (bytes "services/nginx") 0o770
        ∈ (setup_mounts envChdirFails exampleConfig exampleRoot).trace.drop 9
    ∧ Call.mount (some (bytes "/pool/web")) (bytes "services/nginx") MS_BIND
        ∈ (setup_mounts envChdirFails exampleConfig exampleRoot).trace.drop 9
    ∧ (setup_mounts envChdirFails exampleConfig exampleRoot).res = .ok () := by
  decide

/-- C6, the code at a failing input: the propagation change on `/` (the 16th call)
fails; `setup_mounts` goes on with the bind mounts and returns. -/
theorem setup_mounts_propagation_failure_ignored :
    (setup_mounts envPropagationFails exampleConfig exampleRoot).trace[15]?
        = some (Call.mount none [47] (MS_REC ||| MS_SLAVE))
    ∧ envPropagationFails.sys
        ((setup_mounts envPropagationFails exampleConfig exampleRoot).trace.take 15)
        (Call.mount none [47] (MS_REC ||| MS_SLAVE)) = 22
    ∧ (setup_mounts envPropagationFails exampleConfig exampleRoot).trace.drop 16
        = [Call.mount (some (bytes "/pool/web")) (bytes "services/nginx") MS_BIND,
           Call.mount none (bytes "services/nginx") (MS_REMOUNT ||| MS_BIND ||| MS_RDONLY),
           Call.mount (some (bytes "/pool/db")) (bytes "services/db") MS_BIND,
           Call.chdir (some (bytes "/home"))]
    ∧ (setup_mounts envPropagationFails exampleConfig exampleRoot).res = .ok () := by
  decide

theorem euidGo_no_seteuid (env : Env) : ∀ (l past : List Call) (cur : Option Nat),
    (∀ x ∈ l, x.isSeteuid = false) → euidGo env past cur l = cur := by
  intro l
  induction l with
  | nil => intro past cur _; rfl
  | cons a l ih =>
    intro past cur h
    have ha : a.isSeteuid = false := h a (by simp)
    rw [euidGo, ih _ _ (fun x hx => h x (by simp [hx]))]
    cases a <;> simp_all [Call.isSeteuid]

/-- C7: in every run of `setup_mounts`, whatever the system answers, the trace is
`seteuid (getuid ())`, then `low`, then `high`, where `low` holds no `seteuid`, `high`
holds no `mkdir` and starts with `seteuid (0)` when it is not empty, and the first
`seteuid` succeeded when any call follows it: every `mkdir` is in `low`, after the
successful `seteuid (getuid ())` and before the `seteuid (0)`, none follows the
`seteuid (0)`, and every `mkdir` is issued with the effective uid equal to the real uid. -/
theorem setup_mounts_mkdir_unprivileged (env : Env) (c : Config) (rootDir : List Nat) :
    (∃ low high,
      (setup_mounts env c rootDir).trace = Call.seteuid env.uid :: (low ++ high)
      ∧ (∀ x ∈ low, x.isSeteuid = false)
      ∧ (∀ x ∈ high, x.isMkdir = false)
      ∧ (low ++ high ≠ [] → env.sys [] (Call.seteuid env.uid) = 0)
      ∧ (high = [] ∨ high.head? = some (Call.seteuid 0)))
    ∧ ∀ k path mode, (setup_mounts env c rootDir).trace[k]? = some (Call.mkdir path mode) →
        euidBefore env (setup_mounts env c rootDir).trace k = some env.uid := by
  obtain ⟨dirs, priv, binds, htr, hdirs, hbinds, hpre, hfirst, _⟩ :=
    setup_mounts_shape env c rootDir
  have hlow : ∀ x ∈ dirs, x.isSeteuid = false := by
    intro x hx
    have := hdirs x hx
    cases x <;> simp_all [Call.isSetup, Call.isSeteuid]
  have hhigh : ∀ x ∈ priv, x.isMkdir = false := by
    intro x hx
    have hmem := hpre.subset hx
    simp only [List.mem_cons, List.mem_append, List.mem_singleton, List.not_mem_nil,
      or_false] at hmem
    rcases hmem with ((h | h | h) | h) | h
    · subst h; rfl
    · subst h; rfl
    · subst h; rfl
    · have := hbinds x h
      cases x <;> simp_all [Call.isMkdir, Call.isMount]
    · subst h; rfl
  refine ⟨⟨dirs, priv, htr, hlow, hhigh, hfirst, ?_⟩, ?_⟩
  · obtain ⟨t, ht⟩ := hpre
    cases priv with
    | nil => exact Or.inl rfl
    | cons a priv =>
      right
      simp only [List.cons_append, List.append_assoc] at ht
      injection ht with h1 _
      rw [List.head?_cons, h1]
  · intro k path mode hk
    rw [htr] at hk
    rw [euidBefore, htr]
    cases k with
    | zero => simp at hk
    | succ k =>
      rw [List.getElem?_cons_succ] at hk
      have hklt : k < dirs.length := by
        by_contra hge
        rw [List.getElem?_append_right (by omega)] at hk
        have := hhigh _ (List.getElem?_mem hk)
        simp [Call.isMkdir] at this
      have hne : dirs ++ priv ≠ [] := by
        intro hnil
        rw [hnil] at hk
        simp at hk
      rw [List.take_succ_cons, List.take_append_of_le_length (by omega), euidGo]
      simp only [hfirst hne, if_true]
      exact euidGo_no_seteuid env _ _ _ (fun x hx => hlow x (List.mem_of_mem_take hx))

/-! ## Tokenizer: leading delimiters and the mutation of the buffer -/

theorem nulRuns_getElem? (delim : Nat) : ∀ (s : List Nat) (prev : Bool) (i : Nat),
    (nulRuns delim prev s)[i]?
      = if s[i]? = some delim ∧ (if i = 0 then prev = false else s[i - 1]? ≠ some delim)
        then some 0 else s[i]? := by
  intro s
  induction s with
  | nil => intro prev i; simp [nulRuns]
  | cons b t ih =>
    intro prev i
    cases i with
    | zero =>
      by_cases hb : b = delim
      · cases prev <;> simp [nulRuns, hb]
      · simp [nulRuns, hb]
    | succ i =>
      by_cases hb : b = delim
      · simp only [nulRuns, if_pos hb, List.getElem?_cons_succ]
        rw [ih true i]
        cases i with
        | zero => simp [hb]
        | succ i => simp
      · simp only [nulRuns, if_neg hb, List.getElem?_cons_succ]
        rw [ih false i]
        cases i with
        | zero => simp [hb]
        | succ i => simp

theorem fieldPieces_leading (delim : Nat) (s : List Nat) (hhead : s.head? = some delim) :
    fieldPieces delim s = [] :: nonEmptyPieces delim s := by
  have hne : s ≠ [] := by
    intro h
    rw [h] at hhead
    simp at hhead
  have := fieldPieces_span delim [] s (by simp) (by
    intro x hx
    rw [Option.mem_def, hhead] at hx
    injection hx with hx
    simp [hx]) (by simpa using hne)
  simpa using this

theorem nonEmptyPieces_dropWhile (delim : Nat) (s : List Nat) :
    nonEmptyPieces delim (s.dropWhile (fun b => b == delim)) = nonEmptyPieces delim s := by
  have h := nonEmptyPieces_run delim (s.takeWhile (fun b => b == delim))
    (s.dropWhile (fun b => b == delim)) (by
      intro b hb
      have := List.mem_takeWhile_imp hb
      simpa using this)
  rw [List.takeWhile_append_dropWhile] at h
  exact h.symm

/-- C18: on a NUL-terminated buffer `s` without NUL bytes, `parse_tokens0` returns and
no field it reports after the first is empty, so none is reported for delimiters that
end the buffer; and when `s` begins with the delimiter, it returns 1 plus the number of
non-empty pieces of the rest (what follows the leading delimiters), and the fields it
reports are one empty field, at offset 0 of the buffer, followed by these non-empty
pieces in order. -/
theorem parse_tokens0_leading_delimiter (delim cap : Nat) (pre s post : List Nat)
    (token : List (Option Nat)) (hd : delim ≠ 0) (hcap : cap ≤ token.length)
    (h0 : ∀ b ∈ s, b ≠ 0) :
    ∃ r fs,
      parse_tokens0 token cap (pre ++ (s ++ 0 :: post)) pre.length s.length delim = .ok r
      ∧ r.fields cap = .ok fs
      ∧ (∀ f ∈ fs.tail, f ≠ [])
      ∧ (s.head? = some delim →
          r.count = 1 + (nonEmptyPieces delim (s.dropWhile (fun b => b == delim))).length
          ∧ fs = ([] :: nonEmptyPieces delim (s.dropWhile (fun b => b == delim))).take cap
          ∧ (0 < cap → r.token[0]? = some (some pre.length))) := by
  have hread := fields_read delim hd s.length s (le_refl _) h0 pre post
  have hlen := mapE_length _ _ _ hread
  have hfields : (TokResult.mk (fieldStarts delim pre.length s).length
        (writeSlots cap token 0 (fieldStarts delim pre.length s))
        (pre ++ (nulRuns delim false s ++ 0 :: post))).fields cap
      = .ok ((fieldPieces delim s).take cap) := by
    simp only [TokResult.fields]
    rw [writeSlots_take cap token _ hcap, mapE_slotString]
    exact mapE_take _ _ _ cap hread
  refine ⟨_, _, parse_tokens0_spec delim cap hd pre s post token hcap, hfields, ?_, ?_⟩
  · intro f hf
    exact (fieldPieces_tail_mem delim s f (mem_tail_take _ _ _ hf)).1
  · intro hhead
    rw [fieldPieces_leading delim s hhead] at hlen
    rw [fieldPieces_leading delim s hhead, nonEmptyPieces_dropWhile]
    refine ⟨?_, rfl, ?_⟩
    · simp only
      rw [← hlen, List.length_cons]
      omega
    · intro hc
      cases s with
      | nil => simp at hhead
      | cons b t =>
        simp only [fieldStarts_cons]
        rw [writeSlots_getElem?, if_pos (by simp only [List.length_cons]; omega)]
        simp

theorem parse_tokens0_leading_delimiter_witness :
    (bytes "//run//user/").head? = some 47
    ∧ ∃ r fs,
      parse_tokens0 [none, none, none] 3 ([35] ++ (bytes "//run//user/" ++ 0 :: [7])) 1 12 47
        = .ok r
      ∧ r.fields 3 = .ok fs
      ∧ (∀ f ∈ fs.tail, f ≠ [])
      ∧ ((bytes "//run//user/").head? = some 47 →
          r.count
            = 1 + (nonEmptyPieces 47 ((bytes "//run//user/").dropWhile (fun b => b == 47))).length
          ∧ fs = ([] :: nonEmptyPieces 47
                    ((bytes "//run//user/").dropWhile (fun b => b == 47))).take 3
          ∧ (0 < 3 → r.token[0]? = some (some 1))) :=
  ⟨by decide,
    parse_tokens0_leading_delimiter 47 3 [35] (bytes "//run//user/") [7] [none, none, none]
      (by decide) (by decide) (by decide)⟩

/-- C19: for every capacity, `parse_tokens0` leaves the buffer `s` with the first byte of
each maximal run of delimiters replaced by NUL (a delimiter at index 0 or after a byte
that is not a delimiter) and every other byte as it was, the bytes around `s` untouched;
the buffer it leaves is the same for every capacity. -/
theorem parse_tokens0_mutation (delim cap cap' : Nat) (pre s post : List Nat)
    (token token' : List (Option Nat)) (hd : delim ≠ 0) (hcap : cap ≤ token.length)
    (hcap' : cap' ≤ token'.length) :
    ∃ r r' m,
      parse_tokens0 token cap (pre ++ (s ++ 0 :: post)) pre.length s.length delim = .ok r
      ∧ parse_tokens0 token' cap' (pre ++ (s ++ 0 :: post)) pre.length s.length delim = .ok r'
      ∧ r'.mem = r.mem
      ∧ r.mem = pre ++ (m ++ 0 :: post)
      ∧ m.length = s.length
      ∧ ∀ i, m[i]? = if s[i]? = some delim ∧ (i = 0 ∨ s[i - 1]? ≠ some delim) then some 0
                     else s[i]? := by
  refine ⟨_, _, nulRuns delim false s, parse_tokens0_spec delim cap hd pre s post token hcap,
    parse_tokens0_spec delim cap' hd pre s post token' hcap', rfl, rfl,
    nulRuns_length delim s false, ?_⟩
  intro i
  rw [nulRuns_getElem?]
  cases i with
  | zero => simp
  | succ i => simp

theorem parse_tokens0_mutation_witness :
    ∃ r r' m,
      parse_tokens0 [none] 0 ([35] ++ (bytes "a//b/" ++ 0 :: [7])) 1 5 47 = .ok r
      ∧ parse_tokens0 [none, none, none] 3 ([35] ++ (bytes "a//b/" ++ 0 :: [7])) 1 5 47 = .ok r'
      ∧ r'.mem = r.mem
      ∧ r.mem = [35] ++ (m ++ 0 :: [7])
      ∧ m.length = 5
      ∧ ∀ i, m[i]? = if (bytes "a//b/")[i]? = some 47
                        ∧ (i = 0 ∨ (bytes "a//b/")[i - 1]? ≠ some 47) then some 0
                     else (bytes "a//b/")[i]? :=
  parse_tokens0_mutation 47 0 3 [35] (bytes "a//b/") [7] [none] [none, none, none]
    (by decide) (by decide) (by decide)

/-! ## `mkdir_p`: the calls it issues -/

theorem nulPrefixes_piece : ∀ (P acc X : List Nat), (∀ b ∈ P, b ≠ 0) →
    nulPrefixes acc (P ++ X) = nulPrefixes (acc ++ P) X := by
  intro P
  induction P with
  | nil => intro acc X _; simp
  | cons b t ih =>
    intro acc X h
    have hb : b ≠ 0 := h b (by simp)
    simp only [List.cons_append, nulPrefixes, if_neg hb, List.append_eq]
    rw [ih (acc ++ [b]) X (fun x hx => h x (by simp [hx]))]
    simp

/-- The loop of `mkdir_p`, with a counter of at least 1 and a buffer that holds at least
that many NUL bytes: it issues the `mkdir` calls for the strings that start the buffer,
up to the first fatal failure. -/
theorem mkdir_p_loop_spec (env : Env) :
    ∀ (fuel j : Nat) (buf : List Nat) (tr : List Call), 1 ≤ j → j ≤ fuel → j ≤ buf.count 0 →
      mkdir_p_loop env fuel j buf tr = mkdirRun env tr ((nulPrefixes [] buf).take j) := by
  intro fuel
  induction fuel with
  | zero => intro j buf tr h1 h2; omega
  | succ fuel ih =>
    intro j buf tr hj hfuel hcount
    obtain ⟨P, after, hbuf, hP, hafter⟩ := exists_span (fun x => x ≠ 0) buf
    subst hbuf
    have hP0 : P.count 0 = 0 := List.count_eq_zero.2 (fun h => hP 0 h rfl)
    cases after with
    | nil =>
      rw [List.append_nil, hP0] at hcount
      omega
    | cons a R =>
      have ha : a = 0 := by simpa using hafter a (by simp)
      subst ha
      have hc : cstr (P ++ 0 :: R) 0 = .ok P := cstr_piece [] P R 0 rfl hP
      have hnp : nulPrefixes [] (P ++ 0 :: R) = P :: nulPrefixes (P ++ [47]) R := by
        rw [nulPrefixes_piece P [] _ hP]
        simp [nulPrefixes]
      obtain ⟨j1, hj1⟩ : ∃ j1, j = j1 + 1 := ⟨j - 1, by omega⟩
      subst hj1
      rw [mkdir_p_loop, hc, hnp, List.take_succ_cons, mkdirRun]
      simp only
      by_cases herr : env.sys tr (Call.mkdir P 504) ≠ 0 ∧ env.sys tr (Call.mkdir P 504) ≠ EEXIST
      · rw [if_pos herr, if_pos herr]
      · rw [if_neg herr, if_neg herr, if_neg (by omega : ¬ j1 + 1 = 0)]
        by_cases hz : j1 + 1 - 1 = 0
        · rw [if_pos hz]
          have : j1 = 0 := by omega
          subst this
          simp [mkdirRun]
        · rw [if_neg hz, store_append_cons P R 0 47 P.length rfl]
          simp only
          have hcount' : j1 ≤ (P ++ 47 :: R).count 0 := by
            rw [List.count_append, List.count_cons_self, hP0] at hcount
            rw [List.count_append, List.count_cons_of_ne (by decide), hP0]
            omega
          rw [Nat.add_sub_cancel, ih j1 (P ++ 47 :: R) (tr ++ [Call.mkdir P 504]) (by omega)
            (by omega) hcount', nulPrefixes_piece P [] _ hP]
          simp [nulPrefixes]

theorem getLast?_cons_eq (b : Nat) (t : List Nat) :
    (b :: t).getLast? = if t = [] then some b else t.getLast? := by
  cases t with
  | nil => rfl
  | cons c t => rw [List.getLast?_cons_cons]; simp

/-- The strings read from the tokenized path are the segment prefixes of the path, after
the empty string when the path begins with `/`, and before the whole path when it ends
with `/`. -/
theorem nulPrefixes_nulRuns : ∀ (s acc : List Nat) (prev : Bool), (∀ b ∈ s, b ≠ 0) →
    nulPrefixes acc (nulRuns 47 prev s ++ [0])
      = (if prev = false ∧ s.head? = some 47 then [acc] else []) ++ segPrefixes acc s
        ++ (if s = [] ∨ s.getLast? = some 47 then [acc ++ s] else []) := by
  intro s
  induction s with
  | nil => intro acc prev _; simp [nulRuns, nulPrefixes, segPrefixes]
  | cons b t ih =>
    intro acc prev h0
    have hb0 : b ≠ 0 := h0 b (by simp)
    have ht0 : ∀ x ∈ t, x ≠ 0 := fun x hx => h0 x (by simp [hx])
    have hlast : ((b :: t) = [] ∨ (b :: t).getLast? = some 47)
        ↔ (b = 47 ∧ t = []) ∨ (t ≠ [] ∧ t.getLast? = some 47) := by
      rw [getLast?_cons_eq]
      by_cases ht : t = []
      · simp [ht]
      · simp [ht]
    have happ : acc ++ b :: t = acc ++ [b] ++ t := by simp
    by_cases hb : b = 47
    · subst hb
      have hseg : segPrefixes acc (47 :: t) = segPrefixes (acc ++ [47]) t := by
        simp [segPrefixes]
      have hextra : (if (47 :: t) = [] ∨ (47 :: t).getLast? = some 47 then [acc ++ 47 :: t]
            else [])
          = (if t = [] ∨ t.getLast? = some 47 then [acc ++ [47] ++ t] else []) := by
        rw [happ]
        by_cases ht : t = []
        · simp [ht]
        · rw [getLast?_cons_eq, if_neg ht]
          simp [ht]
      rw [hseg, hextra]
      cases prev
      · simp only [nulRuns, if_true, Bool.false_eq_true, if_false, List.cons_append,
          nulPrefixes, List.head?_cons, and_self, List.append_eq]
        rw [ih (acc ++ [47]) true ht0]
        simp
      · simp only [nulRuns, if_true, List.cons_append, nulPrefixes,
          show ¬ (47 : Nat) = 0 by decide, if_false, List.append_eq]
        rw [ih (acc ++ [47]) true ht0]
        simp
    · have hfront : (if prev = false ∧ (b :: t).head? = some 47 then [acc] else [])
          = ([] : List (List Nat)) := by
        rw [if_neg]
        rintro ⟨_, h⟩
        simp only [List.head?_cons, Option.some.injEq] at h
        exact hb h
      simp only [nulRuns, if_neg hb, List.cons_append, nulPrefixes, if_neg hb0, List.append_eq]
      rw [ih (acc ++ [b]) false ht0, hfront]
      cases t with
      | nil => simp [segPrefixes, hb]
      | cons c t =>
        rw [List.getLast?_cons_cons]
        by_cases hc : c = 47
        · simp [segPrefixes, hb, hc]
        · simp [segPrefixes, hb, hc]

theorem segPrefixes_length : ∀ (s acc : List Nat) (prev : Bool) (off : Nat),
    (segPrefixes acc s).length
      = (fieldStartsAux 47 prev off s).length
        + (if prev = false ∧ s ≠ [] ∧ s.head? ≠ some 47 then 1 else 0) := by
  intro s
  induction s with
  | nil => intro acc prev off; simp [segPrefixes, fieldStartsAux]
  | cons b t ih =>
    intro acc prev off
    by_cases hb : b = 47
    · subst hb
      simp only [segPrefixes, ne_eq, not_true_eq_false, false_and, if_false, fieldStartsAux,
        if_true, List.head?_cons, and_false]
      rw [ih (acc ++ [47]) true (off + 1)]
      simp
    · have ih1 := ih (acc ++ [b]) false (off + 1)
      simp only [segPrefixes, fieldStartsAux, if_neg hb, ne_eq, hb, not_false_eq_true, true_and]
      cases t with
      | nil =>
        simp only [segPrefixes, fieldStartsAux] at ih1
        cases prev <;> simp [segPrefixes, fieldStartsAux, hb]
      | cons c t =>
        by_cases hc : c = 47
        · subst hc
          simp only [List.head?_cons, ne_eq, not_true_eq_false, and_false, if_false,
            Nat.add_zero] at ih1
          cases prev <;> simp [ih1, hb]
        · have hc' : ¬ (some c = some 47) := by simpa using hc
          simp only [List.head?_cons, ne_eq, hc', not_false_eq_true, and_true, if_true,
            List.cons_ne_nil] at ih1
          cases prev <;> simp [ih1, hb, hc]

/-- The function `mkdir_p` on a path with a byte other than `/`: it issues the `mkdir`
calls for the segment prefixes of the path, up to the first fatal failure. -/
theorem mkdir_p_spec (env : Env) (tr : List Call) (path : List Nat)
    (hpath : ∃ b ∈ cstrOf path, b ≠ 47) :
    mkdir_p env tr path = mkdirRun env tr (segPrefixes [] (cstrOf path)) := by
  have h0 := cstrOf_ne_zero path
  rw [mkdir_p]
  generalize cstrOf path = s at hpath h0 ⊢
  obtain ⟨x, hx, hx47⟩ := hpath
  cases s with
  | nil => simp at hx
  | cons b t =>
    have hb0 : b ≠ 0 := h0 b (by simp)
    have ht0 : ∀ y ∈ t, y ≠ 0 := fun y hy => h0 y (by simp [hy])
    have hspec := parse_tokens0_spec 47 0 (by decide) [] (b :: t) [] [none] (by decide)
    simp only [List.nil_append, List.length_nil] at hspec
    rw [if_neg (by simp)]
    simp only
    rw [hspec]
    simp only [fieldStarts_cons, List.length_cons]
    rw [if_neg (by omega)]
    by_cases hb : b = 47
    · have hmem : nulRuns 47 false (b :: t) ++ [0] = [] ++ 0 :: (nulRuns 47 true t ++ [0]) := by
        simp [nulRuns, hb]
      have htx : ∃ y ∈ t, y ≠ 47 := by
        rcases List.mem_cons.1 hx with h | h
        · exact absurd (h ▸ hb) hx47
        · exact ⟨x, h, hx47⟩
      have hdec : decide (b = 47) = true := by simp [hb]
      rw [hmem, load_append_cons [] _ 0 0 rfl]
      simp only [if_true]
      rw [store_append_cons [] _ 0 47 0 rfl]
      simp only [List.nil_append, Nat.add_sub_cancel, hdec]
      have hcnt : (47 :: (nulRuns 47 true t ++ [0])).count 0 = delimRuns 47 true t + 1 := by
        rw [List.count_cons_of_ne (by decide), List.count_append, nulRuns_count 47 t true ht0]
        simp
      have hle := fieldStartsAux_length_le 47 t true (0 + 1)
      simp only [if_true] at hle
      have hfuel : (fieldStartsAux 47 true (0 + 1) t).length ≤ t.length + 1 + 1 + 1 := by
        have := nulRuns_length 47 t true
        have h2 : delimRuns 47 true t ≤ t.length := by
          rw [← nulRuns_count 47 t true ht0, ← this]
          exact List.count_le_length _ _
        omega
      have hlen := segPrefixes_length t [47] true (0 + 1)
      simp only [Bool.true_eq_false, false_and, if_false, Nat.add_zero] at hlen
      have hnp := nulPrefixes_nulRuns t [47] true ht0
      simp only [Bool.true_eq_false, false_and, if_false, List.nil_append] at hnp
      have key : (nulPrefixes [] (47 :: (nulRuns 47 true t ++ [0]))).take
            (fieldStartsAux 47 true (0 + 1) t).length
          = segPrefixes [] (b :: t) := by
        have h1 : nulPrefixes [] (47 :: (nulRuns 47 true t ++ [0]))
            = nulPrefixes [47] (nulRuns 47 true t ++ [0]) := by
          simp [nulPrefixes]
        have h2 : segPrefixes [] (b :: t) = segPrefixes [47] t := by
          simp [segPrefixes, hb]
        rw [h1, hnp, h2, List.take_left' hlen]
      rw [mkdir_p_loop_spec env _ _ _ tr (fieldStartsAux_pos 47 t _ htx)
        (by simpa using hfuel) (by rw [hcnt]; exact hle), key]
    · have hmem : nulRuns 47 false (b :: t) ++ [0] = [] ++ b :: (nulRuns 47 false t ++ [0]) := by
        simp [nulRuns, hb]
      have hdec : decide (b = 47) = false := by simp [hb]
      rw [hmem, load_append_cons [] _ b 0 rfl]
      simp only [if_neg hb0, List.nil_append, hdec]
      have hcnt : (b :: (nulRuns 47 false t ++ [0])).count 0 = delimRuns 47 false t + 1 := by
        rw [List.count_cons_of_ne (fun h => hb0 h.symm), List.count_append,
          nulRuns_count 47 t false ht0]
        simp
      have hle := fieldStartsAux_length_le 47 t false (0 + 1)
      simp only [Bool.false_eq_true, if_false, Nat.add_zero] at hle
      have hfuel : (fieldStartsAux 47 false (0 + 1) t).length + 1 ≤ t.length + 1 + 1 + 1 := by
        have := nulRuns_length 47 t false
        have h2 : delimRuns 47 false t ≤ t.length := by
          rw [← nulRuns_count 47 t false ht0, ← this]
          exact List.count_le_length _ _
        omega
      have hlen := segPrefixes_length (b :: t) [] false 0
      simp only [fieldStartsAux, if_neg hb, Bool.false_eq_true, if_false, List.head?_cons,
        ne_eq, List.cons_ne_nil, not_false_eq_true, Option.some.injEq, hb, and_self,
        if_true] at hlen
      have hnp := nulPrefixes_nulRuns (b :: t) [] false h0
      have hfront : ¬ (false = false ∧ (b :: t).head? = some 47) := by
        rintro ⟨_, h⟩
        simp only [List.head?_cons, Option.some.injEq] at h
        exact hb h
      rw [if_neg hfront] at hnp
      simp only [List.nil_append, nulRuns, if_neg hb, List.cons_append] at hnp
      have key : (nulPrefixes [] (b :: (nulRuns 47 false t ++ [0]))).take
            ((fieldStartsAux 47 false (0 + 1) t).length + 1)
          = segPrefixes [] (b :: t) := by
        rw [hnp, List.take_left' hlen]
      rw [mkdir_p_loop_spec env _ _ _ tr (by omega) (by simpa using hfuel)
        (by rw [hcnt]; omega), key]

/-! ## The segment prefixes of a path -/

theorem segPrefixes_mem : ∀ (s acc p : List Nat), p ∈ segPrefixes acc s →
    ∃ u rest, s = u ++ rest ∧ p = acc ++ u ∧ (∃ x, u.getLast? = some x ∧ x ≠ 47)
      ∧ (rest = [] ∨ rest.head? = some 47) := by
  intro s
  induction s with
  | nil => intro acc p hp; simp [segPrefixes] at hp
  | cons b t ih =>
    intro acc p hp
    have hrec : p ∈ segPrefixes (acc ++ [b]) t →
        ∃ u rest, b :: t = u ++ rest ∧ p = acc ++ u ∧ (∃ x, u.getLast? = some x ∧ x ≠ 47)
          ∧ (rest = [] ∨ rest.head? = some 47) := by
      intro h
      obtain ⟨u, rest, hs, hpu, ⟨x, hx, hx47⟩, hrest⟩ := ih (acc ++ [b]) p h
      refine ⟨b :: u, rest, by simp [hs], by simp [hpu], ⟨x, ?_, hx47⟩, hrest⟩
      rw [getLast?_cons_eq]
      have : u ≠ [] := by
        intro hu
        rw [hu] at hx
        simp at hx
      rw [if_neg this, hx]
    simp only [segPrefixes] at hp
    by_cases hc : b ≠ 47 ∧ (t.head? = none ∨ t.head? = some 47)
    · rw [if_pos hc] at hp
      rcases List.mem_cons.1 hp with h | h
      · refine ⟨[b], t, rfl, h, ⟨b, rfl, hc.1⟩, ?_⟩
        rcases hc.2 with h1 | h1
        · left
          cases t with
          | nil => rfl
          | cons c t => simp at h1
        · exact Or.inr h1
      · exact hrec h
    · rw [if_neg hc] at hp
      exact hrec hp

theorem segPrefixes_length_gt : ∀ (s acc p : List Nat), p ∈ segPrefixes acc s →
    acc.length < p.length := by
  intro s acc p hp
  obtain ⟨u, rest, _, hpu, ⟨x, hx, _⟩, _⟩ := segPrefixes_mem s acc p hp
  have : u ≠ [] := by
    intro hu
    rw [hu] at hx
    simp at hx
  have := List.length_pos.2 this
  rw [hpu, List.length_append]
  omega

theorem segPrefixes_pairwise : ∀ (s acc : List Nat),
    (segPrefixes acc s).Pairwise (fun p q => p.length < q.length) := by
  intro s
  induction s with
  | nil => intro acc; simp [segPrefixes]
  | cons b t ih =>
    intro acc
    simp only [segPrefixes]
    by_cases hc : b ≠ 47 ∧ (t.head? = none ∨ t.head? = some 47)
    · rw [if_pos hc, List.pairwise_cons]
      exact ⟨fun q hq => segPrefixes_length_gt t (acc ++ [b]) q hq, ih (acc ++ [b])⟩
    · rw [if_neg hc]
      exact ih (acc ++ [b])

/-- There is one segment prefix for each non-empty segment of the path. -/
theorem segPrefixes_length_pieces (s : List Nat) (h0 : ∀ b ∈ s, b ≠ 0) :
    (segPrefixes [] s).length = (nonEmptyPieces 47 s).length := by
  have hread := fields_read 47 (by decide) s.length s (le_refl _) h0 [] []
  have hlen := mapE_length _ _ _ hread
  cases s with
  | nil => simp [segPrefixes, nonEmptyPieces_nil]
  | cons b t =>
    by_cases hb : b = 47
    · subst hb
      have h1 := segPrefixes_length t [47] true (0 + 1)
      simp only [Bool.true_eq_false, false_and, if_false, Nat.add_zero] at h1
      have h2 : segPrefixes [] (47 :: t) = segPrefixes [47] t := by
        simp [segPrefixes]
      rw [fieldPieces_leading 47 (47 :: t) (by simp)] at hlen
      simp only [List.length_nil, fieldStarts_cons, List.length_cons, decide_True] at hlen
      rw [h2, h1]
      omega
    · have h1 := segPrefixes_length (b :: t) [] false 0
      simp only [fieldStartsAux, if_neg hb, Bool.false_eq_true, if_false, List.head?_cons,
        ne_eq, List.cons_ne_nil, not_false_eq_true, Option.some.injEq, hb, and_self,
        if_true] at h1
      rw [fieldPieces_eq_nonEmptyPieces 47 (b :: t) (by
        intro x hx
        simp only [List.head?_cons, Option.mem_def, Option.some.injEq] at hx
        exact hx ▸ hb)] at hlen
      simp only [List.length_nil, fieldStarts_cons, List.length_cons, hb, decide_False] at hlen
      rw [h1]
      omega

/-! ## Runs of `mkdir` calls -/

theorem mkdirRun_ok (env : Env)
    (hsys : ∀ past path mode, env.sys past (Call.mkdir path mode) = 0
      ∨ env.sys past (Call.mkdir path mode) = EEXIST) :
    ∀ (ps : List (List Nat)) (tr : List Call),
      mkdirRun env tr ps = ⟨tr ++ ps.map (fun p => Call.mkdir p 0o770), .ok ()⟩ := by
  intro ps
  induction ps with
  | nil => intro tr; simp [mkdirRun]
  | cons p ps ih =>
    intro tr
    have herr : ¬ (env.sys tr (Call.mkdir p 504) ≠ 0 ∧ env.sys tr (Call.mkdir p 504) ≠ EEXIST) := by
      rcases hsys tr p 504 with h | h
      · exact fun hc => hc.1 h
      · exact fun hc => hc.2 h
    rw [mkdirRun, if_neg herr, ih]
    simp

/-- A run of `mkdir` calls: the calls issued are the first of the list, the run returns
exactly when each issued call succeeds or fails with `EEXIST`, and a call that fails
otherwise is the last one. -/
theorem mkdirRun_char (env : Env) : ∀ (ps : List (List Nat)) (tr : List Call),
    ∃ ms, (mkdirRun env tr ps).trace = tr ++ ms
      ∧ ms <+: ps.map (fun p => Call.mkdir p 0o770)
      ∧ ((mkdirRun env tr ps).res = .ok () ↔
          ∀ k call, ms[k]? = some call →
            env.sys (tr ++ ms.take k) call = 0 ∨ env.sys (tr ++ ms.take k) call = EEXIST)
      ∧ (∀ k call, ms[k]? = some call → env.sys (tr ++ ms.take k) call ≠ 0 →
          env.sys (tr ++ ms.take k) call ≠ EEXIST →
          k + 1 = ms.length ∧ ∃ p, call = Call.mkdir p 0o770
            ∧ (mkdirRun env tr ps).res
                = .error (.enforce (.mkdir p (env.sys (tr ++ ms.take k) call))))
      ∧ ((mkdirRun env tr ps).res = .ok () → ms = ps.map (fun p => Call.mkdir p 0o770)) := by
  intro ps
  induction ps with
  | nil =>
    intro tr
    refine ⟨[], by simp [mkdirRun], List.nil_prefix, ?_, ?_, fun _ => rfl⟩
    · simp [mkdirRun]
    · intro k call hk
      simp at hk
  | cons p ps ih =>
    intro tr
    rw [mkdirRun]
    by_cases herr : env.sys tr (Call.mkdir p 504) ≠ 0 ∧ env.sys tr (Call.mkdir p 504) ≠ EEXIST
    · rw [if_pos herr]
      refine ⟨[Call.mkdir p 504], rfl, ⟨ps.map (fun p => Call.mkdir p 0o770), rfl⟩, ?_, ?_, ?_⟩
      · constructor
        · intro h
          simp at h
        · intro h
          exfalso
          rcases h 0 (Call.mkdir p 504) rfl with h1 | h1
          · exact herr.1 (by simpa using h1)
          · exact herr.2 (by simpa using h1)
      · intro k call hk _ _
        cases k with
        | zero =>
          simp only [List.getElem?_cons_zero, Option.some.injEq] at hk
          subst hk
          exact ⟨rfl, p, rfl, by simp⟩
        | succ k => simp at hk
      · intro h
        simp at h
    · rw [if_neg herr]
      have hokish : env.sys tr (Call.mkdir p 504) = 0 ∨ env.sys tr (Call.mkdir p 504) = EEXIST := by
        by_cases h1 : env.sys tr (Call.mkdir p 504) = 0
        · exact Or.inl h1
        · by_cases h2 : env.sys tr (Call.mkdir p 504) = EEXIST
          · exact Or.inr h2
          · exact absurd ⟨h1, h2⟩ herr
      obtain ⟨ms, htr, hpre, hiff, hfatal, hall⟩ := ih (tr ++ [Call.mkdir p 504])
      have hshift : ∀ k, tr ++ (Call.mkdir p 504 :: ms).take (k + 1)
          = tr ++ [Call.mkdir p 504] ++ ms.take k := by
        intro k
        simp
      refine ⟨Call.mkdir p 504 :: ms, ?_, ?_, ?_, ?_, ?_⟩
      · rw [htr]; simp
      · exact (List.prefix_cons_inj _).2 hpre
      · rw [hiff]
        constructor
        · intro h k call hk
          cases k with
          | zero =>
            simp only [List.getElem?_cons_zero, Option.some.injEq] at hk
            subst hk
            simpa using hokish
          | succ k =>
            rw [List.getElem?_cons_succ] at hk
            rw [hshift]
            exact h k call hk
        · intro h k call hk
          have := h (k + 1) call (by rw [List.getElem?_cons_succ]; exact hk)
          rw [hshift] at this
          exact this
      · intro k call hk h1 h2
        cases k with
        | zero =>
          simp only [List.getElem?_cons_zero, Option.some.injEq] at hk
          subst hk
          exfalso
          rcases hokish with h | h
          · exact h1 (by simpa using h)
          · exact h2 (by simpa using h)
        | succ k =>
          rw [List.getElem?_cons_succ] at hk
          rw [hshift] at h1 h2 ⊢
          obtain ⟨hlen, q, hq, hres⟩ := hfatal k call hk h1 h2
          exact ⟨by simp only [List.length_cons]; omega, q, hq, hres⟩
      · intro h
        rw [hall h]
        rfl

/-! ## `mkdir_p`: claims -/

/-- C12: for every path with a non-empty segment (a byte other than `/`), in a run where
each `mkdir` succeeds or fails with `EEXIST`, `mkdir_p` returns after exactly the calls
`mkdir (p, 0770)` for the segment prefixes `p` of the path, from left to right: there is
one per non-empty segment, each is a prefix of the path that ends with a byte other than
`/` followed in the path by `/` or by nothing, and each is longer than the one before. -/
theorem mkdir_p_calls (env : Env) (tr : List Call) (path : List Nat)
    (hpath : ∃ b ∈ cstrOf path, b ≠ 47)
    (hsys : ∀ past p mode, env.sys past (Call.mkdir p mode) = 0
      ∨ env.sys past (Call.mkdir p mode) = EEXIST) :
    mkdir_p env tr path
        = ⟨tr ++ (segPrefixes [] (cstrOf path)).map (fun p => Call.mkdir p 0o770), .ok ()⟩
    ∧ (segPrefixes [] (cstrOf path)).length = (nonEmptyPieces 47 (cstrOf path)).length
    ∧ (∀ p ∈ segPrefixes [] (cstrOf path), ∃ rest, cstrOf path = p ++ rest
        ∧ (∃ x, p.getLast? = some x ∧ x ≠ 47) ∧ (rest = [] ∨ rest.head? = some 47))
    ∧ (segPrefixes [] (cstrOf path)).Pairwise (fun p q => p.length < q.length) := by
  refine ⟨?_, segPrefixes_length_pieces _ (cstrOf_ne_zero path), ?_, segPrefixes_pairwise _ _⟩
  · rw [mkdir_p_spec env tr path hpath, mkdirRun_ok env hsys]
  · intro p hp
    obtain ⟨u, rest, hs, hpu, hlast, hrest⟩ := segPrefixes_mem _ _ p hp
    simp only [List.nil_append] at hpu
    subst hpu
    exact ⟨rest, hs, hlast, hrest⟩

theorem mkdir_p_calls_witness :
    (mkdir_p envOk [] (bytes "a/b/c")
        = ⟨[] ++ (segPrefixes [] (cstrOf (bytes "a/b/c"))).map (fun p => Call.mkdir p 0o770),
            .ok ()⟩
      ∧ (segPrefixes [] (cstrOf (bytes "a/b/c"))).length
          = (nonEmptyPieces 47 (cstrOf (bytes "a/b/c"))).length
      ∧ (∀ p ∈ segPrefixes [] (cstrOf (bytes "a/b/c")), ∃ rest, cstrOf (bytes "a/b/c") = p ++ rest
          ∧ (∃ x, p.getLast? = some x ∧ x ≠ 47) ∧ (rest = [] ∨ rest.head? = some 47))
      ∧ (segPrefixes [] (cstrOf (bytes "a/b/c"))).Pairwise (fun p q => p.length < q.length))
    ∧ segPrefixes [] (cstrOf (bytes "a/b/c")) = [bytes "a", bytes "a/b", bytes "a/b/c"]
    ∧ segPrefixes [] (cstrOf (bytes "//run//user/")) = [bytes "//run", bytes "//run//user"] :=
  ⟨mkdir_p_calls envOk [] (bytes "a/b/c") (by decide) (fun _ _ _ => Or.inl rfl), by decide,
    by decide⟩

/-- C13: for every path with a non-empty segment, whatever the system answers, `mkdir_p`
issues the first calls of its list of `mkdir` calls; it returns exactly when each call it
issued succeeded or failed with `EEXIST`; a call that fails with another error is the
last call, and the run ends in the `enforce` of that call; and when every `mkdir` fails
with `EEXIST` (every prefix exists), `mkdir_p` returns, having issued all its calls and
created nothing. -/
theorem mkdir_p_failure_handling (env : Env) (tr : List Call) (path : List Nat)
    (hpath : ∃ b ∈ cstrOf path, b ≠ 47) :
    ∃ ms, (mkdir_p env tr path).trace = tr ++ ms
      ∧ ms <+: (segPrefixes [] (cstrOf path)).map (fun p => Call.mkdir p 0o770)
      ∧ ((mkdir_p env tr path).res = .ok () ↔
          ∀ k call, ms[k]? = some call →
            env.sys (tr ++ ms.take k) call = 0 ∨ env.sys (tr ++ ms.take k) call = EEXIST)
      ∧ (∀ k call, ms[k]? = some call → env.sys (tr ++ ms.take k) call ≠ 0 →
          env.sys (tr ++ ms.take k) call ≠ EEXIST →
          k + 1 = ms.length ∧ ∃ p, call = Call.mkdir p 0o770
            ∧ (mkdir_p env tr path).res
                = .error (.enforce (.mkdir p (env.sys (tr ++ ms.take k) call))))
      ∧ ((∀ past p mode, env.sys past (Call.mkdir p mode) = EEXIST) →
          (mkdir_p env tr path).res = .ok ()
          ∧ ms = (segPrefixes [] (cstrOf path)).map (fun p => Call.mkdir p 0o770)) := by
  rw [mkdir_p_spec env tr path hpath]
  obtain ⟨ms, htr, hpre, hiff, hfatal, _⟩ := mkdirRun_char env (segPrefixes [] (cstrOf path)) tr
  refine ⟨ms, htr, hpre, hiff, hfatal, ?_⟩
  intro hex
  have hrun := mkdirRun_ok env (fun past p mode => Or.inr (hex past p mode))
    (segPrefixes [] (cstrOf path)) tr
  rw [hrun] at htr ⊢
  exact ⟨rfl, (List.append_cancel_left htr).symm⟩

theorem mkdir_p_failure_handling_witness :
    ∃ ms, (mkdir_p envAllExist [] (bytes "/run/user")).trace = [] ++ ms
      ∧ ms <+: (segPrefixes [] (cstrOf (bytes "/run/user"))).map (fun p => Call.mkdir p 0o770)
      ∧ ((mkdir_p envAllExist [] (bytes "/run/user")).res = .ok () ↔
          ∀ k call, ms[k]? = some call →
            envAllExist.sys ([] ++ ms.take k) call = 0
              ∨ envAllExist.sys ([] ++ ms.take k) call = EEXIST)
      ∧ (∀ k call, ms[k]? = some call → envAllExist.sys ([] ++ ms.take k) call ≠ 0 →
          envAllExist.sys ([] ++ ms.take k) call ≠ EEXIST →
          k + 1 = ms.length ∧ ∃ p, call = Call.mkdir p 0o770
            ∧ (mkdir_p envAllExist [] (bytes "/run/user")).res
                = .error (.enforce (.mkdir p (envAllExist.sys ([] ++ ms.take k) call))))
      ∧ ((∀ past p mode, envAllExist.sys past (Call.mkdir p mode) = EEXIST) →
          (mkdir_p envAllExist [] (bytes "/run/user")).res = .ok ()
          ∧ ms = (segPrefixes [] (cstrOf (bytes "/run/user"))).map
                  (fun p => Call.mkdir p 0o770)) :=
  mkdir_p_failure_handling envAllExist [] (bytes "/run/user") (by decide)

/-- C20, the code at a failing input: on the path `/` the tokenizer returns 1, the
absolute-path adjustment leaves `dirCount = 0` and the buffer `"/"`; the loop is entered
with the counter 0, issues `mkdir ("/")`, its decrement wraps to `2^64 - 1`, not 0, and
the `/` it restores lands at index `strlen = 1`, on the terminator of the two-byte
buffer; no NUL is left, and the next read of the string runs off the buffer. -/
theorem mkdir_p_root_wraps :
    parse_tokens0 [none] 0 (bytes "/" ++ [0]) 0 1 47 = .ok ⟨1, [none], [0, 0]⟩
    ∧ store [0, 0] 0 47 = .ok [47, 0]
    ∧ cstr [47, 0] 0 = .ok [47]
    ∧ store [47, 0] ([47] : List Nat).length 47 = .ok [47, 47]
    ∧ cstr [47, 47] 0 = .error .fault
    ∧ mkdir_p_loop envOk 3 0 [47, 0] []
        = mkdir_p_loop envOk 2 (2 ^ 64 - 1) [47, 47] [Call.mkdir [47] 0o770]
    ∧ mkdir_p envOk [] (bytes "/") = ⟨[Call.mkdir [47] 0o770], .error .fault⟩
    ∧ mkdir_p envOk [] (bytes "//") = ⟨[Call.mkdir [47, 47] 0o770], .error .fault⟩ := by
  decide

/-! ## The checks of `main` on the config file -/

/-- The checks pass exactly when the owner is 0, the group id equals the value of
`getuid ()`, the file is regular and the permission bits are `0640`. -/
theorem main_stat_checks_iff (st : Stat) (uid : Nat) :
    main_stat_checks st uid = .ok () ↔
      st.st_uid = 0 ∧ st.st_gid = uid ∧ S_ISREG st.st_mode = true
        ∧ st.st_mode &&& 0o7777 = 0o640 := by
  unfold main_stat_checks
  by_cases h1 : st.st_uid = 0
  · by_cases h2 : st.st_gid = uid
    · by_cases h3 : S_ISREG st.st_mode = true
      · by_cases h4 : st.st_mode &&& 0o7777 = 0o640
        · simp [h1, h2, h3, h4]
        · simp [h1, h2, h3, h4]
      · simp [h1, h2, h3]
    · simp [h1, h2]
  · simp [h1]

/-- C15, the code at a failing input: the invoking user has uid 1000 and primary group
100.  A regular file owned by uid 0, group 100, mode 0640 meets the four conditions of
the claim, and the check ends in the `enforce` "who are you?", before anything is
parsed; the same file with group 1000 (the uid, not the primary group) is accepted.  The
primary group id is no input of the check: what `st_gid` is compared with is
`getuid ()`, and the check passes exactly when the file is regular, owned by uid 0, of
mode 0640, and its group id equals the invoking uid. -/
theorem main_stat_checks_group_vs_uid :
    main_stat_checks { st_uid := 0, st_gid := 100, st_mode := 0o100640 } 1000
        = .error (.enforce .whoAreYou)
    ∧ main_config { st_uid := 0, st_gid := 100, st_mode := 0o100640 } 1000 exampleDoc
        (bytes "vm3") = .error (.enforce .whoAreYou)
    ∧ main_stat_checks { st_uid := 0, st_gid := 1000, st_mode := 0o100640 } 1000 = .ok ()
    ∧ (∀ st uid, main_stat_checks st uid = .ok () ↔
        st.st_uid = 0 ∧ st.st_gid = uid ∧ S_ISREG st.st_mode = true
          ∧ st.st_mode &&& 0o7777 = 0o640)
    ∧ (∀ st uid doc h e, main_stat_checks st uid = .error e →
        main_config st uid doc h = .error e) := by
  refine ⟨by decide, by decide, by decide, main_stat_checks_iff, ?_⟩
  intro st uid doc h e he
  simp only [main_config, he]

/-! ## Config parser: what makes it abort -/

theorem cstrOf_idem (h : List Nat) : cstrOf (cstrOf h) = cstrOf h :=
  cstrOf_eq _ (cstrOf_ne_zero h)

theorem parse_record_cstrOf (h : List Nat) (c : Config) (lineNo line lineEnd : Nat) :
    parse_record (cstrOf h) c lineNo line lineEnd = parse_record h c lineNo line lineEnd := by
  simp only [parse_record, cstrOf_idem]

theorem parse_config_loop_cstrOf (h : List Nat) : ∀ (fuel lineNo cp : Nat) (c : Config)
    (log : List Msg),
    parse_config_loop (cstrOf h) fuel lineNo cp c log = parse_config_loop h fuel lineNo cp c log := by
  intro fuel
  induction fuel with
  | zero => intro lineNo cp c log; rfl
  | succ fuel ih =>
    intro lineNo cp c log
    simp only [parse_config_loop, parse_line, parse_record_cstrOf, ih]

/-- The hostname is read as a C string: only its bytes before the first NUL count. -/
theorem parse_config_cstrOf (c : Config) (h : List Nat) :
    parse_config c (some (cstrOf h)) = parse_config c (some h) := by
  simp only [parse_config, parse_config_loop_cstrOf]

theorem parse_config_embedded_nul (c : Config) (h pre post : List Nat)
    (hdata : c.data = pre ++ 0 :: post) (hpre : ∀ b ∈ pre, b ≠ 0) (hlt : pre.length < c.dataLen)
    (hterm : c.data[c.dataLen]? = some 0) :
    parse_config c (some h) = .error (.enforce (.embeddedNul pre.length)) := by
  have hmc : memchr c.data 0 0 c.dataLen = .ok (some pre.length) := by
    rw [hdata]
    have := memchr_some 0 pre post 0 c.dataLen hpre hlt
    simpa using this
  have hpos : c.dataLen > 0 := by omega
  simp only [parse_config, hpos, not_true_eq_false, if_false, load, hterm, ne_eq, hmc]

/-! ## Config parser: what it prints -/

theorem fieldsMsgs_length (h : List Nat) (n : Nat) (fs : List (List Nat))
    (hlen : fs.length ≠ 4) : fieldsMsgs h n fs = [.malformed n] := by
  match fs with
  | [] => rfl
  | [_] => rfl
  | [_, _] => rfl
  | [_, _, _] => rfl
  | [_, _, _, _] => exact absurd rfl hlen
  | _ :: _ :: _ :: _ :: _ :: _ => rfl

theorem fieldsMsgs_four (h : List Nat) (n : Nat) (f0 f1 t2 t3 : List Nat) (b2 b3 : Nat) :
    fieldsMsgs h n [f0, f1, b2 :: t2, b3 :: t3]
      = if ¬ f1 = [114, 111] ∧ ¬ f1 = [114, 119] then [.malformedCol2 n]
        else if ¬ f0 = h then []
        else if ¬ b2 = 47 ∨ b3 = 47 then [.pathShape n]
        else [] := by
  simp only [fieldsMsgs, ne_eq, List.head?_cons, Option.some.injEq]

theorem lineMsgs_nil (h : List Nat) (n : Nat) : lineMsgs h n [] = [] := by
  simp [lineMsgs]

theorem linesLog_splitOn_nil (h : List Nat) (n : Nat) :
    linesLog h n (([] : List Nat).splitOn 10) = [] := by
  simp [List.splitOn, List.splitOnP_nil, linesLog, lineMsgs_nil]

theorem linesLog_splitOn_line (h : List Nat) (n : Nat) (line : List Nat)
    (hl : ∀ b ∈ line, b ≠ 10) (hne : line ≠ []) :
    linesLog h n (line.splitOn 10) = Msg.missingNewline :: lineMsgs h (n + 1) line := by
  have h1 : ∀ x ∈ line, ¬ (fun b => b == 10) x = true := by
    intro x hx
    simpa using hl x hx
  simp only [List.splitOn]
  rw [List.splitOnP_eq_single (fun b => b == 10) line h1]
  simp [linesLog, hne]

theorem linesLog_splitOn_newline (h : List Nat) (n : Nat) (line rest : List Nat)
    (hl : ∀ b ∈ line, b ≠ 10) :
    linesLog h n ((line ++ 10 :: rest).splitOn 10)
      = lineMsgs h (n + 1) line ++ linesLog h (n + 1) (rest.splitOn 10) := by
  have h1 : ∀ x ∈ line, ¬ (fun b => b == 10) x = true := by
    intro x hx
    simpa using hl x hx
  have hne : List.splitOnP (fun b => b == 10) rest ≠ [] := List.splitOnP_ne_nil _ rest
  simp only [List.splitOn]
  rw [List.splitOnP_first (fun b => b == 10) line h1 10 (by simp) rest]
  simp [linesLog, hne]

theorem fieldsMsgs_lineNo (h : List Nat) (n : Nat) (fs : List (List Nat)) (m : Msg)
    (hm : m ∈ fieldsMsgs h n fs) : m.lineNo = some n := by
  by_cases hlen : fs.length = 4
  · obtain ⟨a, b, c, d, hfs⟩ := list_length_four fs hlen
    subst hfs
    simp only [fieldsMsgs] at hm
    split_ifs at hm
    · simp only [List.mem_singleton] at hm
      subst hm
      rfl
    · simp at hm
    · simp only [List.mem_singleton] at hm
      subst hm
      rfl
    · simp at hm
  · rw [fieldsMsgs_length h n fs hlen] at hm
    simp only [List.mem_singleton] at hm
    subst hm
    rfl

theorem lineMsgs_lineNo (h : List Nat) (n : Nat) (line : List Nat) (m : Msg)
    (hm : m ∈ lineMsgs h n line) : m.lineNo = some n := by
  rw [lineMsgs] at hm
  split_ifs at hm
  · simp at hm
  · exact fieldsMsgs_lineNo h n _ m hm

theorem lineMsgs_count (h : List Nat) (n : Nat) (line : List Nat) :
    (lineMsgs h n line).count Msg.missingNewline = 0 := by
  rw [List.count_eq_zero]
  intro hm
  have := lineMsgs_lineNo h n line _ hm
  simp [Msg.lineNo] at this

/-- Every message of the log is the warning for the missing newline or a message of one
of the lines, carrying the number of that line. -/
theorem linesLog_mem (h : List Nat) : ∀ (ls : List (List Nat)) (n : Nat) (m : Msg),
    m ∈ linesLog h n ls →
    m = Msg.missingNewline ∨ ∃ k line, ls[k]? = some line ∧ m ∈ lineMsgs h (n + k + 1) line := by
  intro ls
  induction ls with
  | nil =>
    intro n m hm
    simp [linesLog] at hm
  | cons l rest ih =>
    intro n m hm
    simp only [linesLog, List.mem_append] at hm
    rcases hm with (hm | hm) | hm
    · left
      split_ifs at hm
      · simpa using hm
      · simp at hm
    · right
      exact ⟨0, l, List.getElem?_cons_zero, hm⟩
    · rcases ih (n + 1) m hm with h1 | ⟨k, line, hk, hmem⟩
      · exact Or.inl h1
      · right
        refine ⟨k + 1, line, by rw [List.getElem?_cons_succ]; exact hk, ?_⟩
        have he : n + (k + 1) + 1 = n + 1 + k + 1 := by omega
        rw [he]
        exact hmem

theorem splitOn_append_newline : ∀ (doc : List Nat),
    (doc ++ [10]).splitOn 10 = doc.splitOn 10 ++ [[]] := by
  intro doc
  induction doc with
  | nil => decide
  | cons a doc ih =>
    simp only [List.splitOn] at ih ⊢
    rw [List.cons_append, List.splitOnP_cons, List.splitOnP_cons, ih]
    by_cases ha : (a == 10) = true
    · rw [if_pos ha, if_pos ha]
      rfl
    · rw [if_neg ha, if_neg ha]
      cases hs : List.splitOnP (fun x => x == 10) doc with
      | nil => exact absurd hs (List.splitOnP_ne_nil _ doc)
      | cons x xs => rfl

theorem docRules_append_newline (h doc : List Nat) :
    docRules h (doc ++ [10]) = docRules h doc := by
  simp only [docRules]
  rw [splitOn_append_newline, List.filterMap_append]
  simp [lineRule_nil]

/-- The warning for the missing newline is in the log of a document once, except when
the document is empty or ends with a newline: then it is not there. -/
theorem linesLog_count (h : List Nat) : ∀ (fuel : Nat) (rest : List Nat) (n : Nat),
    rest.length < fuel →
    (linesLog h n (rest.splitOn 10)).count Msg.missingNewline
      = if rest = [] ∨ rest.getLast? = some 10 then 0 else 1 := by
  intro fuel
  induction fuel with
  | zero => intro rest n hf; omega
  | succ fuel ih =>
    intro rest n hfuel
    by_cases hnil : rest = []
    · subst hnil
      rw [linesLog_splitOn_nil, if_pos (Or.inl rfl)]
      rfl
    obtain ⟨line, after, hrest, hline, hafter⟩ := exists_span (fun x => x ≠ 10) rest
    subst hrest
    cases after with
    | nil =>
      have hne : line ≠ [] := by simpa using hnil
      rw [List.append_nil] at hnil ⊢
      have hcnt : (Msg.missingNewline :: lineMsgs h (n + 1) line).count Msg.missingNewline
          = 1 := by
        rw [List.count_cons_self, lineMsgs_count]
      have hif : ¬ (line = [] ∨ line.getLast? = some 10) := by
        rintro (h1 | h1)
        · exact hne h1
        · exact hline 10 (List.mem_of_mem_getLast? h1) rfl
      rw [linesLog_splitOn_line h n line hline hne, hcnt, if_neg hif]
    | cons d rest1 =>
      have hdd : d = 10 := by simpa using hafter d (by simp)
      subst hdd
      rw [linesLog_splitOn_newline h n line rest1 hline, List.count_append, lineMsgs_count,
        ih rest1 (n + 1) (by simp at hfuel; omega), Nat.zero_add]
      by_cases hr : rest1 = []
      · subst hr
        rw [if_pos (Or.inl rfl), if_pos]
        right
        simp
      · have hlast : (line ++ 10 :: rest1).getLast? = rest1.getLast? := by
          rw [List.getLast?_append]
          obtain ⟨x, xs, hx⟩ := List.exists_cons_of_ne_nil hr
          subst hx
          rw [List.getLast?_cons_cons]
          cases hq : (x :: xs).getLast? with
          | none => simp at hq
          | some y => rfl
        rw [hlast]
        by_cases hq : rest1.getLast? = some 10
        · rw [if_pos (Or.inr hq), if_pos (Or.inr hq)]
        · rw [if_neg, if_neg]
          · rintro (h1 | h1)
            · simp at h1
            · exact hq h1
          · rintro (h1 | h1)
            · exact hr h1
            · exact hq h1

/-- The fields the tokenizer reports on a line alone, when it counts 4, are the fields
of the line. -/
theorem fieldPieces_of_tokens (line : List Nat) (h0 : ∀ b ∈ line, b ≠ 0) (r : TokResult)
    (fs : List (List Nat))
    (htok : parse_tokens0 [none, none, none, none] 4 (line ++ [0]) 0 line.length 9 = .ok r)
    (hcount : r.count = 4) (hfs : r.fields 4 = .ok fs) : fieldPieces 9 line = fs := by
  have hspec := parse_tokens0_spec 9 4 (by decide) [] line [] [none, none, none, none] (by decide)
  simp only [List.nil_append, List.length_nil] at hspec
  have hread := fields_read 9 (by decide) line.length line (le_refl _) h0 [] []
  simp only [List.nil_append, List.length_nil] at hread
  have hlen := mapE_length _ _ _ hread
  have hfields : (TokResult.mk (fieldStarts 9 0 line).length
        (writeSlots 4 [none, none, none, none] 0 (fieldStarts 9 0 line))
        (nulRuns 9 false line ++ [0])).fields 4 = .ok ((fieldPieces 9 line).take 4) := by
    simp only [TokResult.fields]
    rw [writeSlots_take 4 _ _ (by decide), mapE_slotString]
    exact mapE_take _ _ _ 4 hread
  rw [hspec] at htok
  injection htok with htok
  subst htok
  simp only at hcount
  rw [hfields] at hfs
  injection hfs with hfs
  rw [← hfs, List.take_of_length_le (by omega)]

/-! ## Config parser: the entry array -/

/-- With `length ≤ 16` entries in a block of 0 bytes (no entry yet) or 512 bytes, the
write of the next entry lies in the block, after the growth test of the code, exactly
when `length < 16`. -/
theorem fits_check (n : Nat) (hn : n ≤ 16) :
    ((n + 1) * sizeofMountEntry ≤
        (if n = (if n = 0 then 0 else 512) then
          (if n = 0 then 0 else 512) + 16 * sizeofMountEntry
         else (if n = 0 then 0 else 512))) ↔ n + 1 ≤ 16 := by
  simp only [sizeofMountEntry]
  split_ifs <;> omega

theorem fits_reserved (n : Nat) (hn : n + 1 ≤ 16) :
    (if n = (if n = 0 then 0 else 512) then
        (if n = 0 then 0 else 512) + 16 * sizeofMountEntry
     else (if n = 0 then 0 else 512)) = 512 := by
  simp only [sizeofMountEntry]
  split_ifs <;> omega

/-- One line of the document, tokenized and validated in place, from a `Config` of at
most 16 entries whose block has 0 bytes (no entry) or 512: the line's rule, if it makes
one, is appended when it is not the 17th, and its write is a fault when it is. -/
theorem parse_record_full (h line A post : List Nat) (hh : ∀ b ∈ h, b ≠ 0)
    (h0 : ∀ b ∈ line, b ≠ 0) (es : List MountEntry) (dl lineNo : Nat)
    (hes : es.length ≤ 16) :
    ∃ es' msgs,
      parse_record h ⟨es, es.length, (if es.length = 0 then 0 else 512),
          A ++ (line ++ 0 :: post), dl⟩ lineNo A.length (A.length + line.length)
        = (if es'.length ≤ 16 then
            .ok (⟨es', es'.length, (if es'.length = 0 then 0 else 512),
              A ++ (nulRuns 9 false line ++ 0 :: post), dl⟩, msgs)
           else .error .fault)
      ∧ msgs = fieldsMsgs h lineNo (fieldPieces 9 line)
      ∧ es'.length = es.length + (fieldsRule h (fieldPieces 9 line)).toList.length
      ∧ ∀ rs, (∀ X, mapE (ruleOf (A ++ X)) es = .ok rs) →
          ∀ X, mapE (ruleOf (A ++ (nulRuns 9 false line ++ 0 :: X))) es'
            = .ok (rs ++ (fieldsRule h (fieldPieces 9 line)).toList) := by
  have hspec := parse_tokens0_spec 9 4 (by decide) A line post [none, none, none, none]
    (by decide)
  have hread := fun X => fields_read 9 (by decide) line.length line (le_refl _) h0 A X
  have hlen := mapE_length _ _ _ (hread post)
  have hold : ∀ rs, (∀ X, mapE (ruleOf (A ++ X)) es = .ok rs) →
      ∀ X, mapE (ruleOf (A ++ (nulRuns 9 false line ++ 0 :: X))) es = .ok (rs ++ []) := by
    intro rs hrs X
    rw [List.append_nil]
    exact hrs _
  rw [parse_record, Nat.add_sub_cancel_left, hspec]
  simp only
  by_cases hc : (fieldStarts 9 A.length line).length = 4
  swap
  · have hnone : fieldsRule h (fieldPieces 9 line) = none := fieldsRule_length h _ (by omega)
    refine ⟨es, [.malformed lineNo], ?_, ?_, ?_, ?_⟩
    · simp [hc, hes]
    · rw [fieldsMsgs_length h _ _ (by omega)]
    · rw [hnone]; rfl
    · rw [hnone]
      exact hold
  obtain ⟨p0, p1, p2, p3, hstarts⟩ := list_length_four _ hc
  obtain ⟨f0, f1, f2, f3, hfs⟩ := list_length_four (fieldPieces 9 line) (by omega)
  rw [hstarts, hfs] at hread
  have hne : ∀ f ∈ [f1, f2, f3], f ≠ [] := by
    intro f hf
    refine (fieldPieces_tail_mem 9 line f ?_).1
    rw [hfs]
    exact hf
  obtain ⟨b2, t2, hf2⟩ : ∃ b t, f2 = b :: t := by
    cases f2 with
    | nil => exact absurd rfl (hne [] (by simp))
    | cons b t => exact ⟨b, t, rfl⟩
  obtain ⟨b3, t3, hf3⟩ : ∃ b t, f3 = b :: t := by
    cases f3 with
    | nil => exact absurd rfl (hne [] (by simp))
    | cons b t => exact ⟨b, t, rfl⟩
  have hstr : ∀ X, cstr (A ++ (nulRuns 9 false line ++ 0 :: X)) p0 = .ok f0
      ∧ cstr (A ++ (nulRuns 9 false line ++ 0 :: X)) p1 = .ok f1
      ∧ cstr (A ++ (nulRuns 9 false line ++ 0 :: X)) p2 = .ok f2
      ∧ cstr (A ++ (nulRuns 9 false line ++ 0 :: X)) p3 = .ok f3 := by
    intro X
    obtain ⟨w, x, y, z, hw, h1, h2, h3, h4⟩ := mapE_four _ _ _ _ _ _ (hread X)
    injection hw with hw1 hw
    injection hw with hw2 hw
    injection hw with hw3 hw
    injection hw with hw4 hw
    subst hw1 hw2 hw3 hw4
    exact ⟨h1, h2, h3, h4⟩
  obtain ⟨hs0, hs1, hs2, hs3⟩ := hstr post
  have hl2 := load_of_cstr _ _ _ _ (hf2 ▸ hs2)
  have hl3 := load_of_cstr _ _ _ _ (hf3 ▸ hs3)
  rw [hstarts]
  simp only [List.length_cons, List.length_nil, writeSlots, tokenAt, tokenString, tokenFirst,
    if_true, show (0 : Nat) < 4 by decide, show (0 + 1 : Nat) < 4 by decide,
    show (0 + 1 + 1 : Nat) < 4 by decide, show (0 + 1 + 1 + 1 : Nat) < 4 by decide,
    List.set, List.getElem?_cons_zero, List.getElem?_cons_succ, ne_eq, not_true_eq_false,
    if_false, hs0, hs1, hl2, hl3, cstrOf_eq h hh]
  rw [hfs]
  have hmsgs := fieldsMsgs_four h lineNo f0 f1 t2 t3 b2 b3
  rw [← hf2, ← hf3] at hmsgs
  by_cases hmode : ¬ f1 = [114, 111] ∧ ¬ f1 = [114, 119]
  · have hnone : fieldsRule h [f0, f1, f2, f3] = none := by
      simp [fieldsRule, hmode.1, hmode.2]
    refine ⟨es, [.malformedCol2 lineNo], ?_, ?_, ?_, ?_⟩
    · rw [if_pos hmode, if_pos hes]
    · rw [hmsgs, if_pos hmode]
    · rw [hnone]; rfl
    · rw [hnone]
      exact hold
  rw [if_neg hmode]
  rw [if_neg hmode] at hmsgs
  by_cases hhost : ¬ h = f0
  · have hne0 : ¬ f0 = h := fun e => hhost e.symm
    have hnone : fieldsRule h [f0, f1, f2, f3] = none := by
      simp only [fieldsRule]
      rw [if_neg]
      rintro ⟨_, hb, _⟩
      exact hne0 hb
    refine ⟨es, [], ?_, ?_, ?_, ?_⟩
    · rw [if_pos hhost, if_pos hes]
    · rw [hmsgs, if_pos hne0]
    · rw [hnone]; rfl
    · rw [hnone]
      exact hold
  rw [if_neg hhost]
  have hhost' : f0 = h := by
    by_contra hne'
    exact hhost (fun e => hne' e.symm)
  rw [if_neg (fun hc => hc hhost')] at hmsgs
  have hshapeNone : (¬ b2 = 47 ∨ b3 = 47) → fieldsRule h [f0, f1, f2, f3] = none := by
    intro hshape
    subst hf2 hf3
    simp only [fieldsRule, List.head?_cons, Option.some.injEq, ne_eq]
    rw [if_neg]
    rintro ⟨_, _, hb2, hb3⟩
    rcases hshape with hsh | hsh
    · exact hsh hb2
    · exact hb3 hsh
  by_cases hsh2 : ¬ b2 = 47
  · refine ⟨es, [.pathShape lineNo], ?_, ?_, ?_, ?_⟩
    · rw [if_pos hsh2, if_pos hes]
    · rw [hmsgs, if_pos (Or.inl hsh2)]
    · rw [hshapeNone (Or.inl hsh2)]; rfl
    · rw [hshapeNone (Or.inl hsh2)]
      exact hold
  rw [if_neg hsh2]
  by_cases hsh3 : b3 = 47
  · refine ⟨es, [.pathShape lineNo], ?_, ?_, ?_, ?_⟩
    · rw [if_pos hsh3, if_pos hes]
    · rw [hmsgs, if_pos (Or.inr hsh3)]
    · rw [hshapeNone (Or.inr hsh3)]; rfl
    · rw [hshapeNone (Or.inr hsh3)]
      exact hold
  rw [if_neg hsh3]
  have hmode' : f1 = [114, 111] ∨ f1 = [114, 119] := by
    by_contra hcon
    exact hmode ⟨fun e => hcon (Or.inl e), fun e => hcon (Or.inr e)⟩
  have hsh2' : b2 = 47 := by
    by_contra hcon
    exact hsh2 hcon
  have hrule : fieldsRule h [f0, f1, f2, f3]
      = some { hostname := f0, source := f2, dest := f3, isReadOnly := decide (f1 = [114, 111]) } := by
    subst hf2 hf3
    simp only [fieldsRule, List.head?_cons, Option.some.injEq, ne_eq]
    rw [if_pos ⟨hmode', hhost', hsh2', hsh3⟩]
  refine ⟨es ++ [⟨p0, p2, p3, decide (f1 = [114, 111])⟩], [], ?_, ?_, ?_, ?_⟩
  · by_cases hroom : es.length + 1 ≤ 16
    · have h1 := (fits_check es.length hes).2 hroom
      have h2 := fits_reserved es.length hroom
      rw [if_neg (fun hn => hn h1), h2]
      simp [hroom]
    · have h1 : ¬ ((es.length + 1) * sizeofMountEntry ≤
          (if es.length = (if es.length = 0 then 0 else 512) then
            (if es.length = 0 then 0 else 512) + 16 * sizeofMountEntry
           else (if es.length = 0 then 0 else 512))) :=
        fun hc => hroom ((fits_check es.length hes).1 hc)
      rw [if_pos h1]
      simp [hroom]
  · rw [hmsgs, if_neg]
    rintro (hx | hx)
    · exact hx hsh2'
    · exact hsh3 hx
  · rw [hrule]
    simp
  · intro rs hrs X
    rw [hrule]
    obtain ⟨hx0, _, hx2, hx3⟩ := hstr X
    refine mapE_concat _ _ _ ?_ es rs (hrs _)
    simp only [ruleOf, hx0, hx2, hx3]

/-- The body of the loop for one line, with what it prints, from a `Config` of at most
16 entries. -/
theorem parse_line_full (h line A post : List Nat) (hh : ∀ b ∈ h, b ≠ 0)
    (h0 : ∀ b ∈ line, b ≠ 0) (es : List MountEntry) (dl lineNo : Nat)
    (hes : es.length ≤ 16) :
    ∃ es' L, L.length = line.length
      ∧ es'.length = es.length + (lineRule h line).toList.length
      ∧ parse_line h ⟨es, es.length, (if es.length = 0 then 0 else 512),
            A ++ (line ++ 0 :: post), dl⟩ lineNo A.length (A.length + line.length)
          = (if es'.length ≤ 16 then
              .ok (⟨es', es'.length, (if es'.length = 0 then 0 else 512),
                A ++ (L ++ 0 :: post), dl⟩, lineMsgs h lineNo line)
             else .error .fault)
      ∧ ∀ rs, (∀ X, mapE (ruleOf (A ++ X)) es = .ok rs) →
          ∀ X, mapE (ruleOf (A ++ (L ++ 0 :: X))) es' = .ok (rs ++ (lineRule h line).toList) := by
  rw [parse_line]
  simp only [load_line_start A line post]
  by_cases hg : (line.head?).getD 0 = 35 ∨ (line.head?).getD 0 = 0
  · have hnone : lineRule h line = none := by
      rw [lineRule_eq h line h0, if_pos ((line_guard line h0).1 hg)]
    refine ⟨es, line, rfl, ?_, ?_, ?_⟩
    · rw [hnone]; rfl
    · rw [if_pos hg, if_pos hes, lineMsgs, if_pos ((line_guard line h0).1 hg)]
    · intro rs hrs X
      rw [hnone]
      simp only [Option.toList, List.append_nil]
      exact hrs _
  · obtain ⟨es', msgs, hrun, hmsgs, hlen', hinv⟩ :=
      parse_record_full h line A post hh h0 es dl lineNo hes
    subst hmsgs
    have hrule : lineRule h line = fieldsRule h (fieldPieces 9 line) := by
      rw [lineRule_eq h line h0, if_neg (fun hc => hg ((line_guard line h0).2 hc))]
    refine ⟨es', nulRuns 9 false line, nulRuns_length 9 line false, ?_, ?_, ?_⟩
    · rw [hrule]
      exact hlen'
    · rw [if_neg hg, hrun, lineMsgs, if_neg (fun hc => hg ((line_guard line h0).2 hc))]
    · rw [hrule]
      exact hinv

/-- One iteration of the `while` loop of `parse_config`, from a `Config` of at most 16
entries, with what it prints: the warning for the missing newline when the line ends at
the terminator of the data (`sep = 0`), then the messages of the line.  The iteration
ends in a fault when the line makes a 17th rule. -/
theorem parse_config_loop_step_full (h line A post : List Nat) (hh : ∀ b ∈ h, b ≠ 0)
    (h0 : ∀ b ∈ line, b ≠ 0) (hl : ∀ b ∈ line, b ≠ 10) (es : List MountEntry)
    (dl lineNo fuel sep : Nat) (log : List Msg) (hes : es.length ≤ 16)
    (hcase : (sep = 10 ∧ A.length + line.length < dl)
      ∨ (sep = 0 ∧ dl = A.length + line.length ∧ line ≠ [])) :
    ∃ es' L, L.length = line.length
      ∧ es'.length = es.length + (lineRule h line).toList.length
      ∧ parse_config_loop h (fuel + 1) lineNo A.length
            ⟨es, es.length, (if es.length = 0 then 0 else 512),
              A ++ (line ++ sep :: post), dl⟩ log
          = (if es'.length ≤ 16 then
              parse_config_loop h fuel (lineNo + 1) (A.length + line.length + 1)
                ⟨es', es'.length, (if es'.length = 0 then 0 else 512),
                  A ++ (L ++ 0 :: post), dl⟩
                ((log ++ (if sep = 10 then [] else [Msg.missingNewline]))
                  ++ lineMsgs h (lineNo + 1) line)
             else .error .fault)
      ∧ ∀ rs, (∀ X, mapE (ruleOf (A ++ X)) es = .ok rs) →
          ∀ X, mapE (ruleOf (A ++ (L ++ 0 :: X))) es' = .ok (rs ++ (lineRule h line).toList) := by
  have hlt : A.length < dl := by
    rcases hcase with ⟨_, h1⟩ | ⟨_, h1, h2⟩
    · omega
    · have := List.length_pos.2 h2
      omega
  have hmc : memchr (List.drop A.length (A ++ (line ++ sep :: post))) A.length 10 (dl - A.length)
      = .ok (if sep = 10 then some (A.length + line.length) else none) := by
    rw [List.drop_left]
    rcases hcase with ⟨h1, h2⟩ | ⟨h1, h2, _⟩
    · subst h1
      rw [if_pos rfl]
      exact memchr_some 10 line post A.length _ hl (by omega)
    · subst h1
      rw [if_neg (by decide), h2, Nat.add_sub_cancel_left]
      exact memchr_none 10 line (0 :: post) A.length hl
  have hend : (if sep = 10 then some (A.length + line.length) else none).getD dl
      = A.length + line.length := by
    rcases hcase with ⟨h1, _⟩ | ⟨h1, h2, _⟩
    · rw [if_pos h1]; rfl
    · subst h1
      rw [if_neg (by decide), h2]; rfl
  have hload : load (A ++ (line ++ sep :: post)) (A.length + line.length) = .ok sep := by
    have := load_append_cons (A ++ line) post sep (A.length + line.length) (by simp)
    simpa using this
  have hstore : store (A ++ (line ++ sep :: post)) (A.length + line.length) 0
      = .ok (A ++ (line ++ 0 :: post)) := by
    have := store_append_cons (A ++ line) post sep 0 (A.length + line.length) (by simp)
    simpa using this
  obtain ⟨es', L, hL, hlen', hrun, hinv⟩ :=
    parse_line_full h line A post hh h0 es dl (lineNo + 1) hes
  refine ⟨es', L, hL, hlen', ?_, hinv⟩
  rw [parse_config_loop]
  simp only [if_pos hlt, hmc, hend, hload]
  by_cases hs : sep = 10
  · by_cases hfit : es'.length ≤ 16
    · rw [if_pos hfit] at hrun
      simp only [if_pos hs, hstore, Except.map, hrun, List.append_nil, if_pos hfit]
    · rw [if_neg hfit] at hrun
      simp only [if_pos hs, hstore, Except.map, hrun, if_neg hfit]
  · have hs0 : sep = 0 := by
      rcases hcase with ⟨h1, _⟩ | ⟨h1, _⟩
      · exact absurd h1 hs
      · exact h1
    subst hs0
    by_cases hfit : es'.length ≤ 16
    · rw [if_pos hfit] at hrun
      simp only [if_neg hs, hrun, if_pos hfit]
    · rw [if_neg hfit] at hrun
      simp only [if_neg hs, hrun, if_neg hfit]

theorem docRules_length_line (h line : List Nat) (hl : ∀ b ∈ line, b ≠ 10) :
    (docRules h line).length = (lineRule h line).toList.length := by
  rw [docRules_line h line hl]

theorem docRules_length_newline (h line rest : List Nat) (hl : ∀ b ∈ line, b ≠ 10) :
    (docRules h (line ++ 10 :: rest)).length
      = (lineRule h line).toList.length + (docRules h rest).length := by
  rw [docRules_newline h line rest hl, List.length_append]

/-- The `while` loop of `parse_config`, started at the offset where `rest` begins, from
a `Config` of at most 16 entries.  When the rules of `rest` bring the number of entries
to at most 16, it returns, the rules of the `Config` it leaves are those it had followed
by the rules of `rest`, and it prints the log of the lines of `rest`; when they bring it
above 16, the run ends in the fault of the write of the 17th entry. -/
theorem parse_config_loop_full (h : List Nat) (hh : ∀ b ∈ h, b ≠ 0) :
    ∀ (fuel : Nat) (rest A : List Nat) (es : List MountEntry) (lineNo : Nat)
      (log : List Msg) (rs : List Rule),
      rest.length < fuel → (∀ b ∈ rest, b ≠ 0) → (∀ X, mapE (ruleOf (A ++ X)) es = .ok rs) →
      es.length ≤ 16 →
      (es.length + (docRules h rest).length ≤ 16 →
        ∃ c',
          parse_config_loop h fuel lineNo A.length
              ⟨es, es.length, (if es.length = 0 then 0 else 512), A ++ (rest ++ [0]),
                A.length + rest.length⟩ log
            = .ok (c', log ++ linesLog h lineNo (rest.splitOn 10))
          ∧ c'.rules = .ok (rs ++ docRules h rest)
          ∧ c'.length = es.length + (docRules h rest).length
          ∧ c'.reserved = (if c'.length = 0 then 0 else 512))
      ∧ (16 < es.length + (docRules h rest).length →
          parse_config_loop h fuel lineNo A.length
              ⟨es, es.length, (if es.length = 0 then 0 else 512), A ++ (rest ++ [0]),
                A.length + rest.length⟩ log
            = .error .fault) := by
  intro fuel
  induction fuel with
  | zero => intro rest A es lineNo log rs hf; omega
  | succ fuel ih =>
    intro rest A es lineNo log rs hfuel h0 hrs hes
    by_cases hnil : rest = []
    · subst hnil
      rw [docRules_nil, linesLog_splitOn_nil, List.append_nil]
      refine ⟨fun _ => ⟨⟨es, es.length, (if es.length = 0 then 0 else 512), A ++ ([] ++ [0]),
          A.length + ([] : List Nat).length⟩,
          parse_config_loop_exit h fuel lineNo _ _ log (by simp), ?_, rfl, rfl⟩,
        fun hc => ?_⟩
      · simp only [Config.rules, List.take_length, List.append_nil]
        exact hrs _
      · simp only [List.length_nil, Nat.add_zero] at hc
        omega
    obtain ⟨line, after, hrest, hline, hafter⟩ := exists_span (fun x => x ≠ 10) rest
    subst hrest
    have hl0 : ∀ b ∈ line, b ≠ 0 := fun b hb => h0 b (by simp [hb])
    cases after with
    | nil =>
      have hne : line ≠ [] := by simpa using hnil
      obtain ⟨es', L, hL, hlen', hstep, hinv⟩ :=
        parse_config_loop_step_full h line A [] hh hl0 hline es (A.length + line.length)
          lineNo fuel 0 log hes (Or.inr ⟨rfl, rfl, hne⟩)
      have hfuel1 : ∃ f, fuel = f + 1 := by
        have := List.length_pos.2 hne
        simp only [List.append_nil] at hfuel
        exact ⟨fuel - 1, by omega⟩
      obtain ⟨f, hf⟩ := hfuel1
      simp only [List.append_nil]
      rw [hstep, hf, docRules_length_line h line hline, ← hlen']
      constructor
      · intro hfit
        rw [if_pos hfit]
        refine ⟨⟨es', es'.length, (if es'.length = 0 then 0 else 512), A ++ (L ++ [0]),
          A.length + line.length⟩, ?_, ?_, rfl, rfl⟩
        · rw [parse_config_loop_exit h f _ _ _ _ (by simp),
            linesLog_splitOn_line h lineNo line hline hne,
            if_neg (show ¬ ((0 : Nat) = 10) by decide)]
          simp
        · simp only [Config.rules, List.take_length]
          rw [docRules_line h line hline]
          exact hinv rs hrs []
      · intro hfit
        rw [if_neg (by omega)]
    | cons d rest1 =>
      have hdd : d = 10 := by simpa using hafter d (by simp)
      subst hdd
      obtain ⟨es', L, hL, hlen', hstep, hinv⟩ :=
        parse_config_loop_step_full h line A (rest1 ++ [0]) hh hl0 hline es
          (A.length + (line ++ 10 :: rest1).length) lineNo fuel 10 log hes
          (Or.inl ⟨rfl, by simp⟩)
      have hmem : A ++ ((line ++ 10 :: rest1) ++ [0]) = A ++ (line ++ 10 :: (rest1 ++ [0])) := by
        simp
      rw [hmem, hstep, docRules_length_newline h line rest1 hline]
      by_cases hfit : es'.length ≤ 16
      swap
      · rw [if_neg hfit]
        exact ⟨fun hc => absurd (by omega) hfit, fun _ => rfl⟩
      rw [if_pos hfit]
      have hA : A.length + line.length + 1 = (A ++ (L ++ [0])).length := by
        simp [hL]; omega
      have hdl : A.length + (line ++ 10 :: rest1).length = (A ++ (L ++ [0])).length + rest1.length := by
        simp [hL]; omega
      have hmem2 : A ++ (L ++ 0 :: (rest1 ++ [0])) = (A ++ (L ++ [0])) ++ (rest1 ++ [0]) := by
        simp
      rw [hA, hdl, hmem2]
      have hrs' : ∀ X, mapE (ruleOf ((A ++ (L ++ [0])) ++ X)) es' = .ok (rs ++ (lineRule h line).toList) := by
        intro X
        have := hinv rs hrs X
        simpa using this
      obtain ⟨ih1, ih2⟩ := ih rest1 (A ++ (L ++ [0])) es' (lineNo + 1)
        ((log ++ (if (10 : Nat) = 10 then [] else [Msg.missingNewline]))
            ++ lineMsgs h (lineNo + 1) line)
        (rs ++ (lineRule h line).toList) (by simp at hfuel; omega)
        (fun b hb => h0 b (by simp [hb])) hrs' hfit
      constructor
      · intro hc
        obtain ⟨c', hrun, hrules, hclen, hcrsv⟩ := ih1 (by omega)
        refine ⟨c', ?_, ?_, ?_, hcrsv⟩
        · rw [hrun, linesLog_splitOn_newline h lineNo line rest1 hline]
          simp
        · rw [hrules, docRules_newline h line rest1 hline, List.append_assoc]
        · rw [hclen, hlen']
          omega
      · intro hc
        exact ih2 (by omega)

/-- On a non-empty document without NUL bytes: when at most 16 lines make a rule,
`parse_config` returns, the rules it leaves are the rules of the lines and it prints the
log of the lines; when more than 16 lines make a rule, the run ends in the fault of the
write of the 17th entry, outside the block of 512 bytes. -/
theorem parse_config_full (doc h : List Nat) (hne : doc ≠ []) (h0 : ∀ b ∈ doc, b ≠ 0)
    (hh : ∀ b ∈ h, b ≠ 0) :
    ((docRules h doc).length ≤ 16 →
      ∃ c, parse_config (Config.ofDoc doc) (some h) = .ok (c, linesLog h 0 (doc.splitOn 10))
        ∧ c.rules = .ok (docRules h doc)
        ∧ c.length = (docRules h doc).length
        ∧ c.reserved = (if c.length = 0 then 0 else 512))
    ∧ (16 < (docRules h doc).length →
        parse_config (Config.ofDoc doc) (some h) = .error .fault) := by
  have hpos : doc.length > 0 := List.length_pos.2 hne
  have hload : load (doc ++ [0]) doc.length = .ok 0 := load_append_cons doc [] 0 _ rfl
  have hmc : memchr (doc ++ [0]) 0 0 doc.length = .ok none := memchr_none 0 doc [0] 0 h0
  have hloop := parse_config_loop_full h hh (doc.length + 1) doc [] [] 0 [] []
    (by omega) h0 (fun _ => rfl) (by simp)
  simp only [List.nil_append, List.length_nil, Nat.zero_add, if_true] at hloop
  have hrun : parse_config (Config.ofDoc doc) (some h)
      = parse_config_loop h (doc.length + 1) 0 0 ⟨[], 0, 0, doc ++ [0], doc.length⟩ [] := by
    simp only [parse_config, Config.ofDoc, hpos, not_true_eq_false, if_false, hload, ne_eq,
      hmc]
  rw [hrun]
  exact hloop

/-- A document can only be parsed to the end when at most 16 of its lines make a rule. -/
theorem parse_config_ok_le (doc h : List Nat) (hne : doc ≠ []) (h0 : ∀ b ∈ doc, b ≠ 0)
    (hh : ∀ b ∈ h, b ≠ 0) (c : Config) (log : List Msg)
    (hrun : parse_config (Config.ofDoc doc) (some h) = .ok (c, log)) :
    (docRules h doc).length ≤ 16 := by
  by_contra hcon
  have := (parse_config_full doc h hne h0 hh).2 (by omega)
  rw [this] at hrun
  simp at hrun

/-- A line with four fields whose mode is `ro` or `rw` and whose host is not the
requested one: the body of the loop returns before the path tests and before the append,
whatever the entry array holds. -/
theorem parse_record_host_mismatch (h line A post : List Nat) (hh : ∀ b ∈ h, b ≠ 0)
    (h0 : ∀ b ∈ line, b ≠ 0) (es : List MountEntry) (n rsv dl lineNo : Nat)
    (host mode source dest : List Nat)
    (hpieces : fieldPieces 9 line = [host, mode, source, dest])
    (hmode : mode = [114, 111] ∨ mode = [114, 119]) (hhost : host ≠ h) :
    parse_record h ⟨es, n, rsv, A ++ (line ++ 0 :: post), dl⟩ lineNo A.length
        (A.length + line.length)
      = .ok (⟨es, n, rsv, A ++ (nulRuns 9 false line ++ 0 :: post), dl⟩, []) := by
  have hspec := parse_tokens0_spec 9 4 (by decide) A line post [none, none, none, none]
    (by decide)
  have hread := fields_read 9 (by decide) line.length line (le_refl _) h0 A post
  have hlen := mapE_length _ _ _ hread
  have hc : (fieldStarts 9 A.length line).length = 4 := by
    rw [← hlen, hpieces]
    rfl
  obtain ⟨p0, p1, p2, p3, hstarts⟩ := list_length_four _ hc
  rw [hstarts, hpieces] at hread
  obtain ⟨w, x, y, z, hw, hs0, hs1, _, _⟩ := mapE_four _ _ _ _ _ _ hread
  injection hw with hw1 hw
  injection hw with hw2 hw
  subst hw1 hw2
  have hnotbad : ¬ (¬ mode = [114, 111] ∧ ¬ mode = [114, 119]) := by
    rintro ⟨h1, h2⟩
    rcases hmode with hm | hm
    · exact h1 hm
    · exact h2 hm
  have hhost' : ¬ h = host := fun e => hhost e.symm
  rw [parse_record, Nat.add_sub_cancel_left, hspec]
  simp only
  rw [hstarts]
  simp only [List.length_cons, List.length_nil, writeSlots, tokenAt, tokenString,
    if_true, show (0 : Nat) < 4 by decide, show (0 + 1 : Nat) < 4 by decide,
    show (0 + 1 + 1 : Nat) < 4 by decide, show (0 + 1 + 1 + 1 : Nat) < 4 by decide,
    List.set, List.getElem?_cons_zero, List.getElem?_cons_succ, ne_eq, not_true_eq_false,
    if_false, hs0, hs1, cstrOf_eq h hh]
  rw [if_neg hnotbad, if_pos hhost']

set_option maxRecDepth 100000 in
theorem seventeenRules_valid : seventeenRules ≠ [] ∧ (∀ b ∈ seventeenRules, b ≠ 0) := by
  decide

/-- The run on the document of 17 rules ends in the fault of the 17th write. -/
theorem parse_config_seventeenRules :
    parse_config (Config.ofDoc seventeenRules) (some (bytes "h")) = .error .fault := by
  set_option maxRecDepth 100000 in decide

/-! ## Config parser: claims -/

set_option maxRecDepth 100000 in
/-- C1, the code at a failing input: the document of 17 lines `h<TAB>ro<TAB>/<TAB>d` is
non-empty and without NUL bytes, each of its lines makes a rule for the host `h` (17
rules are claimed), and `parse_config` does not return on it: the write of the 17th
entry lies outside the block of 512 bytes.  The claim holds when at most 16 lines make a
rule: then `parse_config` returns and leaves exactly the rules of the lines, in order
(as on the three-line example, which gives the two rules of `vm3`); with more than 16,
no run returns. -/
theorem parse_config_rules_overflow :
    seventeenRules ≠ [] ∧ (∀ b ∈ seventeenRules, b ≠ 0)
    ∧ ((seventeenRules.splitOn 10).filterMap (lineRule (bytes "h"))).length = 17
    ∧ parse_config (Config.ofDoc seventeenRules) (some (bytes "h")) = .error .fault
    ∧ (∀ doc h : List Nat, doc ≠ [] → (∀ b ∈ doc, b ≠ 0) → (∀ b ∈ h, b ≠ 0) →
        ((doc.splitOn 10).filterMap (lineRule h)).length ≤ 16 →
        ∃ c log, parse_config (Config.ofDoc doc) (some h) = .ok (c, log)
          ∧ c.rules = .ok ((doc.splitOn 10).filterMap (lineRule h)))
    ∧ (∀ doc h : List Nat, doc ≠ [] → (∀ b ∈ doc, b ≠ 0) → (∀ b ∈ h, b ≠ 0) →
        16 < ((doc.splitOn 10).filterMap (lineRule h)).length →
        parse_config (Config.ofDoc doc) (some h) = .error .fault)
    ∧ (∃ c log, parse_config (Config.ofDoc exampleDoc) (some (bytes "vm3")) = .ok (c, log)
        ∧ c.rules = .ok [{ hostname := bytes "vm3", source := bytes "/pool/web",
                           dest := bytes "services/nginx", isReadOnly := true },
                         { hostname := bytes "vm3", source := bytes "/pool/db",
                           dest := bytes "services/db", isReadOnly := false }]) := by
  refine ⟨seventeenRules_valid.1, seventeenRules_valid.2, by decide,
    parse_config_seventeenRules, ?_, ?_, ?_⟩
  · intro doc h hne h0 hh hle
    obtain ⟨c, hrun, hrules, _⟩ := (parse_config_full doc h hne h0 hh).1 hle
    exact ⟨c, _, hrun, hrules⟩
  · intro doc h hne h0 hh hlt
    exact (parse_config_full doc h hne h0 hh).2 hlt
  · obtain ⟨c, hrun, hrules, _⟩ :=
      (parse_config_full exampleDoc (bytes "vm3") (by decide) (by decide) (by decide)).1
        (by decide)
    refine ⟨c, _, hrun, ?_⟩
    rw [hrules]
    decide

/-- C2: for every non-empty document without NUL bytes and every requested hostname `h`,
every rule of a `Config` that `parse_config` returns has a source that is non-empty and
begins with `/`, a destination that is non-empty and does not begin with `/`, and the
hostname `h`; and `parse_config` returns when at most 16 lines make a rule. -/
theorem parse_config_rule_invariants (doc h : List Nat) (hne : doc ≠ [])
    (h0 : ∀ b ∈ doc, b ≠ 0) (hh : ∀ b ∈ h, b ≠ 0) :
    (∀ c log, parse_config (Config.ofDoc doc) (some h) = .ok (c, log) →
      ∃ rs, c.rules = .ok rs
        ∧ ∀ r ∈ rs, r.source ≠ [] ∧ r.source.head? = some 47 ∧ r.dest ≠ []
            ∧ r.dest.head? ≠ some 47 ∧ r.hostname = h)
    ∧ ((docRules h doc).length ≤ 16 →
        ∃ c log, parse_config (Config.ofDoc doc) (some h) = .ok (c, log)) := by
  constructor
  · intro c log hrun
    have hle := parse_config_ok_le doc h hne h0 hh c log hrun
    obtain ⟨c0, hrun0, hrules, _⟩ := (parse_config_full doc h hne h0 hh).1 hle
    rw [hrun0] at hrun
    injection hrun with hrun
    injection hrun with hc _
    subst hc
    refine ⟨_, hrules, ?_⟩
    intro r hr
    obtain ⟨h1, h2, h3, h4, h5⟩ := docRules_mem h doc h0 r hr
    exact ⟨h2, h3, h4, h5, h1⟩
  · intro hle
    obtain ⟨c, hrun, _⟩ := (parse_config_full doc h hne h0 hh).1 hle
    exact ⟨c, _, hrun⟩

theorem parse_config_rule_invariants_witness :
    ∃ c log rs, parse_config (Config.ofDoc exampleDoc) (some (bytes "vm2")) = .ok (c, log)
      ∧ c.rules = .ok rs ∧ rs.length = 1
      ∧ ∀ r ∈ rs, r.source ≠ [] ∧ r.source.head? = some 47 ∧ r.dest ≠ []
          ∧ r.dest.head? ≠ some 47 ∧ r.hostname = bytes "vm2" := by
  obtain ⟨hinv, hret⟩ :=
    parse_config_rule_invariants exampleDoc (bytes "vm2") (by decide) (by decide) (by decide)
  obtain ⟨c, log, hrun⟩ := hret (by decide)
  obtain ⟨rs, hrules, hall⟩ := hinv c log hrun
  refine ⟨c, log, rs, hrun, hrules, ?_, hall⟩
  obtain ⟨c0, hrun0, hrules0, _⟩ :=
    (parse_config_full exampleDoc (bytes "vm2") (by decide) (by decide) (by decide)).1
      (by decide)
  rw [hrun0] at hrun
  injection hrun with hrun
  injection hrun with hc _
  subst hc
  rw [hrules0] at hrules
  injection hrules with hrules
  rw [← hrules]
  decide

set_option maxRecDepth 100000 in
/-- C17, the code at a failing input: on the first 16 lines of the document of 17 rules
`parse_config` returns with `c->length = 16` and `c->reserved = 512`: the test
`c->length == c->reserved` compares a count of entries with a count of bytes, so after
the first growth (0 to 512 bytes, 16 entries) it is not true again before `length`
reaches 512.  The 17th append writes the entry at index 16, bytes 512 to 543 of the block
of 512 bytes, `(16 + 1) * sizeof (MountEntry) = 544 > 512`: the run on the 17 lines ends
in this fault, as does the run on every document of which more than 16 lines make a
rule. -/
theorem parse_config_reserved_too_small :
    (parse_config (Config.ofDoc (seventeenRules.take (16 * 9))) (some (bytes "h"))).map
        (fun p => (p.1.length, p.1.reserved, p.1.entry.length, p.2)) = .ok (16, 512, 16, [])
    ∧ ¬ ((16 + 1) * sizeofMountEntry ≤ 512)
    ∧ parse_config (Config.ofDoc seventeenRules) (some (bytes "h")) = .error .fault
    ∧ (∀ doc h : List Nat, doc ≠ [] → (∀ b ∈ doc, b ≠ 0) → (∀ b ∈ h, b ≠ 0) →
        16 < (docRules h doc).length →
        parse_config (Config.ofDoc doc) (some h) = .error .fault) := by
  refine ⟨by decide, by decide, parse_config_seventeenRules, ?_⟩
  intro doc h hne h0 hh hlt
  exact (parse_config_full doc h hne h0 hh).2 hlt

theorem parse_config_never_enforce (doc h : List Nat) (hne : doc ≠ [])
    (h0 : ∀ b ∈ doc, b ≠ 0) (site : Site) :
    parse_config (Config.ofDoc doc) (some h) ≠ .error (.enforce site) := by
  rw [← parse_config_cstrOf]
  by_cases hle : (docRules (cstrOf h) doc).length ≤ 16
  · obtain ⟨c, hrun, _⟩ :=
      (parse_config_full doc (cstrOf h) hne h0 (cstrOf_ne_zero h)).1 hle
    rw [hrun]
    simp
  · rw [(parse_config_full doc (cstrOf h) hne h0 (cstrOf_ne_zero h)).2 (by omega)]
    simp

/-- C11, the code at a failing input: the document of 17 rules is non-empty and without
NUL bytes, none of its lines is malformed, and `parse_config` does not complete on it:
the run ends in the write of the 17th entry outside the block of 512 bytes.  The rest of
the claim holds.  On every non-empty document without NUL bytes and for every hostname,
no `enforce` fails (neither those of `parse_config` nor those of `parse_tokens0`),
whatever lines it contains, and the run returns when at most 16 lines make a rule.
`parse_config` aborts with its own `enforce` when `dataLen = 0`, when the byte at
`data[dataLen]` is not NUL, and when a byte before `dataLen` is NUL (reporting the
offset of the first such byte). -/
theorem parse_config_aborts_on_seventeen_rules :
    seventeenRules ≠ [] ∧ (∀ b ∈ seventeenRules, b ≠ 0)
    ∧ parse_config (Config.ofDoc seventeenRules) (some (bytes "h")) = .error .fault
    ∧ (∀ doc h : List Nat, doc ≠ [] → (∀ b ∈ doc, b ≠ 0) →
        (docRules (cstrOf h) doc).length ≤ 16 →
        ∃ c log rs, parse_config (Config.ofDoc doc) (some h) = .ok (c, log) ∧ c.rules = .ok rs)
    ∧ (∀ doc h : List Nat, doc ≠ [] → (∀ b ∈ doc, b ≠ 0) → ∀ site,
        parse_config (Config.ofDoc doc) (some h) ≠ .error (.enforce site))
    ∧ (∀ (c : Config) (h : List Nat), c.dataLen = 0 →
        parse_config c (some h) = .error (.enforce .noFileData))
    ∧ (∀ (c : Config) (h : List Nat) (b : Nat), 0 < c.dataLen → c.data[c.dataLen]? = some b →
        b ≠ 0 → parse_config c (some h) = .error (.enforce .dataNotTerminated))
    ∧ (∀ (c : Config) (h : List Nat) (k : Nat), k < c.dataLen → c.data[k]? = some 0 →
        c.data[c.dataLen]? = some 0 →
        ∃ off, off ≤ k ∧ c.data[off]? = some 0
          ∧ parse_config c (some h) = .error (.enforce (.embeddedNul off))) := by
  refine ⟨seventeenRules_valid.1, seventeenRules_valid.2, parse_config_seventeenRules,
    ?_, ?_, ?_, ?_, ?_⟩
  · intro doc h hne h0 hle
    obtain ⟨c, hrun, hrules, _⟩ :=
      (parse_config_full doc (cstrOf h) hne h0 (cstrOf_ne_zero h)).1 hle
    rw [parse_config_cstrOf] at hrun
    exact ⟨c, _, _, hrun, hrules⟩
  · intro doc h hne h0 site
    exact parse_config_never_enforce doc h hne h0 site
  · intro c h hlen
    simp [parse_config, hlen]
  · intro c h b hpos hb hne
    have hpos' : c.dataLen > 0 := hpos
    simp only [parse_config, hpos', not_true_eq_false, if_false, load, hb, ne_eq, hne,
      not_false_eq_true, if_true]
  · intro c h k hk hzero hterm
    obtain ⟨pre, rest, hdata, hpre, hrest⟩ := exists_span (fun x => x ≠ 0) c.data
    have hle : pre.length ≤ k := by
      by_contra hcon
      have hlt : k < pre.length := by omega
      rw [hdata, List.getElem?_append_left hlt] at hzero
      exact hpre 0 (List.getElem?_mem hzero) rfl
    cases rest with
    | nil =>
      exfalso
      rw [hdata, List.append_nil] at hzero
      exact hpre 0 (List.getElem?_mem hzero) rfl
    | cons x post =>
      have hx : x = 0 := by
        have := hrest x (by simp)
        simpa using this
      subst hx
      refine ⟨pre.length, hle, ?_, parse_config_embedded_nul c h pre post hdata hpre
        (by omega) hterm⟩
      rw [hdata, List.getElem?_append_right (le_refl _)]
      simp

set_option maxRecDepth 100000 in
/-- C14, the code at a failing input: the document of 17 rules without its final newline
is non-empty, without NUL bytes, and its last byte is not a newline; `parse_config` completes
neither on it nor on it followed by a newline: both runs end in the write of the 17th
entry outside the block of 512 bytes, so neither yields a rule set.  The claim holds when
at most 16 lines make a rule: both runs return, they leave the same rules, and the
warning for the missing final newline is printed exactly once when the document does not
end with a newline and not at all when it does. -/
theorem parse_config_final_newline_overflow :
    seventeenRules.dropLast ≠ [] ∧ (∀ b ∈ seventeenRules.dropLast, b ≠ 0)
    ∧ seventeenRules.dropLast.getLast? ≠ some 10
    ∧ parse_config (Config.ofDoc seventeenRules.dropLast) (some (bytes "h")) = .error .fault
    ∧ parse_config (Config.ofDoc (seventeenRules.dropLast ++ [10])) (some (bytes "h"))
        = .error .fault
    ∧ (∀ doc h : List Nat, doc ≠ [] → (∀ b ∈ doc, b ≠ 0) → (∀ b ∈ h, b ≠ 0) →
        (docRules h doc).length ≤ 16 →
        ∃ c log c' log' rs,
          parse_config (Config.ofDoc doc) (some h) = .ok (c, log)
          ∧ parse_config (Config.ofDoc (doc ++ [10])) (some h) = .ok (c', log')
          ∧ c.rules = .ok rs ∧ c'.rules = .ok rs
          ∧ log.count Msg.missingNewline = (if doc.getLast? = some 10 then 0 else 1)
          ∧ log'.count Msg.missingNewline = 0)
    ∧ (∀ doc h : List Nat, doc ≠ [] → (∀ b ∈ doc, b ≠ 0) → (∀ b ∈ h, b ≠ 0) →
        16 < (docRules h doc).length →
        parse_config (Config.ofDoc doc) (some h) = .error .fault
        ∧ parse_config (Config.ofDoc (doc ++ [10])) (some h) = .error .fault) := by
  have hnl : ∀ doc : List Nat, (∀ b ∈ doc, b ≠ 0) → ∀ b ∈ doc ++ [10], b ≠ 0 := by
    intro doc h0 b hb
    rcases List.mem_append.1 hb with h1 | h1
    · exact h0 b h1
    · simp only [List.mem_singleton] at h1
      subst h1
      decide
  refine ⟨by decide, by decide, by decide, by decide, by decide, ?_, ?_⟩
  · intro doc h hne h0 hh hle
    obtain ⟨c, hrun, hrules, _⟩ := (parse_config_full doc h hne h0 hh).1 hle
    obtain ⟨c', hrun', hrules', _⟩ :=
      (parse_config_full (doc ++ [10]) h (by simp) (hnl doc h0) hh).1
        (by rw [docRules_append_newline]; exact hle)
    refine ⟨c, _, c', _, docRules h doc, hrun, hrun', hrules, ?_, ?_, ?_⟩
    · rw [hrules', docRules_append_newline]
    · rw [linesLog_count h (doc.length + 1) doc 0 (by omega)]
      by_cases hq : doc.getLast? = some 10
      · rw [if_pos (Or.inr hq), if_pos hq]
      · rw [if_neg, if_neg hq]
        rintro (h1 | h1)
        · exact hne h1
        · exact hq h1
    · rw [linesLog_count h ((doc ++ [10]).length + 1) (doc ++ [10]) 0 (by omega), if_pos]
      right
      simp
  · intro doc h hne h0 hh hlt
    exact ⟨(parse_config_full doc h hne h0 hh).2 hlt,
      (parse_config_full (doc ++ [10]) h (by simp) (hnl doc h0) hh).2
        (by rw [docRules_append_newline]; exact hlt)⟩

/-- C16: a line that does not start with `#`, on which the tokenizer on tab counts 4
fields `host, mode, source, destination`, whose mode is `ro` or `rw` and whose host is
not the requested hostname, adds no rule and prints nothing, whatever its source and
destination.  The body of the loop of `parse_config` returns on it with the entry array,
`length` and `reserved` as they were and no message, whatever the state of the entry
array; and for a document whose lines are `L1`, that line, `L2`: every run of
`parse_config` that returns leaves the rules of `L1` followed by those of `L2` and prints
no message that carries the number of that line, and `parse_config` returns when at most
16 lines make a rule. -/
theorem parse_config_host_mismatch (doc h : List Nat) (L1 L2 : List (List Nat))
    (line host mode source dest : List Nat)
    (h0 : ∀ b ∈ doc, b ≠ 0) (hh : ∀ b ∈ h, b ≠ 0)
    (hlines : doc.splitOn 10 = L1 ++ line :: L2)
    (hcomment : line.head? ≠ some 35)
    (htok : ∃ r, parse_tokens0 [none, none, none, none] 4 (line ++ [0]) 0 line.length 9 = .ok r
      ∧ r.count = 4 ∧ r.fields 4 = .ok [host, mode, source, dest])
    (hmode : mode = [114, 111] ∨ mode = [114, 119])
    (hhost : host ≠ h) :
    (∀ (A post : List Nat) (es : List MountEntry) (n rsv dl lineNo : Nat),
        parse_line h ⟨es, n, rsv, A ++ (line ++ 0 :: post), dl⟩ lineNo A.length
            (A.length + line.length)
          = .ok (⟨es, n, rsv, A ++ (nulRuns 9 false line ++ 0 :: post), dl⟩, []))
    ∧ (∀ c log, parse_config (Config.ofDoc doc) (some h) = .ok (c, log) →
        c.rules = .ok (L1.filterMap (lineRule h) ++ L2.filterMap (lineRule h))
        ∧ ∀ m ∈ log, m.lineNo ≠ some (L1.length + 1))
    ∧ ((L1.filterMap (lineRule h)).length + (L2.filterMap (lineRule h)).length ≤ 16 →
        ∃ c log, parse_config (Config.ofDoc doc) (some h) = .ok (c, log)) := by
  have hmemline : line ∈ doc.splitOn 10 := by
    rw [hlines]
    simp
  have hl0 : ∀ b ∈ line, b ≠ 0 := fun b hb =>
    h0 b (splitOnP_subset (fun b => b == 10) doc line hmemline b hb)
  obtain ⟨r, hrun, hcount, hfs⟩ := htok
  have hpieces := fieldPieces_of_tokens line hl0 r _ hrun hcount hfs
  have hlne : line ≠ [] := by
    intro hnil
    subst hnil
    rw [fieldPieces_nil] at hpieces
    simp at hpieces
  have hguard : ¬ (line = [] ∨ line.head? = some 35) := by
    rintro (h1 | h1)
    · exact hlne h1
    · exact hcomment h1
  have hnotbad : ¬ (mode ≠ [114, 111] ∧ mode ≠ [114, 119]) := by
    rintro ⟨h1, h2⟩
    rcases hmode with hm | hm
    · exact h1 hm
    · exact h2 hm
  have hmsgs : ∀ n, lineMsgs h n line = [] := by
    intro n
    rw [lineMsgs, if_neg hguard, hpieces]
    simp only [fieldsMsgs]
    rw [if_neg hnotbad, if_pos hhost]
  have hrule : lineRule h line = none := by
    rw [lineRule_eq h line hl0, if_neg hguard, hpieces]
    simp only [fieldsRule]
    rw [if_neg]
    rintro ⟨_, hb, _⟩
    exact hhost hb
  have hne : doc ≠ [] := by
    intro hnil
    subst hnil
    have : line ∈ ([[]] : List (List Nat)) := hmemline
    simp only [List.mem_singleton] at this
    exact hlne this
  have hdoc : docRules h doc = L1.filterMap (lineRule h) ++ L2.filterMap (lineRule h) := by
    rw [docRules, hlines, List.filterMap_append, List.filterMap_cons, hrule]
  refine ⟨?_, ?_, ?_⟩
  · intro A post es n rsv dl lineNo
    rw [parse_line]
    simp only [load_line_start A line post]
    rw [if_neg (fun hc => hguard ((line_guard line hl0).1 hc))]
    exact parse_record_host_mismatch h line A post hh hl0 es n rsv dl lineNo host mode source
      dest hpieces hmode hhost
  · intro c log hrunc
    have hle := parse_config_ok_le doc h hne h0 hh c log hrunc
    obtain ⟨c0, hrun0, hrules, _⟩ := (parse_config_full doc h hne h0 hh).1 hle
    rw [hrun0] at hrunc
    injection hrunc with hrunc
    injection hrunc with hc hlog
    subst hc
    subst hlog
    refine ⟨by rw [hrules, hdoc], ?_⟩
    intro m hm hno
    rw [hlines] at hm
    rcases linesLog_mem h _ 0 m hm with h1 | ⟨k, line', hk, hmem⟩
    · subst h1
      simp [Msg.lineNo] at hno
    · have hnum := lineMsgs_lineNo h _ line' m hmem
      rw [hno] at hnum
      have hk' : k = L1.length := by
        injection hnum with hnum
        omega
      subst hk'
      rw [List.getElem?_append_right (le_refl _), Nat.sub_self,
        List.getElem?_cons_zero] at hk
      injection hk with hk
      subst hk
      rw [hmsgs] at hmem
      simp at hmem
  · intro hle
    obtain ⟨c, hrunc, _⟩ := (parse_config_full doc h hne h0 hh).1
      (by rw [hdoc, List.length_append]; exact hle)
    exact ⟨c, _, hrunc⟩

theorem parse_config_host_mismatch_witness :
    parse_line (bytes "vm3") ⟨[], 0, 0, [] ++ (bytes "vm2\tro\trel\t/abs" ++ 0 :: []), 16⟩ 1
        ([] : List Nat).length (([] : List Nat).length + (bytes "vm2\tro\trel\t/abs").length)
      = .ok (⟨[], 0, 0, [] ++ (nulRuns 9 false (bytes "vm2\tro\trel\t/abs") ++ 0 :: []), 16⟩, [])
    ∧ ∃ c log, parse_config (Config.ofDoc (bytes "# c\nvm2\tro\trel\t/abs\nvm3\trw\t/s\td\n"))
        (some (bytes "vm3")) = .ok (c, log)
      ∧ c.rules = .ok (([bytes "# c"] : List (List Nat)).filterMap (lineRule (bytes "vm3"))
          ++ ([bytes "vm3\trw\t/s\td", []] : List (List Nat)).filterMap (lineRule (bytes "vm3")))
      ∧ ∀ m ∈ log, m.lineNo ≠ some (([bytes "# c"] : List (List Nat)).length + 1) := by
  obtain ⟨hline, hdoc, hret⟩ :=
    parse_config_host_mismatch (bytes "# c\nvm2\tro\trel\t/abs\nvm3\trw\t/s\td\n") (bytes "vm3")
      [bytes "# c"] [bytes "vm3\trw\t/s\td", []] (bytes "vm2\tro\trel\t/abs")
      (bytes "vm2") (bytes "ro") (bytes "rel") (bytes "/abs")
      (by decide) (by decide) (by decide) (by decide)
      ⟨⟨4, [some 0, some 4, some 7, some 11],
          [118, 109, 50, 0, 114, 111, 0, 114, 101, 108, 0, 47, 97, 98, 115, 0]⟩,
        by decide, by decide, by decide⟩
      (Or.inl (by decide)) (by decide)
  obtain ⟨c, log, hrun⟩ := hret (by decide)
  exact ⟨hline [] [] [] 0 0 16 1, c, log, hrun, hdoc c log hrun⟩

end VirtiofsHelper
